import Mathlib

/-!
# xv6 lab kernel: block cache, page allocator, mapped-region manager

A shallow embedding of `kernel/bio.c`, `kernel/kalloc.c` and `kernel/mmap.c`
and the properties proved about them.

Conventions of the embedding

* C arrays indexed by a small integer are functions from `Nat`; the array
  bound is carried next to them.
* A null-terminated singly linked chain is the `List` of its elements in
  chain order.
* `uint` / `uint64` arithmetic is `Nat` arithmetic reduced `% 2^32` / `% 2^64`
  wherever the C expression can wrap.
* Calls run one at a time: an operation is a function from the state before
  the call to the state after it.
-/

/-! ## kernel/bio.c -/

namespace Bcache

/-- Number of hash buckets, `#define NBUCKET 13`. -/
def NBUCKET : Nat := 13

/-- The bucket of a block number, `#define hash(n) (n % NBUCKET)`. -/
def hash (n : Nat) : Nat := n % NBUCKET

/-- One cache slot, `struct buf`.  `lock` is the sleep-lock: `none` when free,
`some pid` while process `pid` holds it. -/
structure Buf where
  dev : Nat
  blockno : Nat
  valid : Nat
  refcnt : Nat
  last_used : Nat
  lock : Option Nat
  data : List Nat
deriving DecidableEq, Repr

/-- The cache, `bcache`.  `buf i` is `bcache.buf[i]` for `i < NBUF`; entry `i`
of `bcache.entry` belongs to slot `i` (`buf2entry`), so a chain is a list of
slot indices; `table k` is the chain hanging off `bcache.table[k]`. -/
structure Cache where
  NBUF : Nat
  buf : Nat → Buf
  table : Nat → List Nat

/-- Outcome of a cache call: it returns a value in a new state, it halts the
kernel (`panic`), it sleeps on a held sleep-lock with nobody left to run
(`blocked`, in the state it went to sleep in), or the model ran out of loop
fuel. -/
inductive Res (α : Type) where
  | ok (s : Cache) (a : α)
  | panic (msg : String)
  | blocked (s : Cache)
  | outOfFuel

/-- The state a call leaves behind, `d` when it leaves none. -/
def Res.state {α : Type} (d : Cache) : Res α → Cache
  | .ok s _ => s
  | .blocked s => s
  | _ => d

/-- The value a call returns, if it returns. -/
def Res.val? {α : Type} : Res α → Option α
  | .ok _ a => some a
  | _ => none

/-- Store `b` into slot `i`. -/
def setBuf (s : Cache) (i : Nat) (b : Buf) : Cache :=
  { s with buf := fun j => if j = i then b else s.buf j }

/-- Link entry `ent` at the head of chain `bucket`. -/
def insert (table : Nat → List Nat) (bucket : Nat) (ent : Nat) : Nat → List Nat :=
  fun k => if k = bucket then ent :: table k else table k

/-- Unlink the first occurrence of `ent` from the chain starting at `head`. -/
def remove_recur : List Nat → Nat → List Nat
  | [], _ => []
  | head :: next, ent => if head = ent then next else head :: remove_recur next ent

/-- Unlink entry `ent` from chain `bucket`. -/
def remove (table : Nat → List Nat) (bucket : Nat) (ent : Nat) : Nat → List Nat :=
  fun k => if k = bucket then remove_recur (table k) ent else table k

/-- The zero-initialised slot of the `bcache` global before `binit`. -/
def zeroBuf : Buf :=
  { dev := 0, blockno := 0, valid := 0, refcnt := 0, last_used := 0, lock := none, data := [] }

/-- The zero-initialised `bcache` global. -/
def zeroCache (NBUF : Nat) : Cache :=
  { NBUF := NBUF, buf := fun _ => zeroBuf, table := fun _ => [] }

/-- One iteration of the slot loop of `binit`. -/
def binit_step (s : Cache) (i : Nat) : Cache :=
  let b := { s.buf i with blockno := i, lock := none }
  let s1 := setBuf s i b
  { s1 with table := insert s1.table (hash b.blockno) i }

/-- The state `binit` builds: slot `i` gets block number `i` and is linked into
bucket `hash i`. -/
def binit (NBUF : Nat) : Cache :=
  (List.range NBUF).foldl binit_step (zeroCache NBUF)

/-- The chain walk of `lookup`: the first entry whose slot has identity
`(dev, blockno)`. -/
def lookup_scan (buf : Nat → Buf) (dev blockno : Nat) : List Nat → Option Nat
  | [] => none
  | ent :: next =>
    if (buf ent).dev = dev ∧ (buf ent).blockno = blockno then some ent
    else lookup_scan buf dev blockno next

/-- The function `lookup`: on a hit the slot's reference count is incremented
(`uint`, so modulo `2^32`) and the slot returned; on a miss the result is null
(`none`). -/
def lookup (s : Cache) (dev blockno : Nat) : Cache × Option Nat :=
  let bkind := hash blockno
  match lookup_scan s.buf dev blockno (s.table bkind) with
  | some ent =>
    (setBuf s ent { s.buf ent with refcnt := ((s.buf ent).refcnt + 1) % 2 ^ 32 }, some ent)
  | none => (s, none)

/-- Initial value of `lru_tick`, `(uint64)-1`. -/
def lru_tick_init : Nat := 2 ^ 64 - 1

/-- One iteration of the victim scan of `evict`; the accumulator is
`(lru, lru_tick)` with `lru = none` for `-1`. -/
def lru_step (buf : Nat → Buf) (acc : Option Nat × Nat) (i : Nat) : Option Nat × Nat :=
  if (buf i).refcnt = 0 ∧ (buf i).last_used < acc.2 then (some i, (buf i).last_used)
  else acc

/-- The victim scan `for (int i = 0; i < NBUF; ++i)` of `evict`. -/
def lru_scan (s : Cache) : Option Nat × Nat :=
  (List.range s.NBUF).foldl (lru_step s.buf) (none, lru_tick_init)

/-- The `for(;;)` loop of `evict`: scan for a victim, halt if there is none,
re-check its reference count and leave the loop with it, else scan again. -/
def evict_loop : Nat → Cache → Res Nat
  | 0, _ => .outOfFuel
  | fuel + 1, s =>
    match (lru_scan s).1 with
    | none => .panic "bget: no buffers"
    | some lru =>
      if (s.buf lru).refcnt = 0 then .ok s lru
      else evict_loop fuel s

/-- The tail of `evict`, after the victim `ev` is settled: it gets identity
`(dev, blockno)`, valid flag 0 and reference count 1, and its entry moves from
the old bucket's chain to the head of the new one when the two differ. -/
def evict_assign (s : Cache) (ev dev blockno : Nat) : Cache :=
  let old_bkind := hash (s.buf ev).blockno
  let new_bkind := hash blockno
  let s1 := setBuf s ev { s.buf ev with dev := dev, blockno := blockno, valid := 0, refcnt := 1 }
  if old_bkind ≠ new_bkind then
    { s1 with table := insert (remove s1.table old_bkind ev) new_bkind ev }
  else s1

/-- The function `evict`: look the block up again, otherwise pick a victim,
give it the new identity and move its entry to the new bucket when the bucket
changes. -/
def evict (fuel : Nat) (s : Cache) (dev blockno : Nat) : Res Nat :=
  match lookup s dev blockno with
  | (s1, some res) => .ok s1 res
  | (s1, none) =>
    match evict_loop fuel s1 with
    | .ok s2 ev => .ok (evict_assign s2 ev dev blockno) ev
    | .panic m => .panic m
    | .blocked s2 => .blocked s2
    | .outOfFuel => .outOfFuel

/-- The first two lines of `bget`: `res = lookup(dev, blockno)` and, when that
is null, `res = evict(dev, blockno)`. -/
def bget_slot (fuel : Nat) (s : Cache) (dev blockno : Nat) : Res Nat :=
  match lookup s dev blockno with
  | (s1, some res) => .ok s1 res
  | (s1, none) => evict fuel s1 dev blockno

/-- The function `bget` called by process `pid`: lookup, else evict, then
`acquiresleep` on the slot, which sleeps while the lock is held. -/
def bget (fuel : Nat) (pid : Nat) (s : Cache) (dev blockno : Nat) : Res Nat :=
  match bget_slot fuel s dev blockno with
  | .ok s1 res =>
    match (s1.buf res).lock with
    | none => .ok (setBuf s1 res { s1.buf res with lock := some pid }) res
    | some _ => .blocked s1
  | other => other

/-- The function `bread` called by process `pid`; `disk dev blockno` is what
`virtio_disk_rw(b, 0)` delivers.  The result is the slot and whether the disk
was read. -/
def bread (disk : Nat → Nat → List Nat) (fuel : Nat) (pid : Nat) (s : Cache)
    (dev blockno : Nat) : Res (Nat × Bool) :=
  match bget fuel pid s dev blockno with
  | .ok s1 b =>
    if (s1.buf b).valid = 0 then
      .ok (setBuf s1 b { s1.buf b with
            data := disk (s1.buf b).dev (s1.buf b).blockno, valid := 1 }) (b, true)
    else .ok s1 (b, false)
  | .panic m => .panic m
  | .blocked s1 => .blocked s1
  | .outOfFuel => .outOfFuel

/-- The function `brelse` called by process `pid` on slot `b`, with the global
`ticks` (a `uint`) passed in. -/
def brelse (pid : Nat) (ticks : Nat) (s : Cache) (b : Nat) : Res Unit :=
  if (s.buf b).lock ≠ some pid then .panic "brelse"
  else
    let s1 := setBuf s b { s.buf b with last_used := ticks % 2 ^ 32 }
    let s2 := setBuf s1 b { s1.buf b with lock := none }
    .ok (setBuf s2 b { s2.buf b with refcnt := ((s2.buf b).refcnt + 2 ^ 32 - 1) % 2 ^ 32 }) ()

/-- The function `bpin`. -/
def bpin (s : Cache) (b : Nat) : Cache :=
  setBuf s b { s.buf b with refcnt := ((s.buf b).refcnt + 1) % 2 ^ 32 }

/-- The function `bunpin`. -/
def bunpin (s : Cache) (b : Nat) : Cache :=
  setBuf s b { s.buf b with refcnt := ((s.buf b).refcnt + 2 ^ 32 - 1) % 2 ^ 32 }

/-- A spin-lock of `bio.c`: `bcache.lock`, named "bcache.evict", and the
bucket locks `bcache.bklock[k]`. -/
inductive Lock where
  | evict
  | bucket (k : Nat)
deriving DecidableEq, Repr

/-- A statement that stores to the reference count of slot `slot`, with the
spin-locks the caller holds when it runs, the last acquired first. -/
structure RefWrite where
  slot : Nat
  held : List Lock
deriving DecidableEq, Repr

/-- The stores to a reference count that `lookup` makes when entered with the
spin-locks `held`: it acquires `bcache.bklock[bkind]` and, on a hit, runs
`ent->buf->refcnt++` before releasing it. -/
def lookup_refs (held : List Lock) (s : Cache) (dev blockno : Nat) : List RefWrite :=
  let bkind := hash blockno
  let held1 := Lock.bucket bkind :: held
  match lookup_scan s.buf dev blockno (s.table bkind) with
  | some ent => [{ slot := ent, held := held1 }]
  | none => []

/-- The stores to a reference count that `evict` makes when entered with the
spin-locks `held`: it acquires `bcache.lock`, calls `lookup`, and on a miss
leaves the victim loop holding `bcache.bklock[lru_bkind]` as well, the lock of
the bucket of the victim's old block number, and runs `evict->refcnt = 1`
before it relinks the entry and releases the locks. -/
def evict_refs (fuel : Nat) (held : List Lock) (s : Cache) (dev blockno : Nat) :
    List RefWrite :=
  let held1 := Lock.evict :: held
  match lookup s dev blockno with
  | (_, some _) => lookup_refs held1 s dev blockno
  | (s1, none) =>
    match evict_loop fuel s1 with
    | .ok s2 ev =>
      let lru_bkind := hash (s2.buf ev).blockno
      [{ slot := ev, held := Lock.bucket lru_bkind :: held1 }]
    | _ => []

/-- The stores to a reference count that `bget`, and so `bread`, makes: those
of `lookup` and, on a miss, those of `evict`; no spin-lock is held on entry. -/
def bget_refs (fuel : Nat) (s : Cache) (dev blockno : Nat) : List RefWrite :=
  match lookup s dev blockno with
  | (_, some _) => lookup_refs [] s dev blockno
  | (s1, none) => evict_refs fuel [] s1 dev blockno

/-- The store to a reference count that `brelse` makes: `b->refcnt--` between
`acquire(&bcache.bklock[hash(b->blockno)])` and the matching release; none
when it halts the kernel first. -/
def brelse_refs (pid : Nat) (s : Cache) (b : Nat) : List RefWrite :=
  if (s.buf b).lock ≠ some pid then []
  else [{ slot := b, held := [Lock.bucket (hash (s.buf b).blockno)] }]

/-- The store to a reference count that `bpin` makes: `b->refcnt++` between
`acquire(&bcache.lock)` and `release(&bcache.lock)`. -/
def bpin_refs (b : Nat) : List RefWrite :=
  [{ slot := b, held := [Lock.evict] }]

/-- The store to a reference count that `bunpin` makes: `b->refcnt--` between
`acquire(&bcache.lock)` and `release(&bcache.lock)`. -/
def bunpin_refs (b : Nat) : List RefWrite :=
  [{ slot := b, held := [Lock.evict] }]

/-- At the store `w`, made in state `s`, the caller holds the lock of a bucket
whose chain contains the slot stored to. -/
def HoldsBucketLock (s : Cache) (w : RefWrite) : Prop :=
  ∃ k, w.slot ∈ s.table k ∧ Lock.bucket k ∈ w.held

/-- States the cache can be in: the one `binit` builds, and every state
reached from such a state by one more `bread`, `brelse`, `bpin` or `bunpin`
call on a slot of the cache.  A `bread` that goes to sleep on a held lock
leaves its state behind as well. -/
inductive Reachable (NBUF : Nat) : Cache → Prop where
  | init : Reachable NBUF (binit NBUF)
  | bread {s s1 : Cache} {r : Nat × Bool} (disk : Nat → Nat → List Nat)
      (fuel pid dev blockno : Nat) :
      Reachable NBUF s → bread disk fuel pid s dev blockno = .ok s1 r → Reachable NBUF s1
  | bread_blocked {s s1 : Cache} (disk : Nat → Nat → List Nat)
      (fuel pid dev blockno : Nat) :
      Reachable NBUF s → bread disk fuel pid s dev blockno = .blocked s1 → Reachable NBUF s1
  | brelse {s s1 : Cache} (pid ticks b : Nat) :
      Reachable NBUF s → b < NBUF → brelse pid ticks s b = .ok s1 () → Reachable NBUF s1
  | bpin {s : Cache} (b : Nat) : Reachable NBUF s → b < NBUF → Reachable NBUF (bpin s b)
  | bunpin {s : Cache} (b : Nat) : Reachable NBUF s → b < NBUF → Reachable NBUF (bunpin s b)

/-- A three-slot cache after process 7 read block 5 of device 1 and released
it at tick 9. -/
def demoReleased : Cache :=
  (brelse 7 9 ((bread (fun _ _ => []) 1 7 (binit 3) 1 5).state (binit 3)) 0).state (binit 3)

/-- The cache `demoReleased` after process 7 then read block 18 of device 1. -/
def demoCache : Cache :=
  (bread (fun _ _ => []) 1 7 demoReleased 1 18).state (binit 3)

/-- Two slots never share an identity. -/
def UniqueIdent (s : Cache) : Prop :=
  ∀ i j, i < s.NBUF → j < s.NBUF →
    (s.buf i).dev = (s.buf j).dev → (s.buf i).blockno = (s.buf j).blockno → i = j

/-- Every slot is linked in the chain of the bucket its block number hashes to. -/
def Chained (s : Cache) : Prop :=
  ∀ i, i < s.NBUF → i ∈ s.table (hash (s.buf i).blockno)

/-- The invariant carried along every run of the cache. -/
structure Inv (NBUF : Nat) (s : Cache) : Prop where
  size : s.NBUF = NBUF
  unique : UniqueIdent s
  chained : Chained s
  stamp : ∀ i, (s.buf i).last_used < 2 ^ 32

/-- `s1` differs from `s` at most in the reference count, valid flag,
sleep-lock and data of its slots. -/
structure SameIdent (s s1 : Cache) : Prop where
  size : s1.NBUF = s.NBUF
  table : s1.table = s.table
  dev : ∀ i, (s1.buf i).dev = (s.buf i).dev
  blockno : ∀ i, (s1.buf i).blockno = (s.buf i).blockno
  stamp : ∀ i, (s1.buf i).last_used = (s.buf i).last_used

/-- What the victim scan has established after looking at slots `0 .. n-1`,
starting from `(none, t0)`. -/
structure ScanSpec (buf : Nat → Buf) (t0 n : Nat) (r : Option Nat × Nat) : Prop where
  le_init : r.2 ≤ t0
  lower : ∀ j, j < n → (buf j).refcnt = 0 → r.2 ≤ (buf j).last_used
  none_init : r.1 = none → r.2 = t0
  found : ∀ i, r.1 = some i →
    i < n ∧ (buf i).refcnt = 0 ∧ (buf i).last_used = r.2 ∧ (buf i).last_used < t0 ∧
      ∀ j, j < i → (buf j).refcnt = 0 → (buf i).last_used < (buf j).last_used

/-- Every chain is free of repetitions and holds only slots of the cache whose
block number hashes to the bucket of the chain. -/
def Linked (s : Cache) : Prop :=
  ∀ k, (s.table k).Nodup ∧ ∀ e, e ∈ s.table k → e < s.NBUF ∧ hash (s.buf e).blockno = k

end Bcache

/-! ## kernel/kalloc.c -/

/-- Constants the kernel takes from headers that are not among the sources
(`param.h`, `memlayout.h`, `fs.h`, `fcntl.h`, `riscv.h`) and from the linker
script (`end`).  Every definition below takes them as a parameter. -/
structure Config where
  NCPU : Nat
  kend : Nat
  PHYSTOP : Nat
  TRAPFRAME : Nat
  MAXOPBLOCKS : Nat
  BSIZE : Nat
  PROT_READ : Nat
  PROT_WRITE : Nat
  MAP_SHARED : Nat
  PTE_R : Nat
  PTE_W : Nat
  PTE_U : Nat

/-- The values the constants have in xv6 for RISC-V, with the kernel image
ending at `0x80021000`. -/
def xv6 : Config :=
  { NCPU := 8, kend := 0x80021000, PHYSTOP := 0x88000000, TRAPFRAME := 0x3fffffe000,
    MAXOPBLOCKS := 10, BSIZE := 1024, PROT_READ := 1, PROT_WRITE := 2, MAP_SHARED := 1,
    PTE_R := 2, PTE_W := 4, PTE_U := 16 }

/-- Modelled from the spec: the page size `PGSIZE` of `riscv.h`, which is not
among the sources; pages are 4096 bytes. -/
def PGSIZE : Nat := 4096

/-- Modelled from the spec: the macro `PGROUNDUP` of `riscv.h`, which is not
among the sources; it rounds a `uint64` up to page granularity,
`(sz + PGSIZE - 1) & ~(PGSIZE - 1)`. -/
def PGROUNDUP (sz : Nat) : Nat := (sz + PGSIZE - 1) % 2 ^ 64 / PGSIZE * PGSIZE

/-- Modelled from the spec: the macro `PGROUNDDOWN` of `riscv.h`, which is not
among the sources; it rounds a `uint64` down to page granularity,
`a & ~(PGSIZE - 1)`. -/
def PGROUNDDOWN (a : Nat) : Nat := a / PGSIZE * PGSIZE

/-- Physical memory, one byte per address. -/
abbrev Memory := Nat → Nat

/-- The library call `memset(dst, c, n)` on physical memory. -/
def memset (mem : Memory) (dst c n : Nat) : Memory :=
  fun a => if dst ≤ a ∧ a < dst + n then c else mem a

/-- Store the 8-byte little-endian pointer `v` at address `dst`. -/
def store64 (mem : Memory) (dst v : Nat) : Memory :=
  fun a => if dst ≤ a ∧ a < dst + 8 then v / 256 ^ (a - dst) % 256 else mem a

namespace Kalloc

/-- The allocator, `kmems[NCPU]`, with the physical memory it hands out.
`freelist i` is the chain of free pages hanging off `kmems[i].freelist`. -/
structure Kmem where
  freelist : Nat → List Nat
  mem : Memory

/-- The head pointer of a chain, null when it is empty. -/
def headPtr : List Nat → Nat
  | [] => 0
  | r :: _ => r

/-- The function `kfree` run on core `id`; `none` when it halts the kernel. -/
def kfree (cfg : Config) (s : Kmem) (id : Nat) (pa : Nat) : Option Kmem :=
  if pa % PGSIZE ≠ 0 ∨ pa < cfg.kend ∨ pa ≥ cfg.PHYSTOP then none
  else
    let mem1 := memset s.mem pa 1 PGSIZE
    some { freelist := fun i => if i = id then pa :: s.freelist id else s.freelist i,
           mem := store64 mem1 pa (headPtr (s.freelist id)) }

/-- The loop of `freerange`, from page `p` on, run on core `id`. -/
def freerange_loop (cfg : Config) (id pa_end : Nat) (s : Kmem) (p : Nat) : Option Kmem :=
  if p + PGSIZE ≤ pa_end then
    match kfree cfg s id p with
    | none => none
    | some s1 => freerange_loop cfg id pa_end s1 (p + PGSIZE)
  else some s
termination_by pa_end - p
decreasing_by simp only [PGSIZE] at *; omega

/-- The function `freerange` run on core `id`. -/
def freerange (cfg : Config) (id : Nat) (s : Kmem) (pa_start pa_end : Nat) : Option Kmem :=
  freerange_loop cfg id pa_end s (PGROUNDUP pa_start)

/-- The function `kinit` run on core `id` over the memory `mem`: all chains
are empty and the range from `end` to `PHYSTOP` is freed page by page. -/
def kinit (cfg : Config) (id : Nat) (mem : Memory) : Option Kmem :=
  freerange cfg id { freelist := fun _ => [], mem := mem } cfg.kend cfg.PHYSTOP

/-- The loop of `kalloc` over the offsets still to try: the first core
`(id + offset) % NCPU` whose chain is not empty, with the head of its chain. -/
def kalloc_scan (cfg : Config) (s : Kmem) (id : Nat) : List Nat → Option (Nat × Nat)
  | [] => none
  | offset :: rest =>
    let cur_id := (id + offset) % cfg.NCPU
    match s.freelist cur_id with
    | r :: _ => some (cur_id, r)
    | [] => kalloc_scan cfg s id rest

/-- The function `kalloc` run on core `id`: the page found is unlinked from its
chain and filled with the junk byte 5; the result is null (`none`) when the
loop found no page. -/
def kalloc (cfg : Config) (s : Kmem) (id : Nat) : Kmem × Option Nat :=
  match kalloc_scan cfg s id (List.range cfg.NCPU) with
  | some (cur_id, r) =>
    ({ freelist := fun i => if i = cur_id then (s.freelist cur_id).tail else s.freelist i,
       mem := memset s.mem r 5 PGSIZE }, some r)
  | none => (s, none)

/-- Runs of the allocator: `Reachable cfg s used` says that `s` is reached
from a state `kinit` builds by `kalloc` and `kfree` calls on cores
`0 .. NCPU-1`, where `kfree` is only given a page in use, and that `used` are
the pages in use then: returned by `kalloc` and not freed since. -/
inductive Reachable (cfg : Config) : Kmem → List Nat → Prop where
  | init {s : Kmem} (id : Nat) (mem : Memory) :
      id < cfg.NCPU → kinit cfg id mem = some s → Reachable cfg s []
  | kalloc_page {s s1 : Kmem} {used : List Nat} {p : Nat} (id : Nat) :
      Reachable cfg s used → id < cfg.NCPU → kalloc cfg s id = (s1, some p) →
      Reachable cfg s1 (p :: used)
  | kalloc_none {s s1 : Kmem} {used : List Nat} (id : Nat) :
      Reachable cfg s used → id < cfg.NCPU → kalloc cfg s id = (s1, none) →
      Reachable cfg s1 used
  | kfree {s s1 : Kmem} {used : List Nat} (id p : Nat) :
      Reachable cfg s used → id < cfg.NCPU → p ∈ used → kfree cfg s id p = some s1 →
      Reachable cfg s1 (used.erase p)

/-- An allocator with every chain empty over a memory of 0xAA bytes. -/
def noPages : Kmem := { freelist := fun _ => [], mem := fun _ => 0xAA }

end Kalloc

namespace Kalloc

/-- All free pages: the chains of cores `0 .. NCPU-1` one after the other. -/
def allFree (cfg : Config) (s : Kmem) : List Nat :=
  (List.range cfg.NCPU).flatMap s.freelist

/-- The invariant of the allocator: no page is twice in a chain or in two
chains, and the pages in use are pairwise different and in no chain. -/
structure PoolInv (s : Kmem) (used : List Nat) : Prop where
  nodup : ∀ i, (s.freelist i).Nodup
  disj : ∀ i j, i ≠ j → ∀ p, p ∈ s.freelist i → p ∉ s.freelist j
  used_nodup : used.Nodup
  used_free : ∀ p, p ∈ used → ∀ i, p ∉ s.freelist i

/-- A configuration with two cores and three pages, `0x2000`, `0x3000` and
`0x4000`, between `end` and `PHYSTOP`. -/
def tiny : Config := { xv6 with NCPU := 2, kend := 8000, PHYSTOP := 20480 }

/-- The allocator of `tiny` as core 0 initialises it over zeroed memory. -/
def tinyInit : Kmem :=
  (kinit tiny 0 (fun _ => 0)).getD { freelist := fun _ => [], mem := fun _ => 0 }

/-- The allocator `tinyInit` after core 1 and then core 0 allocated a page each
and core 1 freed page `0x4000`. -/
def tinyRun : Kmem :=
  (kfree tiny (kalloc tiny (kalloc tiny tinyInit 1).1 0).1 1 16384).getD tinyInit

end Kalloc

/-! ## kernel/mmap.c -/

namespace Mmap

/-- An open file, `struct file` of `file.h`, as far as `mmap.c` looks at it. -/
structure File where
  readable : Bool
  writable : Bool
  ref : Nat
  ip : Nat
deriving DecidableEq, Repr

/-- One region-table slot, `struct vma` of `proc.h`.  `ofile` is the pointer to
the open file, `none` for null.  A slot is free when `addr` is 0. -/
structure Vma where
  addr : Nat
  length : Nat
  readable : Bool
  writeable : Bool
  shared : Bool
  ofile : Option Nat
  offset : Nat
deriving DecidableEq, Repr

/-- A slot after `memset(free, 0, sizeof(*free))`. -/
def Vma.zero : Vma :=
  { addr := 0, length := 0, readable := false, writeable := false, shared := false,
    ofile := none, offset := 0 }

/-- The process as far as `mmap.c` looks at it: the region table
`p->mvma[NVMA]`, the descriptor table `p->ofile[fd]` and the page table, which
maps a page-aligned virtual address to the physical page and the permission
bits installed there. -/
structure Proc where
  NVMA : Nat
  mvma : Nat → Vma
  ofile : Nat → Option Nat
  pagetable : Nat → Option (Nat × Nat)

/-- A call `mmap.c` makes into the file layer or the page-table layer that the
trace keeps: `writei(ip, 1, src, off, n)` with its result `r`, and
`uvmunmap(pagetable, va, 1, 1)`. -/
inductive Event where
  | writei (ip src off : Nat) (n r : Int)
  | uvmunmap (va : Nat)
deriving DecidableEq, Repr

/-- The kernel as far as `mmap.c` looks at it: the current process, the table
of open files, the page allocator with physical memory, and the trace of the
calls made so far. -/
structure Kernel where
  proc : Proc
  ftable : Nat → File
  kmem : Kalloc.Kmem
  trace : List Event

/-- Modelled from the spec: the file layer and the page-table layer, which are
not among the sources.  `writei` is `write_file(file, source_buffer,
file_offset, length) -> bytes_transferred_or_error`, `readi` is `read_file`
with the bytes it transfers (`none` for the error), `mappages` tells whether
`install_mapping` succeeds.  Each may depend on the whole state at the call. -/
structure Ext where
  writei : Kernel → Nat → Nat → Nat → Int → Int
  readi : Kernel → Nat → Nat → Nat → Nat → Option (List Nat)
  mappages : Kernel → Nat → Nat → Nat → Bool

/-- Outcome of a call: it returns a value in a new state, it halts the kernel,
or the model ran out of loop fuel. -/
inductive Res (α : Type) where
  | ok (k : Kernel) (a : α)
  | panic
  | outOfFuel

/-- The state a call returns in, `d` when it does not return. -/
def Res.state {α : Type} (d : Kernel) : Res α → Kernel
  | .ok k _ => k
  | _ => d

/-- The value a call returns, if it returns. -/
def Res.val? {α : Type} : Res α → Option α
  | .ok _ a => some a
  | _ => none

/-- Store `v` into slot `i` of the region table. -/
def setVma (k : Kernel) (i : Nat) (v : Vma) : Kernel :=
  { k with proc := { k.proc with mvma := fun j => if j = i then v else k.proc.mvma j } }

/-- One iteration of the slot loop of `vma_alloc`; the accumulator is
`(vma_top, free)`. -/
def vma_alloc_step (mvma : Nat → Vma) (acc : Nat × Option Nat) (i : Nat) : Nat × Option Nat :=
  let vma_top := if (mvma i).addr ≠ 0 ∧ (mvma i).addr < acc.1 then (mvma i).addr else acc.1
  let free := if (mvma i).addr = 0 ∧ acc.2 = none then some i else acc.2
  (vma_top, free)

/-- The length `vma_alloc` leaves in `*length`: with `min = *addr` and
`max = *addr + *length`, it is `PGROUNDUP(max) - PGROUNDDOWN(min)`. -/
def rounded_len (addr length : Nat) : Nat :=
  let min := addr
  let max := (addr + length) % 2 ^ 64
  let addr1 := PGROUNDDOWN min
  (PGROUNDUP max + 2 ^ 64 - addr1) % 2 ^ 64

/-- The slot loop of `vma_alloc`: the lowest base of an occupied slot, or
`VMA_TOP`, which is `TRAPFRAME`, and the first free slot. -/
def vma_alloc_scan (cfg : Config) (p : Proc) : Nat × Option Nat :=
  (List.range p.NVMA).foldl (vma_alloc_step p.mvma) (cfg.TRAPFRAME, none)

/-- The function `vma_alloc`: the first free slot (`none` for null) with the
values it leaves in `*addr` and `*length`. -/
def vma_alloc (cfg : Config) (p : Proc) (addr length : Nat) : Option Nat × Nat × Nat :=
  let length1 := rounded_len addr length
  let r := vma_alloc_scan cfg p
  (r.2, (r.1 + 2 ^ 64 - length1) % 2 ^ 64, length1)

/-- The slot walk of `vma_hit` over the slots still to look at. -/
def vma_hit_scan (mvma : Nat → Vma) (addr : Nat) : List Nat → Option Nat
  | [] => none
  | i :: rest =>
    if (mvma i).addr ≠ 0 ∧ (mvma i).addr ≤ addr ∧
        addr < ((mvma i).addr + (mvma i).length) % 2 ^ 64 then some i
    else vma_hit_scan mvma addr rest

/-- The function `vma_hit`: the first occupied slot whose range holds `addr`. -/
def vma_hit (p : Proc) (addr : Nat) : Option Nat :=
  vma_hit_scan p.mvma addr (List.range p.NVMA)

/-- Modelled from the spec: `filedup` of `file.c`, which is not among the
sources; it duplicates the reference to an open file. -/
def filedup (k : Kernel) (f : Nat) : Kernel :=
  { k with ftable := fun g => if g = f then { k.ftable f with ref := (k.ftable f).ref + 1 }
                              else k.ftable g }

/-- Modelled from the spec: `fileclose` of `file.c`, which is not among the
sources; it releases one reference to an open file. -/
def fileclose (k : Kernel) (f : Nat) : Kernel :=
  { k with ftable := fun g => if g = f then { k.ftable f with ref := (k.ftable f).ref - 1 }
                              else k.ftable g }

/-- The failure value `(void*) -1` of `mmap`. -/
def MAP_FAILED : Nat := 2 ^ 64 - 1

/-- The values `mmap` stores into the slot it got: `free->addr = addr` down to
`free->offset = offset`. -/
def mmap_fill (cfg : Config) (k : Kernel) (addr1 length1 prot flags fd offset : Nat) : Vma :=
  { addr := addr1, length := length1, ofile := k.proc.ofile fd,
    readable := decide (prot &&& cfg.PROT_READ ≠ 0),
    writeable := decide (prot &&& cfg.PROT_WRITE ≠ 0),
    shared := decide (flags &&& cfg.MAP_SHARED ≠ 0),
    offset := offset }

/-- The function `mmap`. -/
def mmap (cfg : Config) (k : Kernel) (addr length prot flags fd offset : Nat) : Kernel × Nat :=
  match vma_alloc cfg k.proc addr length with
  | (none, _, _) => (k, MAP_FAILED)
  | (some free, addr1, length1) =>
    let v : Vma := mmap_fill cfg k addr1 length1 prot flags fd offset
    let bad : Kernel × Nat := (setVma k free Vma.zero, MAP_FAILED)
    match v.ofile with
    | none => bad
    | some f =>
      if v.shared ∧ ¬ (k.ftable f).readable ∧ v.readable then bad
      else if v.shared ∧ ¬ (k.ftable f).writable ∧ v.writeable then bad
      else if ¬ v.shared ∧ ¬ (k.ftable f).readable then bad
      else (filedup (setVma k free v) f, addr1)

/-- The chunk size of `vma_write`, `((MAXOPBLOCKS-1-1-2) / 2) * BSIZE`. -/
def vma_write_max (cfg : Config) : Int :=
  (((cfg.MAXOPBLOCKS : Int) - 1 - 1 - 2).tdiv 2) * (cfg.BSIZE : Int)

/-- The size `n1` of the next chunk of `vma_write`: `n - i`, cut down to
`max`. -/
def vma_write_chunk (cfg : Config) (n i : Int) : Int :=
  if n - i > vma_write_max cfg then vma_write_max cfg else n - i

/-- The `while` loop of `vma_write`; the loop state is the kernel (for the
trace), `off` and `i`.  The result is the final `i`. -/
def vma_write_loop (cfg : Config) (ext : Ext) (ip addr : Nat) (n : Int) :
    Nat → Kernel → Nat → Int → Res Int
  | 0, _, _, _ => .outOfFuel
  | fuel + 1, k, off, i =>
    if i < n then
      let n1 := vma_write_chunk cfg n i
      let src := ((addr : Int) + i).toNat % 2 ^ 64
      let r := ext.writei k ip src off n1
      let off1 := if r > 0 then ((off : Int) + r).toNat % 2 ^ 64 else off
      let k1 := { k with trace := k.trace ++ [Event.writei ip src off n1 r] }
      if r ≠ n1 then .ok k1 i
      else vma_write_loop cfg ext ip addr n fuel k1 off1 (i + r)
    else .ok k i

/-- The function `vma_write`: `n` when all of it was written, else `-1`. -/
def vma_write (cfg : Config) (ext : Ext) (k : Kernel) (ip addr off : Nat) (n : Int) : Res Int :=
  match vma_write_loop cfg ext ip addr n (n.toNat + 1) k off 0 with
  | .ok k1 i => .ok k1 (if i = n then n else -1)
  | .panic => .panic
  | .outOfFuel => .outOfFuel

/-- Modelled from the spec: `walkaddr` of `vm.c`, which is not among the
sources; `translate(table, virtual_address) -> physical_address_or_none`, with
0 for none. -/
def walkaddr (pagetable : Nat → Option (Nat × Nat)) (va : Nat) : Nat :=
  match pagetable (PGROUNDDOWN va) with
  | some (pa, _) => pa
  | none => 0

/-- Modelled from the spec: `uvmunmap(pagetable, va, 1, 1)` of `vm.c`, which is
not among the sources; `remove_mapping(table, virtual_address, page_count,
also_free_physical)` for one page with the physical page released to the
allocator by `kfree` on core `cpu`. -/
def uvmunmap (cfg : Config) (cpu : Nat) (k : Kernel) (va : Nat) : Res Unit :=
  let k1 := { k with trace := k.trace ++ [Event.uvmunmap va] }
  match k.proc.pagetable (PGROUNDDOWN va) with
  | none => .ok k1 ()
  | some (pa, _) =>
    match Kalloc.kfree cfg k.kmem cpu pa with
    | none => .panic
    | some km =>
      .ok { k1 with
            kmem := km,
            proc := { k.proc with
              pagetable := fun a => if a = PGROUNDDOWN va then none else k.proc.pagetable a } } ()

/-- The `n` addresses `c`, `c + PGSIZE`, `c + 2 * PGSIZE`, ... -/
def pagesFrom (c n : Nat) : List Nat :=
  (List.range n).map (fun j => c + j * PGSIZE)

/-- The addresses `cur_addr` takes in `for (cur_addr = min; cur_addr < max;
cur_addr += PGSIZE)`. -/
def page_steps (min max : Nat) : List Nat :=
  pagesFrom min ((max - min + PGSIZE - 1) / PGSIZE)

/-- The three updates that end a round of the page loop of `munmap`:
`target->addr += PGSIZE`, `target->offset += PGSIZE`, `target->length -= PGSIZE`,
each in `uint64`. -/
def vma_advance (v : Vma) : Vma :=
  { v with
    addr := (v.addr + PGSIZE) % 2 ^ 64,
    offset := (v.offset + PGSIZE) % 2 ^ 64,
    length := (v.length + 2 ^ 64 - PGSIZE) % 2 ^ 64 }

/-- The statement `if (walkaddr(p->pagetable, cur_addr) != 0) { ... }` of the
page loop of `munmap` on slot `t`.  The result is `-1` when the write-back
failed, which makes `munmap` return `-1`, and `0` otherwise. -/
def munmap_page (cfg : Config) (ext : Ext) (cpu : Nat) (t : Nat) (cur_addr : Nat) (k : Kernel) :
    Res Int :=
  let target := k.proc.mvma t
  if walkaddr k.proc.pagetable cur_addr ≠ 0 then
    let wb : Res Int :=
      if target.shared ∧ target.writeable then
        match target.ofile with
        | none => .panic
        | some f =>
          vma_write cfg ext k (k.ftable f).ip cur_addr
            ((cur_addr + 2 ^ 64 - target.addr + target.offset) % 2 ^ 64) PGSIZE
      else .ok k 0
    match wb with
    | .ok k1 r =>
      if r = -1 then .ok k1 (-1)
      else
        match uvmunmap cfg cpu k1 cur_addr with
        | .ok k2 _ => .ok k2 0
        | .panic => .panic
        | .outOfFuel => .outOfFuel
    | .panic => .panic
    | .outOfFuel => .outOfFuel
  else .ok k 0

/-- The page loop of `munmap` on slot `t` over the addresses still to visit.
The result is `-1` when a write-back failed and `0` when the loop ran to its
end. -/
def munmap_loop (cfg : Config) (ext : Ext) (cpu : Nat) (t : Nat) : List Nat → Kernel → Res Int
  | [], k => .ok k 0
  | cur_addr :: rest, k =>
    match munmap_page cfg ext cpu t cur_addr k with
    | .ok k1 r =>
      if r = -1 then .ok k1 (-1)
      else munmap_loop cfg ext cpu t rest (setVma k1 t (vma_advance (k1.proc.mvma t)))
    | .panic => .panic
    | .outOfFuel => .outOfFuel

/-- The function `munmap` run on core `cpu`. -/
def munmap (cfg : Config) (ext : Ext) (cpu : Nat) (k : Kernel) (addr length : Nat) : Res Int :=
  match vma_hit k.proc addr with
  | none => .ok k (-1)
  | some t =>
    let target := k.proc.mvma t
    let min := target.addr
    let max := PGROUNDUP ((addr + length) % 2 ^ 64)
    if max > (target.addr + length) % 2 ^ 64 then .ok k (-1)
    else
      match munmap_loop cfg ext cpu t (page_steps min max) k with
      | .ok k1 r =>
        if r = -1 then .ok k1 (-1)
        else if (k1.proc.mvma t).length = 0 then
          match (k1.proc.mvma t).ofile with
          | none => .panic
          | some f => .ok (setVma (fileclose k1 f) t Vma.zero) 0
        else .ok k1 0
      | .panic => .panic
      | .outOfFuel => .outOfFuel

/-- Write the bytes `bs` to physical memory from address `dst` on. -/
def storeBytes (mem : Memory) (dst : Nat) (bs : List Nat) : Memory :=
  fun a => if dst ≤ a ∧ a < dst + bs.length then bs.getD (a - dst) 0 else mem a

/-- The permission bits a page of region `v` is installed with: `perm = PTE_U`,
then `perm |= PTE_W` when the region is writeable and `perm |= PTE_R` when it
is readable. -/
def vma_perm (cfg : Config) (v : Vma) : Nat :=
  cfg.PTE_U ||| (if v.writeable then cfg.PTE_W else 0) ||| (if v.readable then cfg.PTE_R else 0)

/-- The kernel in `mmap_trap` after `kalloc` left the allocator as `km` and
returned the page `mem`, and `memset(mem, 0, PGSIZE)` cleared it. -/
def trapZeroed (k : Kernel) (km : Kalloc.Kmem) (mem : Nat) : Kernel :=
  { k with kmem := { km with mem := memset km.mem mem 0 PGSIZE } }

/-- The kernel after `mappages` installed the page `mem` at `va` with
permissions `perm` in the page table of the process. -/
def trapInstalled (k : Kernel) (va mem perm : Nat) : Kernel :=
  { k with proc := { k.proc with
      pagetable := fun a => if a = va then some (mem, perm) else k.proc.pagetable a } }

/-- The kernel after `readi` delivered the bytes `bs` into the page `mem`. -/
def trapFilled (k : Kernel) (mem : Nat) (bs : List Nat) : Kernel :=
  { k with kmem := { k.kmem with mem := storeBytes k.kmem.mem mem (bs.take PGSIZE) } }

/-- The function `mmap_trap` run on core `cpu`; `read` is the flag `read`. -/
def mmap_trap (cfg : Config) (ext : Ext) (cpu : Nat) (k : Kernel) (addr : Nat) (read : Bool) :
    Res Nat :=
  match vma_hit k.proc addr with
  | none => .ok k 0
  | some t =>
    let target := k.proc.mvma t
    if (read ∧ ¬ target.readable) ∨ (¬ read ∧ ¬ target.writeable) then .ok k 0
    else
      let va := PGROUNDDOWN addr
      match Kalloc.kalloc cfg k.kmem cpu with
      | (_, none) => .ok k 0
      | (km, some mem) =>
        let k1 := trapZeroed k km mem
        let perm := vma_perm cfg target
        if ¬ ext.mappages k1 va mem perm then
          match Kalloc.kfree cfg k1.kmem cpu mem with
          | none => .panic
          | some km1 => .ok { k1 with kmem := km1 } 0
        else
          let k2 := trapInstalled k1 va mem perm
          match target.ofile with
          | none => .panic
          | some f =>
            match ext.readi k2 (k2.ftable f).ip mem
                ((va + 2 ^ 64 - target.addr + target.offset) % 2 ^ 64) PGSIZE with
            | none =>
              match uvmunmap cfg cpu k2 va with
              | .ok k3 _ => .ok k3 0
              | .panic => .panic
              | .outOfFuel => .outOfFuel
            | some bs => .ok (trapFilled k2 mem bs) va

end Mmap

namespace Mmap

/-- What the slot loop of `vma_alloc` has established after slots `0 .. n-1`,
starting from `(top, none)`. -/
structure AllocSpec (mvma : Nat → Vma) (top n : Nat) (r : Nat × Option Nat) : Prop where
  le_top : r.1 ≤ top
  lower : ∀ i, i < n → (mvma i).addr ≠ 0 → r.1 ≤ (mvma i).addr
  attained : r.1 = top ∨ ∃ i, i < n ∧ (mvma i).addr ≠ 0 ∧ r.1 = (mvma i).addr
  none_full : r.2 = none → ∀ i, i < n → (mvma i).addr ≠ 0
  some_free : ∀ i, r.2 = some i → i < n ∧ (mvma i).addr = 0

/-- A kernel whose process has sixteen region slots, all free, and the file
`f` open on descriptor 3. -/
def freshKernel (f : File) : Kernel :=
  { proc := { NVMA := 16, mvma := fun _ => Vma.zero,
              ofile := fun fd => if fd = 3 then some 0 else none,
              pagetable := fun _ => none },
    ftable := fun _ => f,
    kmem := { freelist := fun _ => [], mem := fun _ => 0 },
    trace := [] }

/-- A file layer in which every write transfers all it is asked to, every
read delivers nothing (end of file), and every mapping is installed. -/
def okExt : Ext :=
  { writei := fun _ _ _ _ n => n, readi := fun _ _ _ _ _ => some [], mappages := fun _ _ _ _ => true }

/-- A file opened write-only. -/
def wronlyFile : File := { readable := false, writable := true, ref := 1, ip := 7 }

/-- A file opened read-only. -/
def rdonlyFile : File := { readable := true, writable := false, ref := 1, ip := 7 }

/-- A file opened for reading and writing. -/
def rdwrFile : File := { readable := true, writable := true, ref := 1, ip := 7 }

/-- The kernel `freshKernel rdonlyFile` after `mmap(0, 4096, PROT_READ,
MAP_PRIVATE, 3, 0)`: one region of one page just below `TRAPFRAME`. -/
def onePage : Kernel := (mmap xv6 (freshKernel rdonlyFile) 0 4096 1 2 3 0).1

/-- The write calls `w` transfer, in order and without a gap, exactly the `n`
bytes at source addresses `src .. src + n - 1` to inode `ip` at file offsets
`off .. off + n - 1` (offsets in `uint64`): each call asks for a positive
number of bytes, gets all of them written, and starts where the one before it
ended. -/
def Covers (ip : Nat) : List Event → Nat → Nat → Nat → Prop
  | [], _, _, n => n = 0
  | .writei ip1 s o c r :: rest, src, off, n =>
    ip1 = ip ∧ s = src ∧ o = off ∧ 0 < c ∧ r = c ∧ c ≤ (n : Int) ∧
      Covers ip rest (src + c.toNat) ((off + c.toNat) % 2 ^ 64) (n - c.toNat)
  | .uvmunmap _ :: _, _, _, _ => False

/-- The calls `block` are what unmapping the page at `page` of the region `r`
(as it was when `munmap` was entered, with page table `pt` and backing inode
`ip`) is to issue: nothing when the page is not resident; otherwise the removal
of the mapping, preceded, when `r` is shared and writeable, by writes that
cover the 4096 bytes of the page at file offset `r.offset + (page - r.addr)`,
and by no write at all when `r` is private or not writeable. -/
def PageEvents (pt : Nat → Option (Nat × Nat)) (r : Vma) (ip : Nat) (page : Nat)
    (block : List Event) : Prop :=
  if walkaddr pt page ≠ 0 then
    ∃ w, block = w ++ [Event.uvmunmap page] ∧
      if r.shared = true ∧ r.writeable = true then
        Covers ip w page ((r.offset + (page - r.addr)) % 2 ^ 64) PGSIZE
      else w = []
  else block = []

/-- The kernel `freshKernel f` with two free pages, `0x87fff000` and
`0x87ffe000`, in the chain of core 0. -/
def poolKernel (f : File) : Kernel :=
  { freshKernel f with
    kmem := { freelist := fun i => if i = 0 then [0x87fff000, 0x87ffe000] else [],
              mem := fun _ => 0 } }

/-- The kernel `poolKernel rdwrFile` after `mmap(0, 8192, PROT_READ | PROT_WRITE,
MAP_SHARED, 3, 4096)` put a region at `0x3fffffc000` and a write fault brought
in its second page, at `0x3fffffd000`. -/
def sharedMapped : Kernel :=
  (mmap_trap xv6 okExt 0 (mmap xv6 (poolKernel rdwrFile) 0 8192 3 1 3 4096).1
    0x3fffffd000 false).state (poolKernel rdwrFile)

/-- The region of `mmap(0, 8192, PROT_READ | PROT_WRITE, MAP_SHARED, 3, 4096)`
on `poolKernel rdwrFile`, before any page of it is resident. -/
def twoPagesShared : Kernel := (mmap xv6 (poolKernel rdwrFile) 0 8192 3 1 3 4096).1

/-- The region invariant of a process: every occupied slot has a page-aligned
base and length and ends at or below `TRAPFRAME`, and two occupied slots hold
disjoint ranges. -/
structure RegionInv (cfg : Config) (p : Proc) : Prop where
  shape : ∀ i, i < p.NVMA → (p.mvma i).addr ≠ 0 →
    (p.mvma i).addr % PGSIZE = 0 ∧ (p.mvma i).length % PGSIZE = 0 ∧
      (p.mvma i).addr + (p.mvma i).length ≤ cfg.TRAPFRAME
  disjoint : ∀ i j, i < p.NVMA → j < p.NVMA → i ≠ j →
    (p.mvma i).addr ≠ 0 → (p.mvma j).addr ≠ 0 →
    (p.mvma i).addr + (p.mvma i).length ≤ (p.mvma j).addr ∨
      (p.mvma j).addr + (p.mvma j).length ≤ (p.mvma i).addr

/-- Runs of the region manager: the states reached from a process with an
empty region table by `mmap` and `munmap` calls with any arguments. -/
inductive Reachable (cfg : Config) (ext : Ext) (cpu : Nat) : Kernel → Prop where
  | init (k : Kernel) : (∀ i, (k.proc.mvma i).addr = 0) → Reachable cfg ext cpu k
  | mmap {k : Kernel} (addr length prot flags fd offset : Nat) :
      Reachable cfg ext cpu k →
      Reachable cfg ext cpu (mmap cfg k addr length prot flags fd offset).1
  | munmap {k k1 : Kernel} {r : Int} (addr length : Nat) :
      Reachable cfg ext cpu k → munmap cfg ext cpu k addr length = .ok k1 r →
      Reachable cfg ext cpu k1

/-- Runs of the region manager in which every request fits: an `mmap` asks
for no more, after rounding, than lies below the lowest occupied base (below
`TRAPFRAME` when the table is empty), and a `munmap` asks for a range that
ends inside the region holding its start address. -/
inductive FitReachable (cfg : Config) (ext : Ext) (cpu : Nat) : Kernel → Prop where
  | init (k : Kernel) : (∀ i, (k.proc.mvma i).addr = 0) → FitReachable cfg ext cpu k
  | mmap {k : Kernel} (addr length prot flags fd offset : Nat) :
      FitReachable cfg ext cpu k →
      rounded_len addr length ≤ (vma_alloc_scan cfg k.proc).1 →
      FitReachable cfg ext cpu (mmap cfg k addr length prot flags fd offset).1
  | munmap {k k1 : Kernel} {r : Int} (addr length : Nat) :
      FitReachable cfg ext cpu k → munmap cfg ext cpu k addr length = .ok k1 r →
      (∀ t, vma_hit k.proc addr = some t →
        addr + length ≤ (k.proc.mvma t).addr + (k.proc.mvma t).length) →
      FitReachable cfg ext cpu k1

/-- The kernel `freshKernel rdonlyFile` after `mmap(0, 2^64 - 4096, PROT_READ,
MAP_PRIVATE, 3, 0)`. -/
def hugeMap : Kernel := (mmap xv6 (freshKernel rdonlyFile) 0 (2 ^ 64 - 4096) 1 2 3 0).1

/-- The kernel `onePage` after two more pages were mapped and the first of
them was unmapped again. -/
def threePages : Kernel :=
  (munmap xv6 okExt 0 (mmap xv6 onePage 0 8192 1 2 3 0).1 0x3fffffb000 4096).state onePage

/-- The library call `memmove(dst, src, n)` on physical memory. -/
def memmove (mem : Memory) (dst src n : Nat) : Memory :=
  fun a => if dst ≤ a ∧ a < dst + n then mem (src + (a - dst)) else mem a

/-- The body of the page loop of `mcopy` for the page at `va` of the region
`target`, on core `cpu`: `k` is the kernel with the parent `p` as its process
and `np` the child.  A page that is not resident in `p` is skipped; otherwise
`kalloc` gives a page (the kernel halts when it gives none), `memmove` copies
the parent's page into it, and `mappages` installs it in the page table of the
child; the result of `mappages` is not looked at.  `mappages` is the installer
of `Ext`, which maps the page of `va`. -/
def mcopy_page (cfg : Config) (ext : Ext) (cpu : Nat) (target : Vma) (va : Nat) (k : Kernel)
    (np : Proc) : Res Proc :=
  let pa := walkaddr k.proc.pagetable va
  if pa = 0 then .ok k np
  else
    match Kalloc.kalloc cfg k.kmem cpu with
    | (_, none) => .panic
    | (km, some new_pa) =>
      let k1 := { k with kmem := { km with mem := memmove km.mem new_pa pa PGSIZE } }
      let perm := vma_perm cfg target
      if ext.mappages k1 va new_pa perm then
        .ok k1 { np with
          pagetable := fun a => if a = PGROUNDDOWN va then some (new_pa, perm)
                                else np.pagetable a }
      else .ok k1 np

/-- The page loop of `mcopy`, `for (va = target->addr; va < target->addr +
target->length; va += PGSIZE)`, from `va` on, all in `uint64`. -/
def mcopy_pages (cfg : Config) (ext : Ext) (cpu : Nat) (target : Vma) :
    Nat → Nat → Kernel → Proc → Res Proc
  | 0, _, _, _ => .outOfFuel
  | fuel + 1, va, k, np =>
    if va < (target.addr + target.length) % 2 ^ 64 then
      match mcopy_page cfg ext cpu target va k np with
      | .ok k1 np1 => mcopy_pages cfg ext cpu target fuel ((va + PGSIZE) % 2 ^ 64) k1 np1
      | .panic => .panic
      | .outOfFuel => .outOfFuel
    else .ok k np

/-- The body of the slot loop of `mcopy` for slot `i`: an occupied slot of the
parent is copied into slot `i` of the child, its file gets one more reference
(`filedup` of a null file halts the kernel), and the pages of the region are
copied. -/
def mcopy_slot (cfg : Config) (ext : Ext) (cpu fuel : Nat) (i : Nat) (k : Kernel) (np : Proc) :
    Res Proc :=
  if (k.proc.mvma i).addr ≠ 0 then
    let np1 := { np with mvma := fun j => if j = i then k.proc.mvma i else np.mvma j }
    let target := np1.mvma i
    match target.ofile with
    | none => .panic
    | some f => mcopy_pages cfg ext cpu target fuel target.addr (filedup k f) np1
  else .ok k np

/-- The slot loop of `mcopy` over the slots still to visit. -/
def mcopy_loop (cfg : Config) (ext : Ext) (cpu fuel : Nat) : List Nat → Kernel → Proc → Res Proc
  | [], k, np => .ok k np
  | i :: rest, k, np =>
    match mcopy_slot cfg ext cpu fuel i k np with
    | .ok k1 np1 => mcopy_loop cfg ext cpu fuel rest k1 np1
    | .panic => .panic
    | .outOfFuel => .outOfFuel

/-- The function `mcopy(p, np)` run on core `cpu`, with `p` the process of `k`;
the result is the child.  `fuel` bounds the rounds of each page loop. -/
def mcopy (cfg : Config) (ext : Ext) (cpu fuel : Nat) (k : Kernel) (np : Proc) : Res Proc :=
  mcopy_loop cfg ext cpu fuel (List.range k.proc.NVMA) k np

/-- What `mcopy` has done so far, relative to the kernel `k` and the child
`np` it started from: `D` lists the pages copied as `(va, new_pa, perm)`.  The
parent is untouched, the allocator invariant holds with the new pages in use,
the new pages come out of the chains of `k`, memory outside the new pages is
as in `k`, each new page is installed in the child at its `va` and holds the
bytes of the parent's page, and the page table of the child is otherwise as in
`np`. -/
structure CopyInv (k : Kernel) (np : Proc) (used : List Nat) (k1 : Kernel) (np1 : Proc)
    (D : List (Nat × Nat × Nat)) : Prop where
  proc : k1.proc = k.proc
  pool : Kalloc.PoolInv k1.kmem (D.map (fun d => d.2.1) ++ used)
  sub : ∀ c x, x ∈ k1.kmem.freelist c → x ∈ k.kmem.freelist c
  frame : ∀ a, (∀ d, d ∈ D → a < d.2.1 ∨ d.2.1 + PGSIZE ≤ a) → k1.kmem.mem a = k.kmem.mem a
  fresh : ∀ d, d ∈ D → ∃ c, d.2.1 ∈ k.kmem.freelist c
  pages : ∀ d, d ∈ D → walkaddr k.proc.pagetable d.1 ≠ 0 ∧
    np1.pagetable d.1 = some (d.2.1, d.2.2) ∧
    ∀ b, b < PGSIZE → k1.kmem.mem (d.2.1 + b) = k.kmem.mem (walkaddr k.proc.pagetable d.1 + b)
  other : ∀ a, (∀ d, d ∈ D → d.1 ≠ a) → np1.pagetable a = np.pagetable a

/-- The number of occupied slots among the first `n` of process `p` whose
file is `f`. -/
def slotsOn (p : Proc) (f n : Nat) : Nat :=
  ((List.range n).filter
    (fun i => decide ((p.mvma i).addr ≠ 0 ∧ (p.mvma i).ofile = some f))).length

/-- What `mcopy` has done when the slot loop has got through slots `0 .. n-1`:
`CopyInv` holds, the pages copied are the resident pages of the occupied
regions among these slots, each with the permissions of its region, the
occupied slots have been copied to the child, and every file has one more
reference for each of them that maps it. -/
structure ForkInv (cfg : Config) (k : Kernel) (np : Proc) (used : List Nat) (n : Nat)
    (k1 : Kernel) (np1 : Proc) (D : List (Nat × Nat × Nat)) : Prop where
  copy : CopyInv k np used k1 np1 D
  regs : ∀ d, d ∈ D → ∃ j, j < n ∧ (k.proc.mvma j).addr ≠ 0 ∧ (k.proc.mvma j).addr ≤ d.1 ∧
    d.1 < (k.proc.mvma j).addr + (k.proc.mvma j).length ∧
    d.2.2 = vma_perm cfg (k.proc.mvma j)
  cover : ∀ j, j < n → (k.proc.mvma j).addr ≠ 0 → ∀ a, (k.proc.mvma j).addr ≤ a →
    a < (k.proc.mvma j).addr + (k.proc.mvma j).length → a % PGSIZE = 0 →
    walkaddr k.proc.pagetable a ≠ 0 → ∃ d, d ∈ D ∧ d.1 = a
  mvma : ∀ j, np1.mvma j = if j < n ∧ (k.proc.mvma j).addr ≠ 0 then k.proc.mvma j else np.mvma j
  refs : ∀ f, (k1.ftable f).ref = (k.ftable f).ref + slotsOn k.proc f n

/-- A parent for `mcopy`: the two-page shared region at `0x3fffffc000` of
`twoPagesShared`, with its second page resident in the physical page
`0x87fff000`, whose byte 7 is 0xAB, and one free page, `0x87ffe000`, in the
chain of core 0. -/
def forkParent : Kernel :=
  { twoPagesShared with
    proc := { twoPagesShared.proc with
      pagetable := fun a => if a = 0x3fffffd000 then some (0x87fff000, 22) else none },
    kmem := { freelist := fun i => if i = 0 then [0x87ffe000] else [],
              mem := fun a => if a = 0x87fff007 then 0xAB else 0 } }

/-- A child for `mcopy`: no region, nothing mapped. -/
def forkChild : Proc := (freshKernel rdwrFile).proc

end Mmap

/-! ## Properties of the block cache -/

namespace Bcache

theorem SameIdent.refl (s : Cache) : SameIdent s s :=
  ⟨rfl, rfl, fun _ => rfl, fun _ => rfl, fun _ => rfl⟩

theorem SameIdent.trans {s s1 s2 : Cache} (h1 : SameIdent s s1) (h2 : SameIdent s1 s2) :
    SameIdent s s2 :=
  ⟨h2.size.trans h1.size, h2.table.trans h1.table,
    fun i => (h2.dev i).trans (h1.dev i), fun i => (h2.blockno i).trans (h1.blockno i),
    fun i => (h2.stamp i).trans (h1.stamp i)⟩

theorem sameIdent_setBuf (s : Cache) (i : Nat) (b : Buf)
    (hd : b.dev = (s.buf i).dev) (hb : b.blockno = (s.buf i).blockno)
    (hl : b.last_used = (s.buf i).last_used) :
    SameIdent s (setBuf s i b) := by
  refine ⟨rfl, rfl, fun j => ?_, fun j => ?_, fun j => ?_⟩
  · by_cases h : j = i <;> simp [setBuf, h, hd]
  · by_cases h : j = i <;> simp [setBuf, h, hb]
  · by_cases h : j = i <;> simp [setBuf, h, hl]

theorem Inv.of_sameIdent {NBUF : Nat} {s s1 : Cache} (h : Inv NBUF s) (hs : SameIdent s s1) :
    Inv NBUF s1 := by
  refine ⟨hs.size.trans h.size, ?_, ?_, fun i => by rw [hs.stamp]; exact h.stamp i⟩
  · intro i j hi hj hd hb
    rw [hs.size] at hi hj
    rw [hs.dev, hs.dev] at hd
    rw [hs.blockno, hs.blockno] at hb
    exact h.unique i j hi hj hd hb
  · intro i hi
    rw [hs.size] at hi
    rw [hs.table, hs.blockno]
    exact h.chained i hi

theorem mem_remove_recur_of_ne {l : List Nat} {i e : Nat} (hi : i ∈ l) (hne : i ≠ e) :
    i ∈ remove_recur l e := by
  induction l with
  | nil => cases hi
  | cons a t ih =>
    unfold remove_recur
    by_cases h : a = e
    · simp only [h, if_true]
      rcases List.mem_cons.1 hi with h1 | h1
      · exact absurd (h1.trans h) hne
      · exact h1
    · simp only [h, if_false]
      rcases List.mem_cons.1 hi with h1 | h1
      · exact List.mem_cons.2 (Or.inl h1)
      · exact List.mem_cons.2 (Or.inr (ih h1))

theorem lookup_scan_none {buf : Nat → Buf} {dev blockno : Nat} {l : List Nat}
    (h : lookup_scan buf dev blockno l = none) :
    ∀ e ∈ l, ¬ ((buf e).dev = dev ∧ (buf e).blockno = blockno) := by
  induction l with
  | nil => intro e he; cases he
  | cons a t ih =>
    unfold lookup_scan at h
    by_cases hc : (buf a).dev = dev ∧ (buf a).blockno = blockno
    · simp [hc] at h
    · simp only [hc, if_false] at h
      intro e he
      rcases List.mem_cons.1 he with h1 | h1
      · subst h1; exact hc
      · exact ih h e h1

theorem lookup_sameIdent (s : Cache) (dev blockno : Nat) :
    SameIdent s (lookup s dev blockno).1 := by
  simp only [lookup]
  cases h : lookup_scan s.buf dev blockno (s.table (hash blockno)) with
  | none => exact SameIdent.refl s
  | some e => exact sameIdent_setBuf s e _ rfl rfl rfl

theorem lookup_miss_state {s s1 : Cache} {dev blockno : Nat}
    (h : lookup s dev blockno = (s1, none)) :
    s1 = s ∧ lookup_scan s.buf dev blockno (s.table (hash blockno)) = none := by
  simp only [lookup] at h
  cases hl : lookup_scan s.buf dev blockno (s.table (hash blockno)) with
  | none => rw [hl] at h; simp at h; exact ⟨h.symm, rfl⟩
  | some e => rw [hl] at h; simp at h

/-- After a miss no slot of the cache has the identity looked up. -/
theorem lookup_miss_absent {NBUF : Nat} {s s1 : Cache} {dev blockno : Nat} (hinv : Inv NBUF s)
    (h : lookup s dev blockno = (s1, none)) :
    ∀ i, i < s.NBUF → ¬ ((s.buf i).dev = dev ∧ (s.buf i).blockno = blockno) := by
  intro i hi hc
  have hm := hinv.chained i hi
  rw [hc.2] at hm
  exact lookup_scan_none (lookup_miss_state h).2 i hm hc

theorem lru_fold_spec (buf : Nat → Buf) (t0 : Nat) (n : Nat) :
    ScanSpec buf t0 n ((List.range n).foldl (lru_step buf) (none, t0)) := by
  induction n with
  | zero =>
    refine ⟨Nat.le_refl _, fun j hj => absurd hj (Nat.not_lt_zero j), fun _ => rfl, ?_⟩
    intro i hi
    simp at hi
  | succ n ih =>
    rw [List.range_succ, List.foldl_append]
    generalize (List.range n).foldl (lru_step buf) (none, t0) = r at ih
    simp only [List.foldl_cons, List.foldl_nil]
    unfold lru_step
    by_cases hc : (buf n).refcnt = 0 ∧ (buf n).last_used < r.2
    · simp only [hc, and_self, if_true]
      refine ⟨Nat.le_of_lt (Nat.lt_of_lt_of_le hc.2 ih.le_init), ?_, ?_, ?_⟩
      · intro j hj hz
        rcases Nat.lt_succ_iff_lt_or_eq.1 hj with h1 | h1
        · exact Nat.le_of_lt (Nat.lt_of_lt_of_le hc.2 (ih.lower j h1 hz))
        · subst h1; exact Nat.le_refl _
      · intro h; simp at h
      · intro i hi
        simp only [Option.some.injEq] at hi
        subst hi
        refine ⟨Nat.lt_succ_self _, hc.1, rfl, Nat.lt_of_lt_of_le hc.2 ih.le_init, ?_⟩
        intro j hj hz
        exact Nat.lt_of_lt_of_le hc.2 (ih.lower j hj hz)
    · simp only [hc, if_false]
      refine ⟨ih.le_init, ?_, ih.none_init, ?_⟩
      · intro j hj hz
        rcases Nat.lt_succ_iff_lt_or_eq.1 hj with h1 | h1
        · exact ih.lower j h1 hz
        · subst h1
          exact Nat.le_of_not_lt (fun hlt => hc ⟨hz, hlt⟩)
      · intro i hi
        obtain ⟨h1, h2⟩ := ih.found i hi
        exact ⟨Nat.lt_succ_of_lt h1, h2⟩

theorem lru_scan_spec (s : Cache) : ScanSpec s.buf lru_tick_init s.NBUF (lru_scan s) :=
  lru_fold_spec s.buf lru_tick_init s.NBUF

/-- With fuel left the victim loop ends in its first round: it halts when the
scan found nothing and returns the scanned victim otherwise. -/
theorem evict_loop_succ (fuel : Nat) (s : Cache) :
    evict_loop (fuel + 1) s =
      match (lru_scan s).1 with
      | none => .panic "bget: no buffers"
      | some lru => .ok s lru := by
  rw [evict_loop]
  cases h : (lru_scan s).1 with
  | none => rfl
  | some i =>
    have := ((lru_scan_spec s).found i h).2.1
    simp [this]

theorem evict_loop_ok {fuel : Nat} {s s1 : Cache} {v : Nat} (h : evict_loop fuel s = .ok s1 v) :
    s1 = s ∧ (lru_scan s).1 = some v := by
  cases fuel with
  | zero => simp [evict_loop] at h
  | succ n =>
    rw [evict_loop_succ] at h
    cases hl : (lru_scan s).1 with
    | none => rw [hl] at h; simp at h
    | some i =>
      rw [hl] at h
      simp only [Res.ok.injEq] at h
      exact ⟨h.1.symm, by rw [h.2]⟩

theorem evict_assign_buf (s : Cache) (ev dev blockno j : Nat) :
    (evict_assign s ev dev blockno).buf j =
      if j = ev then { s.buf ev with dev := dev, blockno := blockno, valid := 0, refcnt := 1 }
      else s.buf j := by
  simp only [evict_assign]
  split <;> simp [setBuf]

theorem evict_assign_NBUF (s : Cache) (ev dev blockno : Nat) :
    (evict_assign s ev dev blockno).NBUF = s.NBUF := by
  simp only [evict_assign]
  split <;> simp [setBuf]

theorem evict_assign_table (s : Cache) (ev dev blockno : Nat) :
    (evict_assign s ev dev blockno).table =
      if hash (s.buf ev).blockno ≠ hash blockno then
        insert (remove s.table (hash (s.buf ev).blockno) ev) (hash blockno) ev
      else s.table := by
  simp only [evict_assign]
  split <;> simp [setBuf]

/-- Giving a victim an identity no slot has keeps the invariant. -/
theorem evict_assign_inv {NBUF : Nat} {s : Cache} {ev dev blockno : Nat} (hinv : Inv NBUF s)
    (hev : ev < s.NBUF)
    (habs : ∀ i, i < s.NBUF → ¬ ((s.buf i).dev = dev ∧ (s.buf i).blockno = blockno)) :
    Inv NBUF (evict_assign s ev dev blockno) := by
  refine ⟨(evict_assign_NBUF ..).trans hinv.size, ?_, ?_, ?_⟩
  · intro i j hi hj hd hb
    rw [evict_assign_NBUF] at hi hj
    rw [evict_assign_buf, evict_assign_buf] at hd hb
    by_cases h1 : i = ev <;> by_cases h2 : j = ev
    · rw [h1, h2]
    · simp only [h1, h2, if_true, if_false] at hd hb
      exact absurd ⟨hd.symm, hb.symm⟩ (habs j hj)
    · simp only [h1, h2, if_true, if_false] at hd hb
      exact absurd ⟨hd, hb⟩ (habs i hi)
    · simp only [h1, h2, if_false] at hd hb
      exact hinv.unique i j hi hj hd hb
  · intro i hi
    rw [evict_assign_NBUF] at hi
    rw [evict_assign_buf, evict_assign_table]
    by_cases h1 : i = ev
    · subst h1
      simp only [if_true]
      by_cases hk : hash (s.buf i).blockno ≠ hash blockno
      · rw [if_pos hk]
        simp [insert]
      · rw [if_neg hk]
        have := hinv.chained i hi
        rw [not_not] at hk
        rwa [hk] at this
    · simp only [h1, if_false]
      have hm := hinv.chained i hi
      by_cases hk : hash (s.buf ev).blockno ≠ hash blockno
      · rw [if_pos hk]
        simp only [insert, remove]
        by_cases hn : hash (s.buf i).blockno = hash blockno
        · simp only [hn, if_true]
          refine List.mem_cons.2 (Or.inr ?_)
          have hne : hash blockno ≠ hash (s.buf ev).blockno := fun h => hk h.symm
          simp only [hne, if_false]
          rwa [hn] at hm
        · simp only [hn, if_false]
          by_cases ho : hash (s.buf i).blockno = hash (s.buf ev).blockno
          · simp only [ho, if_true]
            rw [ho] at hm
            exact mem_remove_recur_of_ne hm h1
          · simp only [ho, if_false]
            exact hm
      · rw [if_neg hk]
        exact hm
  · intro i
    rw [evict_assign_buf]
    by_cases h1 : i = ev
    · simp only [h1, if_true]; exact hinv.stamp ev
    · simp only [h1, if_false]; exact hinv.stamp i

theorem evict_inv {NBUF fuel : Nat} {s s1 : Cache} {dev blockno v : Nat} (hinv : Inv NBUF s)
    (h : evict fuel s dev blockno = .ok s1 v) : Inv NBUF s1 := by
  unfold evict at h
  rcases hl : lookup s dev blockno with ⟨s0, o⟩
  rw [hl] at h
  cases o with
  | some res =>
    simp only [Res.ok.injEq] at h
    have := lookup_sameIdent s dev blockno
    rw [hl] at this
    rw [← h.1]
    exact hinv.of_sameIdent this
  | none =>
    have habs := lookup_miss_absent hinv hl
    obtain ⟨hs0, -⟩ := lookup_miss_state hl
    subst hs0
    simp only at h
    cases he : evict_loop fuel s0 with
    | ok s2 ev =>
      rw [he] at h
      simp only [Res.ok.injEq] at h
      obtain ⟨hs2, hscan⟩ := evict_loop_ok he
      subst hs2
      rw [← h.1]
      exact evict_assign_inv hinv ((lru_scan_spec s2).found ev hscan).1 habs
    | panic m => rw [he] at h; simp at h
    | blocked s2 => rw [he] at h; simp at h
    | outOfFuel => rw [he] at h; simp at h

theorem evict_loop_not_blocked (fuel : Nat) (s s1 : Cache) : evict_loop fuel s ≠ .blocked s1 := by
  cases fuel with
  | zero => simp [evict_loop]
  | succ n =>
    rw [evict_loop_succ]
    cases (lru_scan s).1 <;> simp

theorem evict_not_blocked (fuel : Nat) (s s1 : Cache) (dev blockno : Nat) :
    evict fuel s dev blockno ≠ .blocked s1 := by
  unfold evict
  rcases lookup s dev blockno with ⟨s0, o⟩
  cases o with
  | some res => simp
  | none =>
    simp only
    cases he : evict_loop fuel s0 with
    | blocked s2 => exact absurd he (evict_loop_not_blocked fuel s0 s2)
    | ok s2 ev => simp
    | panic m => simp
    | outOfFuel => simp

theorem bget_slot_not_blocked (fuel : Nat) (s s1 : Cache) (dev blockno : Nat) :
    bget_slot fuel s dev blockno ≠ .blocked s1 := by
  unfold bget_slot
  rcases hl : lookup s dev blockno with ⟨s0, o⟩
  cases o with
  | some res => simp
  | none => exact evict_not_blocked fuel s0 s1 dev blockno

theorem bget_slot_inv {NBUF fuel : Nat} {s s1 : Cache} {dev blockno v : Nat} (hinv : Inv NBUF s)
    (h : bget_slot fuel s dev blockno = .ok s1 v) : Inv NBUF s1 := by
  unfold bget_slot at h
  rcases hl : lookup s dev blockno with ⟨s0, o⟩
  rw [hl] at h
  have hs := lookup_sameIdent s dev blockno
  rw [hl] at hs
  cases o with
  | some res =>
    simp only [Res.ok.injEq] at h
    rw [← h.1]
    exact hinv.of_sameIdent hs
  | none => exact evict_inv (hinv.of_sameIdent hs) h

/-- What `bget` leaves behind, whether it returns or goes to sleep, keeps the
invariant. -/
theorem bget_inv {NBUF fuel pid : Nat} {s s1 : Cache} {dev blockno : Nat} (hinv : Inv NBUF s)
    (h : (∃ v, bget fuel pid s dev blockno = .ok s1 v) ∨
      bget fuel pid s dev blockno = .blocked s1) : Inv NBUF s1 := by
  unfold bget at h
  cases hb : bget_slot fuel s dev blockno with
  | ok s0 res =>
    rw [hb] at h
    have h0 := bget_slot_inv hinv hb
    simp only at h
    cases hk : (s0.buf res).lock with
    | none =>
      rw [hk] at h
      simp only [Res.ok.injEq, exists_and_left, reduceCtorEq, or_false] at h
      rw [← h.1]
      exact h0.of_sameIdent (sameIdent_setBuf s0 res _ rfl rfl rfl)
    | some q =>
      rw [hk] at h
      simp only [reduceCtorEq, exists_false, Res.blocked.injEq, false_or] at h
      rw [← h]
      exact h0
  | panic m => rw [hb] at h; simp at h
  | blocked s0 => exact absurd hb (bget_slot_not_blocked fuel s s0 dev blockno)
  | outOfFuel => rw [hb] at h; simp at h

theorem bread_inv {NBUF fuel pid : Nat} {disk : Nat → Nat → List Nat} {s s1 : Cache}
    {dev blockno : Nat} (hinv : Inv NBUF s)
    (h : (∃ r, bread disk fuel pid s dev blockno = .ok s1 r) ∨
      bread disk fuel pid s dev blockno = .blocked s1) : Inv NBUF s1 := by
  unfold bread at h
  cases hb : bget fuel pid s dev blockno with
  | ok s0 b =>
    rw [hb] at h
    have h0 : Inv NBUF s0 := bget_inv hinv (Or.inl ⟨b, hb⟩)
    simp only at h
    by_cases hv : (s0.buf b).valid = 0
    · simp only [hv, if_true, Res.ok.injEq, exists_and_left, reduceCtorEq, or_false] at h
      rw [← h.1]
      exact h0.of_sameIdent (sameIdent_setBuf s0 b _ rfl rfl rfl)
    · simp only [hv, if_false, Res.ok.injEq, exists_and_left, reduceCtorEq, or_false] at h
      rw [← h.1]
      exact h0
  | panic m => rw [hb] at h; simp at h
  | blocked s0 =>
    rw [hb] at h
    simp only [reduceCtorEq, exists_false, Res.blocked.injEq, false_or] at h
    rw [← h]
    exact bget_inv hinv (Or.inr hb)
  | outOfFuel => rw [hb] at h; simp at h

theorem brelse_ok_state {pid ticks b : Nat} {s s1 : Cache}
    (h : brelse pid ticks s b = .ok s1 ()) :
    (s.buf b).lock = some pid ∧
    s1 = setBuf s b { s.buf b with
      last_used := ticks % 2 ^ 32, lock := none,
      refcnt := ((s.buf b).refcnt + 2 ^ 32 - 1) % 2 ^ 32 } := by
  unfold brelse at h
  by_cases hl : (s.buf b).lock ≠ some pid
  · rw [if_pos hl] at h; cases h
  · rw [if_neg hl] at h
    rw [not_not] at hl
    refine ⟨hl, ?_⟩
    injection h with h1
    rw [← h1]
    simp only [setBuf, if_true]
    congr 1
    funext j
    by_cases hj : j = b
    · simp only [hj, if_true]
    · simp only [hj, if_false]

theorem brelse_inv {NBUF pid ticks b : Nat} {s s1 : Cache} (hinv : Inv NBUF s)
    (h : brelse pid ticks s b = .ok s1 ()) : Inv NBUF s1 := by
  obtain ⟨-, hs⟩ := brelse_ok_state h
  have hdev : ∀ i, (s1.buf i).dev = (s.buf i).dev := by
    intro i
    rw [hs]
    by_cases hi : i = b
    · simp only [setBuf, hi, if_true]
    · simp only [setBuf, hi, if_false]
  have hblk : ∀ i, (s1.buf i).blockno = (s.buf i).blockno := by
    intro i
    rw [hs]
    by_cases hi : i = b
    · simp only [setBuf, hi, if_true]
    · simp only [setBuf, hi, if_false]
  have hsz : s1.NBUF = s.NBUF := by rw [hs]; rfl
  have htab : s1.table = s.table := by rw [hs]; rfl
  refine ⟨hsz.trans hinv.size, ?_, ?_, ?_⟩
  · intro i j hi hj hd hb
    rw [hsz] at hi hj
    rw [hdev, hdev] at hd
    rw [hblk, hblk] at hb
    exact hinv.unique i j hi hj hd hb
  · intro i hi
    rw [hsz] at hi
    rw [htab, hblk]
    exact hinv.chained i hi
  · intro i
    rw [hs]
    by_cases hi : i = b
    · simp only [setBuf, hi, if_true]
      exact Nat.mod_lt _ (Nat.two_pow_pos 32)
    · simp only [setBuf, hi, if_false]
      exact hinv.stamp i

theorem bpin_inv {NBUF b : Nat} {s : Cache} (hinv : Inv NBUF s) : Inv NBUF (bpin s b) :=
  hinv.of_sameIdent (sameIdent_setBuf s b _ rfl rfl rfl)

theorem bunpin_inv {NBUF b : Nat} {s : Cache} (hinv : Inv NBUF s) : Inv NBUF (bunpin s b) :=
  hinv.of_sameIdent (sameIdent_setBuf s b _ rfl rfl rfl)

/-- The state after the first `n` rounds of the slot loop of `binit`. -/
theorem binit_fold (NBUF n : Nat) :
    ((List.range n).foldl binit_step (zeroCache NBUF)).NBUF = NBUF ∧
    ((List.range n).foldl binit_step (zeroCache NBUF)).buf =
      (fun i => if i < n then { zeroBuf with blockno := i } else zeroBuf) ∧
    ((List.range n).foldl binit_step (zeroCache NBUF)).table =
      (fun k => ((List.range n).filter (fun i => decide (hash i = k))).reverse) := by
  induction n with
  | zero =>
    refine ⟨rfl, ?_, ?_⟩
    · funext i; simp [zeroCache]
    · funext k; simp [zeroCache]
  | succ n ih =>
    rw [List.range_succ, List.foldl_append]
    generalize (List.range n).foldl binit_step (zeroCache NBUF) = s at ih
    obtain ⟨h1, h2, h3⟩ := ih
    simp only [List.foldl_cons, List.foldl_nil]
    refine ⟨?_, ?_, ?_⟩
    · simpa [binit_step, setBuf] using h1
    · funext i
      simp only [binit_step, setBuf, h2]
      by_cases hi : i = n
      · subst hi; simp [zeroBuf]
      · have : i < n + 1 ↔ i < n := by omega
        simp [hi, this]
    · funext k
      simp only [binit_step, setBuf, insert, h3, List.filter_append, List.reverse_append]
      by_cases hk : k = hash n
      · subst hk; simp
      · have : ¬ hash n = k := fun h => hk h.symm
        simp [hk, this]

theorem binit_NBUF (NBUF : Nat) : (binit NBUF).NBUF = NBUF := (binit_fold NBUF NBUF).1

theorem binit_buf (NBUF i : Nat) :
    (binit NBUF).buf i = if i < NBUF then { zeroBuf with blockno := i } else zeroBuf := by
  unfold binit
  rw [(binit_fold NBUF NBUF).2.1]

theorem binit_table (NBUF k : Nat) :
    (binit NBUF).table k = ((List.range NBUF).filter (fun i => decide (hash i = k))).reverse := by
  unfold binit
  rw [(binit_fold NBUF NBUF).2.2]

theorem binit_inv (NBUF : Nat) : Inv NBUF (binit NBUF) := by
  refine ⟨binit_NBUF NBUF, ?_, ?_, ?_⟩
  · intro i j hi hj _ hb
    rw [binit_NBUF] at hi hj
    rw [binit_buf, binit_buf, if_pos hi, if_pos hj] at hb
    exact hb
  · intro i hi
    rw [binit_NBUF] at hi
    rw [binit_table, binit_buf, if_pos hi]
    simp [hi]
  · intro i
    rw [binit_buf]
    by_cases hi : i < NBUF
    · rw [if_pos hi]; exact Nat.two_pow_pos 32
    · rw [if_neg hi]; exact Nat.two_pow_pos 32

/-- Every reachable state satisfies the invariant. -/
theorem reachable_inv {NBUF : Nat} {s : Cache} (h : Reachable NBUF s) : Inv NBUF s := by
  induction h with
  | init => exact binit_inv NBUF
  | bread disk fuel pid dev blockno _ hr ih => exact bread_inv ih (Or.inl ⟨_, hr⟩)
  | bread_blocked disk fuel pid dev blockno _ hr ih => exact bread_inv ih (Or.inr hr)
  | brelse pid ticks b _ _ hr ih => exact brelse_inv ih hr
  | bpin b _ _ ih => exact bpin_inv ih
  | bunpin b _ _ ih => exact bunpin_inv ih

/-- C1 (cache identity uniqueness): in every state reached from the one `binit`
builds by `bread`, `brelse`, `bpin` and `bunpin` calls run one at a time, no two
distinct slots of the cache hold the same `(dev, blockno)` pair. -/
theorem cache_identity_unique (NBUF : Nat) (s : Cache) (h : Reachable NBUF s) :
    ∀ i j, i < NBUF → j < NBUF → i ≠ j →
      ¬ ((s.buf i).dev = (s.buf j).dev ∧ (s.buf i).blockno = (s.buf j).blockno) := by
  intro i j hi hj hne hc
  have hinv := reachable_inv h
  rw [← hinv.size] at hi hj
  exact hne (hinv.unique i j hi hj hc.1 hc.2)

theorem Res.eq_ok_of_val {α : Type} {r : Res α} {a : α} (d : Cache) (h : r.val? = some a) :
    r = .ok (r.state d) a := by
  cases r with
  | ok s b => simp only [Res.val?, Option.some.injEq] at h; rw [h]; rfl
  | panic m => cases h
  | blocked s => cases h
  | outOfFuel => cases h

theorem demoReleased_reachable : Reachable 3 demoReleased := by
  have h0 : Reachable 3 (binit 3) := Reachable.init
  have h1 := Reachable.bread (fun _ _ => []) 1 7 1 5 h0
    (Res.eq_ok_of_val (a := (0, true)) (binit 3) (by decide))
  exact Reachable.brelse 7 9 0 h1 (by decide)
    (Res.eq_ok_of_val (a := ()) (binit 3) (by decide))

theorem demoCache_reachable : Reachable 3 demoCache :=
  Reachable.bread (fun _ _ => []) 1 7 1 18 demoReleased_reachable
    (Res.eq_ok_of_val (a := (1, true)) (binit 3) (by decide))

/-- Witness of C1 on the cache `demoCache`. -/
theorem cache_identity_unique_witness :
    Reachable 3 demoCache ∧
    ∀ i j, i < 3 → j < 3 → i ≠ j →
      ¬ ((demoCache.buf i).dev = (demoCache.buf j).dev ∧
         (demoCache.buf i).blockno = (demoCache.buf j).blockno) :=
  ⟨demoCache_reachable, cache_identity_unique 3 demoCache demoCache_reachable⟩

/-- C2 (reference-count floor and LRU order): on a miss in a reachable state in
which some slot has reference count zero, `evict` returns the slot it gives the
new identity to; that slot had reference count exactly zero when selected, its
`last_used` is the minimum over all slots with reference count zero, and among
the slots attaining that minimum it has the lowest index. -/
theorem evict_selects_lru (NBUF fuel : Nat) (s : Cache) (dev blockno : Nat)
    (hr : Reachable NBUF s) (hmiss : (lookup s dev blockno).2 = none)
    (hz : ∃ j, j < NBUF ∧ (s.buf j).refcnt = 0) :
    ∃ v, evict (fuel + 1) s dev blockno = .ok (evict_assign s v dev blockno) v ∧
      v < NBUF ∧ (s.buf v).refcnt = 0 ∧
      (∀ j, j < NBUF → (s.buf j).refcnt = 0 → (s.buf v).last_used ≤ (s.buf j).last_used) ∧
      (∀ j, j < NBUF → (s.buf j).refcnt = 0 →
        (s.buf j).last_used = (s.buf v).last_used → v ≤ j) := by
  have hinv := reachable_inv hr
  have hspec := lru_scan_spec s
  rw [hinv.size] at hspec
  obtain ⟨j0, hj0, hz0⟩ := hz
  have hl : lookup s dev blockno = (s, none) := by
    rcases hq : lookup s dev blockno with ⟨s0, o⟩
    rw [hq] at hmiss
    simp only at hmiss
    subst hmiss
    rw [(lookup_miss_state hq).1]
  cases hscan : (lru_scan s).1 with
  | none =>
    have h1 := hspec.none_init hscan
    have h2 := hspec.lower j0 hj0 hz0
    have h3 := hinv.stamp j0
    rw [h1] at h2
    have : (2 : Nat) ^ 32 ≤ lru_tick_init := by unfold lru_tick_init; norm_num
    omega
  | some v =>
    obtain ⟨hv, hvz, hvt, -, hfirst⟩ := hspec.found v hscan
    refine ⟨v, ?_, hv, hvz, ?_, ?_⟩
    · unfold evict
      rw [hl]
      simp only
      rw [evict_loop_succ, hscan]
    · intro j hj hjz
      rw [hvt]
      exact hspec.lower j hj hjz
    · intro j _ hjz heq
      by_contra hlt
      have := hfirst j (Nat.lt_of_not_le hlt) hjz
      omega

/-- Witness of C2: in `demoReleased` slot 0 was released at tick 9 and slots 1
and 2 were never used, so a miss on block 18 takes slot 1. -/
theorem evict_selects_lru_witness :
    ∃ v, evict 1 demoReleased 1 18 = .ok (evict_assign demoReleased v 1 18) v ∧
      v < 3 ∧ (demoReleased.buf v).refcnt = 0 ∧
      (∀ j, j < 3 → (demoReleased.buf j).refcnt = 0 →
        (demoReleased.buf v).last_used ≤ (demoReleased.buf j).last_used) ∧
      (∀ j, j < 3 → (demoReleased.buf j).refcnt = 0 →
        (demoReleased.buf j).last_used = (demoReleased.buf v).last_used → v ≤ j) :=
  evict_selects_lru 3 0 demoReleased 1 18 demoReleased_reachable (by decide) ⟨1, by decide⟩

end Bcache

/-! ## Properties of the page allocator -/

namespace Kalloc

theorem kalloc_scan_range (cfg : Config) (s : Kmem) (id : Nat) (n a : Nat) :
    (kalloc_scan cfg s id (List.range' a n) = none ∧
      ∀ k, a ≤ k → k < a + n → s.freelist ((id + k) % cfg.NCPU) = []) ∨
    (∃ k r, a ≤ k ∧ k < a + n ∧
      kalloc_scan cfg s id (List.range' a n) = some ((id + k) % cfg.NCPU, r) ∧
      (∀ k', a ≤ k' → k' < k → s.freelist ((id + k') % cfg.NCPU) = []) ∧
      s.freelist ((id + k) % cfg.NCPU) = r :: (s.freelist ((id + k) % cfg.NCPU)).tail) := by
  induction n generalizing a with
  | zero =>
    left
    refine ⟨rfl, ?_⟩
    intro k h1 h2
    omega
  | succ n ih =>
    rw [List.range'_succ]
    simp only [kalloc_scan]
    cases hf : s.freelist ((id + a) % cfg.NCPU) with
    | cons r t =>
      right
      refine ⟨a, r, Nat.le_refl _, by omega, rfl, ?_, ?_⟩
      · intro k' h1 h2; omega
      · rw [hf]; rfl
    | nil =>
      simp only
      rcases ih (a + 1) with ⟨h1, h2⟩ | ⟨k, r, h1, h2, h3, h4, h5⟩
      · left
        refine ⟨h1, ?_⟩
        intro k hk1 hk2
        rcases Nat.eq_or_lt_of_le hk1 with h | h
        · rw [← h]; exact hf
        · exact h2 k h (by omega)
      · right
        refine ⟨k, r, by omega, by omega, h3, ?_, h5⟩
        intro k' hk1 hk2
        rcases Nat.eq_or_lt_of_le hk1 with h | h
        · rw [← h]; exact hf
        · exact h4 k' h hk2

/-- Every core is visited by the loop of `kalloc`, whatever core it starts on. -/
theorem core_visited (n id i : Nat) (hi : i < n) :
    ∃ k, k < n ∧ (id + k) % n = i := by
  refine ⟨(i + n - id % n) % n, Nat.mod_lt _ (by omega), ?_⟩
  have h1 : id % n < n := Nat.mod_lt _ (by omega)
  have h2 : id % n + (i + n - id % n) = i + n := by omega
  have h3 : (id + (i + n - id % n) % n) % n = (id % n + (i + n - id % n)) % n := by
    generalize i + n - id % n = x
    conv_lhs => rw [Nat.add_mod, Nat.mod_mod]
    conv_rhs => rw [Nat.add_mod, Nat.mod_mod]
  rw [h3, h2, Nat.add_mod_right, Nat.mod_eq_of_lt hi]

/-- The function `kalloc` returns null exactly when every chain is empty. -/
theorem kalloc_none_iff (cfg : Config) (s : Kmem) (id : Nat) :
    (kalloc cfg s id).2 = none ↔ ∀ i, i < cfg.NCPU → s.freelist i = [] := by
  have hscan := kalloc_scan_range cfg s id cfg.NCPU 0
  rw [← List.range_eq_range'] at hscan
  unfold kalloc
  rcases hscan with ⟨h1, h2⟩ | ⟨k, r, -, h2, h3, -, h5⟩
  · rw [h1]
    refine ⟨fun _ i hi => ?_, fun _ => rfl⟩
    obtain ⟨k, hk, hki⟩ := core_visited cfg.NCPU id i hi
    rw [← hki]
    exact h2 k (Nat.zero_le _) (by omega)
  · rw [h3]
    simp only [reduceCtorEq, false_iff, not_forall]
    refine ⟨(id + k) % cfg.NCPU, Nat.mod_lt _ (by omega), ?_⟩
    rw [h5]; simp

/-- A `kalloc` that returns null changes nothing. -/
theorem kalloc_none_state {cfg : Config} {s : Kmem} {id : Nat} (h : (kalloc cfg s id).2 = none) :
    (kalloc cfg s id).1 = s := by
  unfold kalloc at h ⊢
  cases hs : kalloc_scan cfg s id (List.range cfg.NCPU) with
  | none => rfl
  | some cr => rw [hs] at h; cases h

/-- A `kalloc` that returns a page took it from the head of the first
non-empty chain in visiting order and changed no other chain. -/
theorem kalloc_some_effect {cfg : Config} {s : Kmem} {id r : Nat}
    (h : (kalloc cfg s id).2 = some r) :
    ∃ k, k < cfg.NCPU ∧
      (∀ k', k' < k → s.freelist ((id + k') % cfg.NCPU) = []) ∧
      s.freelist ((id + k) % cfg.NCPU) = r :: (kalloc cfg s id).1.freelist ((id + k) % cfg.NCPU) ∧
      ∀ j, j ≠ (id + k) % cfg.NCPU → (kalloc cfg s id).1.freelist j = s.freelist j := by
  have hscan := kalloc_scan_range cfg s id cfg.NCPU 0
  rw [← List.range_eq_range'] at hscan
  unfold kalloc at h ⊢
  rcases hscan with ⟨h1, -⟩ | ⟨k, r0, -, h2, h3, h4, h5⟩
  · rw [h1] at h; cases h
  · rw [h3] at h ⊢
    simp only [Option.some.injEq] at h
    subst h
    refine ⟨k, by omega, fun k' hk' => h4 k' (Nat.zero_le _) hk', ?_, ?_⟩
    · simp only [if_true]
      exact h5
    · intro j hj
      simp only [hj, if_false]

/-- C3 (allocate): `kalloc` on core `id` is a total function of the allocator
state.  It returns null exactly when all `NCPU` chains are empty, and then
changes nothing.  Otherwise it returns the head page of the first non-empty
chain in the order `id, id+1, ..., id+NCPU-1` (mod `NCPU`), unlinks exactly
that page from that chain and leaves every other chain as it was. -/
theorem kalloc_spec (cfg : Config) (s : Kmem) (id : Nat) :
    ((kalloc cfg s id).2 = none ↔ ∀ i, i < cfg.NCPU → s.freelist i = []) ∧
    ((kalloc cfg s id).2 = none → (kalloc cfg s id).1 = s) ∧
    ∀ r, (kalloc cfg s id).2 = some r →
      ∃ k, k < cfg.NCPU ∧
        (∀ k', k' < k → s.freelist ((id + k') % cfg.NCPU) = []) ∧
        s.freelist ((id + k) % cfg.NCPU) = r :: (kalloc cfg s id).1.freelist ((id + k) % cfg.NCPU) ∧
        ∀ j, j ≠ (id + k) % cfg.NCPU → (kalloc cfg s id).1.freelist j = s.freelist j := by
  refine ⟨kalloc_none_iff cfg s id, fun h => kalloc_none_state h, ?_⟩
  intro r hr
  exact kalloc_some_effect hr

theorem kfree_some {cfg : Config} {s s1 : Kmem} {id pa : Nat} (h : kfree cfg s id pa = some s1) :
    (pa % PGSIZE = 0 ∧ cfg.kend ≤ pa ∧ pa < cfg.PHYSTOP) ∧
    s1.freelist = (fun i => if i = id then pa :: s.freelist id else s.freelist i) := by
  unfold kfree at h
  by_cases hc : pa % PGSIZE ≠ 0 ∨ pa < cfg.kend ∨ pa ≥ cfg.PHYSTOP
  · rw [if_pos hc] at h; cases h
  · rw [if_neg hc] at h
    simp only [Option.some.injEq] at h
    rw [← h]
    refine ⟨?_, rfl⟩
    simp only [not_or, not_not, not_lt, ge_iff_le, not_le] at hc
    exact hc

theorem kfree_isSome (cfg : Config) (s : Kmem) (id pa : Nat) (h1 : pa % PGSIZE = 0)
    (h2 : cfg.kend ≤ pa) (h3 : pa < cfg.PHYSTOP) : ∃ s1, kfree cfg s id pa = some s1 := by
  unfold kfree
  have hc : ¬ (pa % PGSIZE ≠ 0 ∨ pa < cfg.kend ∨ pa ≥ cfg.PHYSTOP) := by
    simp only [not_or, not_not, not_lt, ge_iff_le, not_le]
    exact ⟨h1, h2, h3⟩
  rw [if_neg hc]
  exact ⟨_, rfl⟩

/-- Freeing a page that is in no chain keeps the invariant, with the page no
longer in use. -/
theorem kfree_fresh_inv {cfg : Config} {s s1 : Kmem} {used : List Nat} {id pa : Nat}
    (hinv : PoolInv s used) (hfresh : ∀ i, pa ∉ s.freelist i)
    (h : kfree cfg s id pa = some s1) : PoolInv s1 (used.erase pa) := by
  obtain ⟨-, hf⟩ := kfree_some h
  refine ⟨?_, ?_, hinv.used_nodup.erase pa, ?_⟩
  · intro i
    rw [hf]
    by_cases hi : i = id
    · simp only [hi, if_true]
      exact List.nodup_cons.2 ⟨hfresh id, hinv.nodup id⟩
    · simp only [hi, if_false]
      exact hinv.nodup i
  · intro i j hij p hp
    rw [hf] at hp ⊢
    by_cases hi : i = id
    · have hj : ¬ j = id := fun h => hij (hi.trans h.symm)
      simp only [hi, if_true] at hp
      simp only [hj, if_false]
      rcases List.mem_cons.1 hp with h1 | h1
      · rw [h1]; exact hfresh j
      · exact hinv.disj id j (fun h => hj h.symm) p h1
    · simp only [hi, if_false] at hp
      by_cases hj : j = id
      · simp only [hj, if_true]
        intro hm
        rcases List.mem_cons.1 hm with h1 | h1
        · rw [h1] at hp; exact hfresh i hp
        · exact hinv.disj i id hi p hp h1
      · simp only [hj, if_false]
        exact hinv.disj i j hij p hp
  · intro q hq i
    obtain ⟨hne, hmem⟩ := (hinv.used_nodup.mem_erase_iff).1 hq
    rw [hf]
    by_cases hi : i = id
    · simp only [hi, if_true]
      intro hm
      rcases List.mem_cons.1 hm with h1 | h1
      · exact hne h1
      · exact hinv.used_free q hmem id h1
    · simp only [hi, if_false]
      exact hinv.used_free q hmem i

/-- The loop of `freerange` keeps the chains free of repetitions: the pages
it frees ascend. -/
theorem freerange_loop_inv (cfg : Config) (id pa_end : Nat) :
    ∀ (n : Nat) (s s1 : Kmem) (p : Nat), pa_end - p = n →
      PoolInv s [] → (∀ i q, q ∈ s.freelist i → q < p) →
      freerange_loop cfg id pa_end s p = some s1 → PoolInv s1 [] := by
  intro n
  induction n using Nat.strong_induction_on with
  | _ n ih =>
    intro s s1 p hn hinv hlt hrun
    rw [freerange_loop] at hrun
    have hP : PGSIZE = 4096 := rfl
    by_cases hc : p + PGSIZE ≤ pa_end
    · rw [if_pos hc] at hrun
      cases hs0 : kfree cfg s id p with
      | none => rw [hs0] at hrun; cases hrun
      | some s0 =>
        rw [hs0] at hrun
        simp only at hrun
        have hfresh : ∀ i, p ∉ s.freelist i := fun i hm => Nat.lt_irrefl _ (hlt i p hm)
        have hinv1 : PoolInv s0 [] := kfree_fresh_inv hinv hfresh hs0
        refine ih (pa_end - (p + PGSIZE)) (by omega) s0 s1 (p + PGSIZE) rfl hinv1 ?_ hrun
        intro i q hq
        rw [(kfree_some hs0).2] at hq
        by_cases hi : i = id
        · simp only [hi, if_true] at hq
          rcases List.mem_cons.1 hq with h1 | h1
          · omega
          · have := hlt id q h1; omega
        · simp only [hi, if_false] at hq
          have := hlt i q hq; omega
    · rw [if_neg hc] at hrun
      simp only [Option.some.injEq] at hrun
      rw [← hrun]
      exact hinv

/-- The loop of `freerange` never halts the kernel when it starts on a
page-aligned address not below `end` and runs up to `PHYSTOP`. -/
theorem freerange_loop_total (cfg : Config) (id : Nat) :
    ∀ (n : Nat) (s : Kmem) (p : Nat), cfg.PHYSTOP - p = n → p % PGSIZE = 0 → cfg.kend ≤ p →
      ∃ s1, freerange_loop cfg id cfg.PHYSTOP s p = some s1 := by
  intro n
  induction n using Nat.strong_induction_on with
  | _ n ih =>
    intro s p hn hal hge
    rw [freerange_loop]
    by_cases hc : p + PGSIZE ≤ cfg.PHYSTOP
    · rw [if_pos hc]
      have hP : PGSIZE = 4096 := rfl
      obtain ⟨s1, hs1⟩ := kfree_isSome cfg s id p hal hge (by omega)
      rw [hs1]
      simp only
      refine ih (cfg.PHYSTOP - (p + PGSIZE)) (by omega) s1 (p + PGSIZE) rfl ?_ (by omega)
      rw [Nat.add_mod, hal, hP]
    · rw [if_neg hc]
      exact ⟨s, rfl⟩

theorem kinit_inv {cfg : Config} {id : Nat} {mem : Memory} {s : Kmem}
    (h : kinit cfg id mem = some s) : PoolInv s [] := by
  unfold kinit freerange at h
  refine freerange_loop_inv cfg id _ _ _ s _ rfl ?_ ?_ h
  · exact ⟨fun _ => List.nodup_nil, fun _ _ _ p hp => (by cases hp), List.nodup_nil,
      fun p hp => (by cases hp)⟩
  · intro i q hq; cases hq

theorem PGROUNDUP_ge {a : Nat} (h : a + PGSIZE ≤ 2 ^ 64) :
    a ≤ PGROUNDUP a ∧ PGROUNDUP a % PGSIZE = 0 := by
  unfold PGROUNDUP
  have hP : PGSIZE = 4096 := rfl
  rw [hP] at h ⊢
  have h1 : (a + 4096 - 1) % 2 ^ 64 = a + 4095 := by
    rw [Nat.mod_eq_of_lt (by omega)]; omega
  rw [h1]
  constructor
  · have := Nat.div_add_mod (a + 4095) 4096
    have := Nat.mod_lt (a + 4095) (show 0 < 4096 by norm_num)
    omega
  · exact Nat.mul_mod_left _ _

/-- The function `kinit` returns, whatever core runs it. -/
theorem kinit_total (cfg : Config) (id : Nat) (mem : Memory) (h : cfg.kend + PGSIZE ≤ 2 ^ 64) :
    ∃ s, kinit cfg id mem = some s := by
  unfold kinit freerange
  obtain ⟨h1, h2⟩ := PGROUNDUP_ge h
  exact freerange_loop_total cfg id _ _ _ rfl h2 h1

theorem kinit_eq_getD (cfg : Config) (id : Nat) (mem : Memory) (d : Kmem)
    (h : cfg.kend + PGSIZE ≤ 2 ^ 64) : kinit cfg id mem = some ((kinit cfg id mem).getD d) := by
  obtain ⟨s, hs⟩ := kinit_total cfg id mem h
  rw [hs]; rfl

theorem kalloc_none_inv {cfg : Config} {s s1 : Kmem} {used : List Nat} {id : Nat}
    (hinv : PoolInv s used) (h : kalloc cfg s id = (s1, none)) : PoolInv s1 used := by
  have h1 := @kalloc_none_state cfg s id
  rw [h] at h1
  have h3 : s1 = s := h1 rfl
  have h2 : s1.freelist = s.freelist := by rw [h3]
  exact ⟨fun i => by rw [h2]; exact hinv.nodup i,
    fun i j hij p hp => by rw [h2] at hp ⊢; exact hinv.disj i j hij p hp,
    hinv.used_nodup, fun p hp i => by rw [h2]; exact hinv.used_free p hp i⟩

theorem kalloc_page_inv {cfg : Config} {s s1 : Kmem} {used : List Nat} {id p : Nat}
    (hinv : PoolInv s used) (h : kalloc cfg s id = (s1, some p)) : PoolInv s1 (p :: used) := by
  have h1 := @kalloc_some_effect cfg s id p
  rw [h] at h1
  obtain ⟨k, -, -, hc, hother⟩ := h1 rfl
  generalize (id + k) % cfg.NCPU = c at hc hother
  have hsub : ∀ i q, q ∈ s1.freelist i → q ∈ s.freelist i := by
    intro i q hq
    by_cases hi : i = c
    · rw [hi, hc]; rw [hi] at hq; exact List.mem_cons_of_mem _ hq
    · rw [← hother i hi]; exact hq
  have hnd := hinv.nodup c
  rw [hc] at hnd
  obtain ⟨hp1, hp2⟩ := List.nodup_cons.1 hnd
  have hpc : p ∈ s.freelist c := by rw [hc]; exact List.mem_cons_self _ _
  have hpfree : ∀ i, p ∉ s1.freelist i := by
    intro i
    by_cases hi : i = c
    · rw [hi]; exact hp1
    · intro hm
      exact hinv.disj c i (fun h => hi h.symm) p hpc (hsub i p hm)
  refine ⟨?_, ?_, ?_, ?_⟩
  · intro i
    by_cases hi : i = c
    · rw [hi]; exact hp2
    · rw [hother i hi]; exact hinv.nodup i
  · intro i j hij q hq hq2
    exact hinv.disj i j hij q (hsub i q hq) (hsub j q hq2)
  · refine List.nodup_cons.2 ⟨?_, hinv.used_nodup⟩
    intro hu
    exact hinv.used_free p hu c hpc
  · intro q hq i
    rcases List.mem_cons.1 hq with h2 | h2
    · rw [h2]; exact hpfree i
    · intro hm
      exact hinv.used_free q h2 i (hsub i q hm)

/-- Every run of the allocator keeps the invariant. -/
theorem reachable_poolInv {cfg : Config} {s : Kmem} {used : List Nat}
    (h : Reachable cfg s used) : PoolInv s used := by
  induction h with
  | init id mem _ hk => exact kinit_inv hk
  | kalloc_page id _ _ hk ih => exact kalloc_page_inv ih hk
  | kalloc_none id _ _ hk ih => exact kalloc_none_inv ih hk
  | kfree id p _ _ hp hk ih => exact kfree_fresh_inv ih (ih.used_free p hp) hk

theorem allFree_nodup {cfg : Config} {s : Kmem} {used : List Nat} (hinv : PoolInv s used) :
    (allFree cfg s).Nodup := by
  unfold allFree
  rw [List.nodup_flatMap]
  refine ⟨fun i _ => hinv.nodup i, ?_⟩
  refine (List.nodup_range cfg.NCPU).imp ?_
  intro i j hij
  exact List.disjoint_left.2 (fun p hp => hinv.disj i j hij p hp)

/-- C4 (pool invariant): in every run of the allocator that starts from the
state `kinit` builds and applies `kfree` only to a page in use, every page
address occurs at most once across all per-core chains taken together, and no
page in use occurs in any chain. -/
theorem pools_disjoint_from_used (cfg : Config) (s : Kmem) (used : List Nat)
    (h : Reachable cfg s used) :
    (allFree cfg s).Nodup ∧ ∀ p, p ∈ used → p ∉ allFree cfg s := by
  have hinv := reachable_poolInv h
  refine ⟨allFree_nodup hinv, ?_⟩
  intro p hp hm
  unfold allFree at hm
  obtain ⟨i, -, hi⟩ := List.mem_flatMap.1 hm
  exact hinv.used_free p hp i hi

theorem tinyInit_reachable : Reachable tiny tinyInit [] :=
  Reachable.init 0 (fun _ => 0) (by decide) (kinit_eq_getD tiny 0 _ _ (by decide))

end Kalloc

namespace Kalloc

theorem freerange_loop_step {cfg : Config} {id pa_end p : Nat} {s s1 : Kmem}
    (h1 : p + PGSIZE ≤ pa_end) (h2 : kfree cfg s id p = some s1) :
    freerange_loop cfg id pa_end s p = freerange_loop cfg id pa_end s1 (p + PGSIZE) := by
  rw [freerange_loop, if_pos h1, h2]

theorem freerange_loop_done {cfg : Config} {id pa_end p : Nat} {s : Kmem}
    (h1 : ¬ p + PGSIZE ≤ pa_end) : freerange_loop cfg id pa_end s p = some s := by
  rw [freerange_loop, if_neg h1]

theorem tiny_run : ∃ s3, kinit tiny 0 (fun _ => 0) = some s3 ∧
    s3.freelist 0 = [16384, 12288, 8192] ∧ s3.freelist 1 = [] := by
  have hk : tiny.kend = 8000 := rfl
  have hp : tiny.PHYSTOP = 20480 := rfl
  have hP : PGSIZE = 4096 := rfl
  have h0 : PGROUNDUP tiny.kend = 8192 := by rw [hk]; norm_num [PGROUNDUP, PGSIZE]
  have e1 : 8192 + PGSIZE ≤ tiny.PHYSTOP := by norm_num [hp, hP]
  have e2 : 12288 + PGSIZE ≤ tiny.PHYSTOP := by norm_num [hp, hP]
  have e3 : 16384 + PGSIZE ≤ tiny.PHYSTOP := by norm_num [hp, hP]
  have e4 : ¬ 20480 + PGSIZE ≤ tiny.PHYSTOP := by norm_num [hp, hP]
  have a1 : 8192 + PGSIZE = 12288 := by norm_num [hP]
  have a2 : 12288 + PGSIZE = 16384 := by norm_num [hP]
  have a3 : 16384 + PGSIZE = 20480 := by norm_num [hP]
  obtain ⟨s1, h1⟩ := kfree_isSome tiny { freelist := fun _ => [], mem := fun _ => 0 } 0 8192 (by norm_num [PGSIZE]) (by rw [hk]; norm_num) (by rw [hp]; norm_num)
  obtain ⟨s2, h2⟩ := kfree_isSome tiny s1 0 12288 (by norm_num [PGSIZE]) (by rw [hk]; norm_num) (by rw [hp]; norm_num)
  obtain ⟨s3, h3⟩ := kfree_isSome tiny s2 0 16384 (by norm_num [PGSIZE]) (by rw [hk]; norm_num) (by rw [hp]; norm_num)
  refine ⟨s3, ?_, ?_⟩
  · unfold kinit freerange
    rw [h0, freerange_loop_step e1 h1, a1, freerange_loop_step e2 h2, a2,
      freerange_loop_step e3 h3, a3, freerange_loop_done e4]
  · rw [(kfree_some h3).2, (kfree_some h2).2, (kfree_some h1).2]
    simp

theorem tinyInit_eq : tinyInit =
    (kinit tiny 0 (fun _ => 0)).getD { freelist := fun _ => [], mem := fun _ => 0 } := by
  unfold tinyInit
  rfl

/-- In `tiny` core 0 ends up with all three pages, the highest first. -/
theorem tinyInit_freelist :
    tinyInit.freelist 0 = [16384, 12288, 8192] ∧ tinyInit.freelist 1 = [] := by
  obtain ⟨s3, hrun, hf⟩ := tiny_run
  have h : tinyInit = s3 := by
    rw [tinyInit_eq, hrun, Option.getD_some]
  rw [h]
  exact hf


theorem kalloc_of_scan {cfg : Config} {s : Kmem} {id c r : Nat}
    (h : kalloc_scan cfg s id (List.range cfg.NCPU) = some (c, r)) :
    (kalloc cfg s id).2 = some r ∧
    (kalloc cfg s id).1.freelist = (fun i => if i = c then (s.freelist c).tail else s.freelist i) := by
  unfold kalloc
  rw [h]
  exact ⟨rfl, rfl⟩

theorem pair_eq_of_snd {α β : Type} {p : α × β} {b : β} (h : p.2 = b) : p = (p.1, b) := by
  cases p
  simp only at h
  rw [h]

theorem tinyRun_eq : tinyRun =
    (kfree tiny (kalloc tiny (kalloc tiny tinyInit 1).1 0).1 1 16384).getD tinyInit := by
  unfold tinyRun
  rfl

theorem kalloc_scan_skip {cfg : Config} {s : Kmem} {id o c : Nat} {rest : List Nat}
    (hc : (id + o) % cfg.NCPU = c) (h : s.freelist c = []) :
    kalloc_scan cfg s id (o :: rest) = kalloc_scan cfg s id rest := by
  subst hc
  simp only [kalloc_scan, h]

theorem kalloc_scan_take {cfg : Config} {s : Kmem} {id o c r : Nat} {t rest : List Nat}
    (hc : (id + o) % cfg.NCPU = c) (h : s.freelist c = r :: t) :
    kalloc_scan cfg s id (o :: rest) = some (c, r) := by
  subst hc
  simp only [kalloc_scan, h]

theorem tiny_cores : List.range tiny.NCPU = [0, 1] := by decide

theorem tinyRun_reachable : Reachable tiny tinyRun [12288] := by
  obtain ⟨f0, f1⟩ := tinyInit_freelist
  have hs1 : kalloc_scan tiny tinyInit 1 (List.range tiny.NCPU) = some (0, 16384) := by
    rw [tiny_cores, kalloc_scan_skip (c := 1) (by decide) f1,
      kalloc_scan_take (c := 0) (by decide) f0]
  obtain ⟨r1, g1⟩ := kalloc_of_scan hs1
  have g0 : (kalloc tiny tinyInit 1).1.freelist 0 = [12288, 8192] := by
    rw [g1]
    simp only [if_true, f0, List.tail_cons]
  have hs2 : kalloc_scan tiny (kalloc tiny tinyInit 1).1 0 (List.range tiny.NCPU) =
      some (0, 12288) := by
    rw [tiny_cores, kalloc_scan_take (c := 0) (by decide) g0]
  obtain ⟨r2, -⟩ := kalloc_of_scan hs2
  obtain ⟨s3, h3⟩ := kfree_isSome tiny (kalloc tiny (kalloc tiny tinyInit 1).1 0).1 1 16384 (by norm_num [PGSIZE]) (by norm_num [tiny]) (by norm_num [tiny])
  have q1 := Reachable.kalloc_page 1 tinyInit_reachable (by decide) (pair_eq_of_snd r1)
  have q2 := Reachable.kalloc_page 0 q1 (by decide) (pair_eq_of_snd r2)
  have q3 := Reachable.kfree 1 16384 q2 (by decide) (by simp) h3
  have he : [12288, 16384].erase 16384 = [12288] := by decide
  rw [he] at q3
  have he2 : tinyRun = s3 := by rw [tinyRun_eq, h3, Option.getD_some]
  rw [he2]
  exact q3

/-- Witness of C4: in `tiny`, after core 1 and core 0 allocated a page each and
core 1 freed its page again, page `0x3000` is in use and in no chain. -/
theorem pools_disjoint_from_used_witness :
    Reachable tiny tinyRun [12288] ∧
    (allFree tiny tinyRun).Nodup ∧ ∀ p, p ∈ [12288] → p ∉ allFree tiny tinyRun :=
  ⟨tinyRun_reachable, pools_disjoint_from_used tiny tinyRun [12288] tinyRun_reachable⟩

end Kalloc

/-! ## Properties of the mapped-region manager -/

namespace Mmap

theorem vma_alloc_fold_spec (mvma : Nat → Vma) (top n : Nat) :
    AllocSpec mvma top n ((List.range n).foldl (vma_alloc_step mvma) (top, none)) := by
  induction n with
  | zero =>
    refine ⟨Nat.le_refl _, fun i hi => absurd hi (Nat.not_lt_zero i), Or.inl rfl,
      fun _ i hi => absurd hi (Nat.not_lt_zero i), ?_⟩
    intro i hi
    simp at hi
  | succ n ih =>
    rw [List.range_succ, List.foldl_append]
    generalize (List.range n).foldl (vma_alloc_step mvma) (top, none) = r at ih
    simp only [List.foldl_cons, List.foldl_nil, vma_alloc_step]
    refine ⟨?_, ?_, ?_, ?_, ?_⟩
    · show (if (mvma n).addr ≠ 0 ∧ (mvma n).addr < r.1 then (mvma n).addr else r.1) ≤ top
      split
      · next h => exact Nat.le_trans (Nat.le_of_lt h.2) ih.le_top
      · exact ih.le_top
    · intro i hi hocc
      show (if (mvma n).addr ≠ 0 ∧ (mvma n).addr < r.1 then (mvma n).addr else r.1) ≤ _
      rcases Nat.lt_succ_iff_lt_or_eq.1 hi with h1 | h1
      · have := ih.lower i h1 hocc
        split
        · next h => omega
        · exact this
      · subst h1
        split
        · exact Nat.le_refl _
        · next h =>
          simp only [not_and, not_lt] at h
          exact h hocc
    · show (if (mvma n).addr ≠ 0 ∧ (mvma n).addr < r.1 then (mvma n).addr else r.1) = top ∨ _
      split
      · next h => exact Or.inr ⟨n, Nat.lt_succ_self n, h.1, rfl⟩
      · rcases ih.attained with h1 | ⟨i, hi, h2, h3⟩
        · exact Or.inl h1
        · exact Or.inr ⟨i, Nat.lt_succ_of_lt hi, h2, h3⟩
    · intro hnone i hi
      have hnone' : (if (mvma n).addr = 0 ∧ r.2 = none then some n else r.2) = none := hnone
      by_cases hc : (mvma n).addr = 0 ∧ r.2 = none
      · rw [if_pos hc] at hnone'; cases hnone'
      · rw [if_neg hc] at hnone'
        rcases Nat.lt_succ_iff_lt_or_eq.1 hi with h1 | h1
        · exact ih.none_full hnone' i h1
        · subst h1
          intro h0
          exact hc ⟨h0, hnone'⟩
    · intro i hsome
      have hsome' : (if (mvma n).addr = 0 ∧ r.2 = none then some n else r.2) = some i := hsome
      by_cases hc : (mvma n).addr = 0 ∧ r.2 = none
      · rw [if_pos hc] at hsome'
        simp only [Option.some.injEq] at hsome'
        subst hsome'
        exact ⟨Nat.lt_succ_self _, hc.1⟩
      · rw [if_neg hc] at hsome'
        obtain ⟨h1, h2⟩ := ih.some_free i hsome'
        exact ⟨Nat.lt_succ_of_lt h1, h2⟩

theorem vma_alloc_scan_spec (cfg : Config) (p : Proc) :
    AllocSpec p.mvma cfg.TRAPFRAME p.NVMA (vma_alloc_scan cfg p) :=
  vma_alloc_fold_spec p.mvma cfg.TRAPFRAME p.NVMA

/-- When no slot is free `vma_alloc` returns null. -/
theorem vma_alloc_full {cfg : Config} {p : Proc} (addr length : Nat)
    (h : ∀ i, i < p.NVMA → (p.mvma i).addr ≠ 0) : (vma_alloc cfg p addr length).1 = none := by
  have hs := vma_alloc_scan_spec cfg p
  simp only [vma_alloc]
  cases hf : (vma_alloc_scan cfg p).2 with
  | none => rfl
  | some i =>
    obtain ⟨h1, h2⟩ := hs.some_free i hf
    exact absurd h2 (h i h1)

/-- The placement `mmap` computes: below the lowest occupied base, else below
`TRAPFRAME`, by the rounded length, in `uint64` arithmetic. -/
theorem vma_alloc_eq (cfg : Config) (p : Proc) (addr length : Nat) :
    vma_alloc cfg p addr length =
      ((vma_alloc_scan cfg p).2,
       ((vma_alloc_scan cfg p).1 + 2 ^ 64 - rounded_len addr length) % 2 ^ 64,
       rounded_len addr length) := rfl

/-- What `mmap` does to the kernel state: nothing outside the region table
and the reference count of the file; in the region table at most the first
free slot changes, to zero when `mmap` fails after it took the slot and to the
new region when it succeeds. -/
theorem mmap_effect (cfg : Config) (k : Kernel) (addr length prot flags fd offset : Nat) :
    (mmap cfg k addr length prot flags fd offset).1.proc.NVMA = k.proc.NVMA ∧
    (mmap cfg k addr length prot flags fd offset).1.proc.pagetable = k.proc.pagetable ∧
    (mmap cfg k addr length prot flags fd offset).1.kmem = k.kmem ∧
    (mmap cfg k addr length prot flags fd offset).1.trace = k.trace ∧
    (((mmap cfg k addr length prot flags fd offset).2 = MAP_FAILED ∧
        ((mmap cfg k addr length prot flags fd offset).1.proc.mvma = k.proc.mvma ∨
          ∃ free, (vma_alloc_scan cfg k.proc).2 = some free ∧
            (mmap cfg k addr length prot flags fd offset).1.proc.mvma =
              fun j => if j = free then Vma.zero else k.proc.mvma j)) ∨
      ∃ free, (vma_alloc_scan cfg k.proc).2 = some free ∧
        (mmap cfg k addr length prot flags fd offset).2 =
          ((vma_alloc_scan cfg k.proc).1 + 2 ^ 64 - rounded_len addr length) % 2 ^ 64 ∧
        (mmap cfg k addr length prot flags fd offset).1.proc.mvma =
          fun j => if j = free then
            mmap_fill cfg k (((vma_alloc_scan cfg k.proc).1 + 2 ^ 64 - rounded_len addr length)
              % 2 ^ 64) (rounded_len addr length) prot flags fd offset
          else k.proc.mvma j) := by
  unfold mmap
  rw [vma_alloc_eq]
  cases hfree : (vma_alloc_scan cfg k.proc).2 with
  | none => exact ⟨rfl, rfl, rfl, rfl, Or.inl ⟨rfl, Or.inl rfl⟩⟩
  | some free =>
    simp only
    cases hof : (mmap_fill cfg k (((vma_alloc_scan cfg k.proc).1 + 2 ^ 64 -
        rounded_len addr length) % 2 ^ 64) (rounded_len addr length) prot flags fd offset).ofile with
    | none => exact ⟨rfl, rfl, rfl, rfl, Or.inl ⟨rfl, Or.inr ⟨free, rfl, rfl⟩⟩⟩
    | some f =>
      simp only
      split
      · exact ⟨rfl, rfl, rfl, rfl, Or.inl ⟨rfl, Or.inr ⟨free, rfl, rfl⟩⟩⟩
      · split
        · exact ⟨rfl, rfl, rfl, rfl, Or.inl ⟨rfl, Or.inr ⟨free, rfl, rfl⟩⟩⟩
        · split
          · exact ⟨rfl, rfl, rfl, rfl, Or.inl ⟨rfl, Or.inr ⟨free, rfl, rfl⟩⟩⟩
          · exact ⟨rfl, rfl, rfl, rfl, Or.inr ⟨free, rfl, rfl, rfl⟩⟩

theorem PGROUNDUP_aligned (a : Nat) : PGROUNDUP a % PGSIZE = 0 := by
  unfold PGROUNDUP
  exact Nat.mul_mod_left _ _

theorem PGROUNDDOWN_aligned (a : Nat) : PGROUNDDOWN a % PGSIZE = 0 := by
  unfold PGROUNDDOWN
  exact Nat.mul_mod_left _ _

theorem PGROUNDUP_lt (a : Nat) : PGROUNDUP a < 2 ^ 64 := by
  unfold PGROUNDUP
  have h1 : (a + PGSIZE - 1) % 2 ^ 64 < 2 ^ 64 := Nat.mod_lt _ (Nat.two_pow_pos 64)
  have h2 := Nat.div_mul_le_self ((a + PGSIZE - 1) % 2 ^ 64) PGSIZE
  omega

/-- The length `mmap` records is a multiple of the page size. -/
theorem rounded_len_aligned (addr length : Nat) : rounded_len addr length % PGSIZE = 0 := by
  simp only [rounded_len]
  have h1 := PGROUNDUP_aligned ((addr + length) % 2 ^ 64)
  have h2 := PGROUNDDOWN_aligned addr
  have hP : PGSIZE = 4096 := rfl
  rw [hP] at h1 h2 ⊢
  generalize PGROUNDUP ((addr + length) % 2 ^ 64) = A at h1
  generalize PGROUNDDOWN addr = B at h2
  omega

theorem rounded_len_lt (addr length : Nat) : rounded_len addr length < 2 ^ 64 := by
  simp only [rounded_len]
  exact Nat.mod_lt _ (Nat.two_pow_pos 64)

/-- C9 (map failures), with case (iii) as the code has it: `mmap` returns the
failure value when (i) the process has no free region-table slot, (ii) read
permission is requested and the file is not readable, (iii) a shared mapping
with write permission is requested on a file that is not writable. -/
theorem mmap_failure_cases (cfg : Config) (k : Kernel) (addr length prot flags fd offset : Nat) :
    ((∀ i, i < k.proc.NVMA → (k.proc.mvma i).addr ≠ 0) →
      (mmap cfg k addr length prot flags fd offset).2 = MAP_FAILED) ∧
    (∀ f, k.proc.ofile fd = some f → prot &&& cfg.PROT_READ ≠ 0 →
      (k.ftable f).readable = false →
      (mmap cfg k addr length prot flags fd offset).2 = MAP_FAILED) ∧
    (∀ f, k.proc.ofile fd = some f → flags &&& cfg.MAP_SHARED ≠ 0 →
      prot &&& cfg.PROT_WRITE ≠ 0 → (k.ftable f).writable = false →
      (mmap cfg k addr length prot flags fd offset).2 = MAP_FAILED) := by
  refine ⟨?_, ?_, ?_⟩
  · intro hfull
    have h := @vma_alloc_full cfg k.proc addr length hfull
    unfold mmap
    rcases hv : vma_alloc cfg k.proc addr length with ⟨o, a, l⟩
    rw [hv] at h
    simp only at h
    subst h
    rfl
  · intro f hf hr hnr
    unfold mmap
    rcases vma_alloc cfg k.proc addr length with ⟨o, a, l⟩
    cases o with
    | none => rfl
    | some free =>
      by_cases hs : flags &&& cfg.MAP_SHARED = 0 <;> simp [mmap_fill, hf, hnr, hr, hs]
  · intro f hf hs hw hnw
    unfold mmap
    rcases vma_alloc cfg k.proc addr length with ⟨o, a, l⟩
    cases o with
    | none => rfl
    | some free =>
      by_cases hr : (k.ftable f).readable = true <;> simp [mmap_fill, hf, hnw, hs, hw, hr]

/-- Witness of C9: in a fresh process a private read mapping of a write-only
file fails. -/
theorem mmap_failure_cases_witness :
    (mmap xv6 (freshKernel wronlyFile) 0 4096 1 2 3 0).2 = MAP_FAILED :=
  (mmap_failure_cases xv6 (freshKernel wronlyFile) 0 4096 1 2 3 0).2.1 0 rfl (by decide) rfl

/-- Counterexample to C9 (iii) as stated: a write-only file is not opened for
both reading and writing, yet a shared mapping of it with write permission
alone succeeds, one page below `TRAPFRAME`. -/
theorem mmap_shared_write_on_wronly_succeeds :
    ¬ (wronlyFile.readable = true ∧ wronlyFile.writable = true) ∧
    1 &&& xv6.MAP_SHARED ≠ 0 ∧ 2 &&& xv6.PROT_WRITE ≠ 0 ∧
    (freshKernel wronlyFile).proc.ofile 3 = some 0 ∧
    (mmap xv6 (freshKernel wronlyFile) 0 4096 2 1 3 0).2 = 0x3fffffd000 ∧
    (mmap xv6 (freshKernel wronlyFile) 0 4096 2 1 3 0).2 ≠ MAP_FAILED := by
  decide

/-- A `mmap` that does not return the failure value took the success path. -/
theorem mmap_success {cfg : Config} {k : Kernel} {addr length prot flags fd offset : Nat}
    (h : (mmap cfg k addr length prot flags fd offset).2 ≠ MAP_FAILED) :
    ∃ free, (vma_alloc_scan cfg k.proc).2 = some free ∧
      (mmap cfg k addr length prot flags fd offset).2 =
        ((vma_alloc_scan cfg k.proc).1 + 2 ^ 64 - rounded_len addr length) % 2 ^ 64 ∧
      (mmap cfg k addr length prot flags fd offset).1.proc.mvma =
        fun j => if j = free then
          mmap_fill cfg k (((vma_alloc_scan cfg k.proc).1 + 2 ^ 64 - rounded_len addr length)
            % 2 ^ 64) (rounded_len addr length) prot flags fd offset
        else k.proc.mvma j := by
  rcases (mmap_effect cfg k addr length prot flags fd offset).2.2.2.2 with ⟨hf, -⟩ | hs
  · exact absurd hf h
  · exact hs

/-- C5 (mapping placement), for requests that fit: in a process with an empty
region table, two successive successful `mmap` calls whose page-rounded
lengths `R1`, `R2` satisfy `R1 < TRAPFRAME`, `0 < R2` and
`R1 + R2 ≤ TRAPFRAME` record two regions in different slots; the first ends at
`TRAPFRAME`, the second ends where the first begins and so lies strictly below
it and apart from it, and bases and lengths are multiples of the page size. -/
theorem mmap_twice_placement (cfg : Config) (k : Kernel)
    (a1 l1 prot1 flags1 fd1 off1 a2 l2 prot2 flags2 fd2 off2 : Nat)
    (hT : cfg.TRAPFRAME % PGSIZE = 0) (hT2 : cfg.TRAPFRAME < 2 ^ 64)
    (hempty : ∀ i, i < k.proc.NVMA → (k.proc.mvma i).addr = 0)
    (h1 : (mmap cfg k a1 l1 prot1 flags1 fd1 off1).2 ≠ MAP_FAILED)
    (h2 : (mmap cfg (mmap cfg k a1 l1 prot1 flags1 fd1 off1).1
            a2 l2 prot2 flags2 fd2 off2).2 ≠ MAP_FAILED)
    (hR1 : rounded_len a1 l1 < cfg.TRAPFRAME) (hR2 : 0 < rounded_len a2 l2)
    (hfit : rounded_len a1 l1 + rounded_len a2 l2 ≤ cfg.TRAPFRAME) :
    ∃ i j, i ≠ j ∧ i < k.proc.NVMA ∧ j < k.proc.NVMA ∧
      ((mmap cfg (mmap cfg k a1 l1 prot1 flags1 fd1 off1).1
          a2 l2 prot2 flags2 fd2 off2).1.proc.mvma i).addr =
        (mmap cfg k a1 l1 prot1 flags1 fd1 off1).2 ∧
      ((mmap cfg (mmap cfg k a1 l1 prot1 flags1 fd1 off1).1
          a2 l2 prot2 flags2 fd2 off2).1.proc.mvma i).length = rounded_len a1 l1 ∧
      ((mmap cfg (mmap cfg k a1 l1 prot1 flags1 fd1 off1).1
          a2 l2 prot2 flags2 fd2 off2).1.proc.mvma j).addr =
        (mmap cfg (mmap cfg k a1 l1 prot1 flags1 fd1 off1).1 a2 l2 prot2 flags2 fd2 off2).2 ∧
      ((mmap cfg (mmap cfg k a1 l1 prot1 flags1 fd1 off1).1
          a2 l2 prot2 flags2 fd2 off2).1.proc.mvma j).length = rounded_len a2 l2 ∧
      (mmap cfg k a1 l1 prot1 flags1 fd1 off1).2 + rounded_len a1 l1 = cfg.TRAPFRAME ∧
      (mmap cfg (mmap cfg k a1 l1 prot1 flags1 fd1 off1).1 a2 l2 prot2 flags2 fd2 off2).2 +
        rounded_len a2 l2 = (mmap cfg k a1 l1 prot1 flags1 fd1 off1).2 ∧
      (mmap cfg (mmap cfg k a1 l1 prot1 flags1 fd1 off1).1 a2 l2 prot2 flags2 fd2 off2).2 <
        (mmap cfg k a1 l1 prot1 flags1 fd1 off1).2 ∧
      (mmap cfg k a1 l1 prot1 flags1 fd1 off1).2 % PGSIZE = 0 ∧
      (mmap cfg (mmap cfg k a1 l1 prot1 flags1 fd1 off1).1 a2 l2 prot2 flags2 fd2 off2).2
        % PGSIZE = 0 ∧
      rounded_len a1 l1 % PGSIZE = 0 ∧ rounded_len a2 l2 % PGSIZE = 0 := by
  have hP : PGSIZE = 4096 := rfl
  have hA1 := rounded_len_aligned a1 l1
  have hA2 := rounded_len_aligned a2 l2
  obtain ⟨free1, hf1, hb1, hm1⟩ := mmap_success h1
  have hN1 := (mmap_effect cfg k a1 l1 prot1 flags1 fd1 off1).1
  generalize mmap cfg k a1 l1 prot1 flags1 fd1 off1 = r1 at *
  obtain ⟨free2, hf2, hb2, hm2⟩ := mmap_success h2
  generalize mmap cfg r1.1 a2 l2 prot2 flags2 fd2 off2 = r2 at *
  have hs1 := vma_alloc_scan_spec cfg k.proc
  have hs2 := vma_alloc_scan_spec cfg r1.1.proc
  -- the first placement
  have htop1 : (vma_alloc_scan cfg k.proc).1 = cfg.TRAPFRAME := by
    rcases hs1.attained with h | ⟨i, hi, hocc, -⟩
    · exact h
    · exact absurd (hempty i hi) hocc
  have hfree1 := (hs1.some_free free1 hf1).1
  rw [htop1] at hb1 hm1
  have hb1' : r1.2 = cfg.TRAPFRAME - rounded_len a1 l1 := by
    rw [hb1]
    have : cfg.TRAPFRAME + 2 ^ 64 - rounded_len a1 l1
        = (cfg.TRAPFRAME - rounded_len a1 l1) + 2 ^ 64 := by omega
    rw [this, Nat.add_mod_right, Nat.mod_eq_of_lt (by omega)]
  rw [← hb1] at hm1
  -- the region table after the first call
  have hocc1 : (r1.1.proc.mvma free1).addr = r1.2 := by
    rw [hm1]; simp [mmap_fill]
  have hlen1 : (r1.1.proc.mvma free1).length = rounded_len a1 l1 := by
    rw [hm1]; simp [mmap_fill]
  have hother1 : ∀ i, i < k.proc.NVMA → i ≠ free1 → (r1.1.proc.mvma i).addr = 0 := by
    intro i hi hne
    rw [hm1]
    simp only [hne, if_false]
    exact hempty i hi
  -- the second placement
  rw [hN1] at hs2
  obtain ⟨hfree2, hzero2⟩ := hs2.some_free free2 hf2
  have hne : free1 ≠ free2 := by
    intro h
    rw [← h, hocc1] at hzero2
    omega
  have htop2 : (vma_alloc_scan cfg r1.1.proc).1 = r1.2 := by
    have hle := hs2.lower free1 hfree1 (by rw [hocc1]; omega)
    rw [hocc1] at hle
    rcases hs2.attained with h | ⟨i, hi, hocc, h⟩
    · omega
    · by_cases hi1 : i = free1
      · rw [h, hi1, hocc1]
      · exact absurd (hother1 i hi hi1) hocc
  rw [htop2] at hb2 hm2
  have hb2' : r2.2 = r1.2 - rounded_len a2 l2 := by
    rw [hb2]
    have : r1.2 + 2 ^ 64 - rounded_len a2 l2 = (r1.2 - rounded_len a2 l2) + 2 ^ 64 := by omega
    rw [this, Nat.add_mod_right, Nat.mod_eq_of_lt (by omega)]
  rw [← hb2] at hm2
  have hal1 : r1.2 % PGSIZE = 0 := by
    rw [hP] at hT hA1 ⊢
    omega
  have hal2 : r2.2 % PGSIZE = 0 := by
    rw [hP] at hT hA1 hA2 ⊢
    omega
  refine ⟨free1, free2, hne, hfree1, hfree2, ?_, ?_, ?_, ?_, by omega, by omega, by omega,
    hal1, hal2, hA1, hA2⟩
  · rw [hm2]; simp only [hne, if_false]; exact hocc1
  · rw [hm2]; simp only [hne, if_false]; exact hlen1
  · rw [hm2]; simp [mmap_fill]
  · rw [hm2]; simp [mmap_fill]

/-- Witness of C5: one page and then two pages mapped read-only and private
in a fresh process. -/
theorem mmap_twice_placement_witness :
    (mmap xv6 (freshKernel rdonlyFile) 0 4096 1 2 3 0).2 + 4096 = xv6.TRAPFRAME ∧
    (mmap xv6 (mmap xv6 (freshKernel rdonlyFile) 0 4096 1 2 3 0).1 0 8192 1 2 3 0).2 + 8192 =
      (mmap xv6 (freshKernel rdonlyFile) 0 4096 1 2 3 0).2 ∧
    (mmap xv6 (mmap xv6 (freshKernel rdonlyFile) 0 4096 1 2 3 0).1 0 8192 1 2 3 0).2 <
      (mmap xv6 (freshKernel rdonlyFile) 0 4096 1 2 3 0).2 := by
  obtain ⟨i, j, -, -, -, -, -, -, -, h1, h2, h3, -⟩ :=
    mmap_twice_placement xv6 (freshKernel rdonlyFile) 0 4096 1 2 3 0 0 8192 1 2 3 0
      (by decide) (by decide) (fun _ _ => rfl) (by decide) (by decide) (by decide) (by decide)
      (by decide)
  exact ⟨h1, h2, h3⟩

/-- Counterexample to C5 as stated: in a fresh process, after a successful
`mmap` of one page, a successful `mmap` of length 0 returns the same base, and
a successful `mmap` of length `2^64 - 4096` returns `TRAPFRAME`, above the first
region; neither is strictly below the first. -/
theorem mmap_twice_not_below :
    (∀ i, i < (freshKernel rdonlyFile).proc.NVMA →
      ((freshKernel rdonlyFile).proc.mvma i).addr = 0) ∧
    (mmap xv6 (freshKernel rdonlyFile) 0 4096 1 2 3 0).2 = 0x3fffffd000 ∧
    (mmap xv6 (freshKernel rdonlyFile) 0 4096 1 2 3 0).2 ≠ MAP_FAILED ∧
    (mmap xv6 onePage 0 0 1 2 3 0).2 ≠ MAP_FAILED ∧
    ¬ ((mmap xv6 onePage 0 0 1 2 3 0).2 < (mmap xv6 (freshKernel rdonlyFile) 0 4096 1 2 3 0).2) ∧
    (mmap xv6 onePage 0 (2 ^ 64 - 4096) 1 2 3 0).2 = 0x3fffffe000 ∧
    (mmap xv6 onePage 0 (2 ^ 64 - 4096) 1 2 3 0).2 ≠ MAP_FAILED ∧
    ¬ ((mmap xv6 onePage 0 (2 ^ 64 - 4096) 1 2 3 0).2 <
        (mmap xv6 (freshKernel rdonlyFile) 0 4096 1 2 3 0).2) := by
  decide

/-- C7, the code at the failing input: on the one-page region at
`TRAPFRAME - 4096`, `munmap(TRAPFRAME - 4096, 8192)` asks for a range that runs
past the end of the region, yet it returns 0 and leaves the slot with base
`TRAPFRAME + 4096`, file offset 8192 and length `2^64 - 4096`. -/
theorem munmap_past_end_accepted :
    (onePage.proc.mvma 0).addr = 0x3fffffd000 ∧ (onePage.proc.mvma 0).length = 4096 ∧
    (munmap xv6 okExt 0 onePage 0x3fffffd000 8192).val? = some 0 ∧
    (((munmap xv6 okExt 0 onePage 0x3fffffd000 8192).state onePage).proc.mvma 0).addr
      = 0x3ffffff000 ∧
    (((munmap xv6 okExt 0 onePage 0x3fffffd000 8192).state onePage).proc.mvma 0).offset
      = 8192 ∧
    (((munmap xv6 okExt 0 onePage 0x3fffffd000 8192).state onePage).proc.mvma 0).length
      = 2 ^ 64 - 4096 := by
  decide

/-! ### What `munmap` touches -/

theorem vma_write_loop_frame (cfg : Config) (ext : Ext) (ip addr : Nat) (n : Int) :
    ∀ (fuel : Nat) (k : Kernel) (off : Nat) (i : Int) (k1 : Kernel) (j : Int),
      vma_write_loop cfg ext ip addr n fuel k off i = .ok k1 j →
      k1.proc = k.proc ∧ k1.ftable = k.ftable ∧ k1.kmem = k.kmem := by
  intro fuel
  induction fuel with
  | zero => intro k off i k1 j h; simp [vma_write_loop] at h
  | succ fuel ih =>
    intro k off i k1 j h
    rw [vma_write_loop] at h
    by_cases hi : i < n
    · rw [if_pos hi] at h
      by_cases hr : ext.writei k ip (((addr : Int) + i).toNat % 2 ^ 64) off
          (vma_write_chunk cfg n i) ≠ vma_write_chunk cfg n i
      · simp only [if_pos hr, Res.ok.injEq] at h
        rw [← h.1]
        exact ⟨rfl, rfl, rfl⟩
      · simp only [if_neg hr] at h
        obtain ⟨h1, h2, h3⟩ := ih _ _ _ _ _ h
        exact ⟨h1, h2, h3⟩
    · rw [if_neg hi] at h
      simp only [Res.ok.injEq] at h
      rw [← h.1]
      exact ⟨rfl, rfl, rfl⟩

theorem vma_write_frame {cfg : Config} {ext : Ext} {k k1 : Kernel} {ip addr off : Nat}
    {n r : Int} (h : vma_write cfg ext k ip addr off n = .ok k1 r) :
    k1.proc = k.proc ∧ k1.ftable = k.ftable ∧ k1.kmem = k.kmem := by
  unfold vma_write at h
  cases hl : vma_write_loop cfg ext ip addr n (n.toNat + 1) k off 0 with
  | ok k2 i =>
    rw [hl] at h
    simp only [Res.ok.injEq] at h
    rw [← h.1]
    exact vma_write_loop_frame cfg ext ip addr n _ _ _ _ _ _ hl
  | panic => rw [hl] at h; cases h
  | outOfFuel => rw [hl] at h; cases h

/-- What `uvmunmap` does when it returns: the event is recorded, the mapping
of the page is gone, the region table and the open files are as before. -/
theorem uvmunmap_frame {cfg : Config} {cpu : Nat} {k k1 : Kernel} {va : Nat} {u : Unit}
    (h : uvmunmap cfg cpu k va = .ok k1 u) :
    k1.proc.NVMA = k.proc.NVMA ∧ k1.proc.mvma = k.proc.mvma ∧ k1.proc.ofile = k.proc.ofile ∧
    k1.ftable = k.ftable ∧ k1.trace = k.trace ++ [Event.uvmunmap va] ∧
    k1.proc.pagetable = fun a => if a = PGROUNDDOWN va then none else k.proc.pagetable a := by
  unfold uvmunmap at h
  cases hp : k.proc.pagetable (PGROUNDDOWN va) with
  | none =>
    rw [hp] at h
    simp only [Res.ok.injEq] at h
    rw [← h.1]
    refine ⟨rfl, rfl, rfl, rfl, rfl, ?_⟩
    funext a
    by_cases ha : a = PGROUNDDOWN va
    · simp only [ha, if_true]; exact hp
    · simp only [ha, if_false]
  | some pp =>
    rw [hp] at h
    simp only at h
    cases hk : Kalloc.kfree cfg k.kmem cpu pp.1 with
    | none => rw [hk] at h; cases h
    | some km =>
      rw [hk] at h
      simp only [Res.ok.injEq] at h
      rw [← h.1]
      exact ⟨rfl, rfl, rfl, rfl, rfl, rfl⟩

theorem munmap_page_frame {cfg : Config} {ext : Ext} {cpu t cur_addr : Nat} {k k1 : Kernel}
    {r : Int} (h : munmap_page cfg ext cpu t cur_addr k = .ok k1 r) :
    k1.proc.NVMA = k.proc.NVMA ∧ k1.proc.mvma = k.proc.mvma ∧ k1.proc.ofile = k.proc.ofile ∧
    k1.ftable = k.ftable := by
  unfold munmap_page at h
  simp only at h
  by_cases hw : walkaddr k.proc.pagetable cur_addr ≠ 0
  · rw [if_pos hw] at h
    have key : ∀ (wb : Res Int), (∀ k0 r0, wb = .ok k0 r0 →
        k0.proc = k.proc ∧ k0.ftable = k.ftable) →
        (match wb with
          | .ok k1 r =>
            if r = -1 then Res.ok k1 (-1)
            else
              match uvmunmap cfg cpu k1 cur_addr with
              | .ok k2 _ => .ok k2 0
              | .panic => .panic
              | .outOfFuel => .outOfFuel
          | .panic => .panic
          | .outOfFuel => .outOfFuel) = .ok k1 r →
        k1.proc.NVMA = k.proc.NVMA ∧ k1.proc.mvma = k.proc.mvma ∧
          k1.proc.ofile = k.proc.ofile ∧ k1.ftable = k.ftable := by
      intro wb hwb hres
      cases wb with
      | ok k0 r0 =>
        obtain ⟨hp, hf⟩ := hwb k0 r0 rfl
        simp only at hres
        by_cases hr : r0 = -1
        · rw [if_pos hr] at hres
          simp only [Res.ok.injEq] at hres
          rw [← hres.1, hp, hf]
          exact ⟨rfl, rfl, rfl, rfl⟩
        · rw [if_neg hr] at hres
          cases hu : uvmunmap cfg cpu k0 cur_addr with
          | ok k2 u =>
            rw [hu] at hres
            simp only [Res.ok.injEq] at hres
            obtain ⟨h1, h2, h3, h4, -, -⟩ := uvmunmap_frame hu
            rw [← hres.1, h1, h2, h3, h4, hp, hf]
            exact ⟨rfl, rfl, rfl, rfl⟩
          | panic => rw [hu] at hres; cases hres
          | outOfFuel => rw [hu] at hres; cases hres
      | panic => cases hres
      | outOfFuel => cases hres
    refine key _ ?_ h
    intro k0 r0 hwb
    by_cases hs : (k.proc.mvma t).shared = true ∧ (k.proc.mvma t).writeable = true
    · rw [if_pos hs] at hwb
      cases hof : (k.proc.mvma t).ofile with
      | none => rw [hof] at hwb; cases hwb
      | some f =>
        rw [hof] at hwb
        obtain ⟨h1, h2, -⟩ := vma_write_frame hwb
        exact ⟨h1, h2⟩
    · rw [if_neg hs] at hwb
      simp only [Res.ok.injEq] at hwb
      rw [← hwb.1]
      exact ⟨rfl, rfl⟩
  · rw [if_neg hw] at h
    simp only [Res.ok.injEq] at h
    rw [← h.1]
    exact ⟨rfl, rfl, rfl, rfl⟩

/-- What the page loop of `munmap` does to the region table: slot `t` is
advanced once for every page got through, `m` of them, all of them unless a
write-back failed; no other slot and no open file changes. -/
theorem munmap_loop_table (cfg : Config) (ext : Ext) (cpu t : Nat) :
    ∀ (ps : List Nat) (k k1 : Kernel) (r : Int),
      munmap_loop cfg ext cpu t ps k = .ok k1 r →
      k1.proc.NVMA = k.proc.NVMA ∧ k1.proc.ofile = k.proc.ofile ∧ k1.ftable = k.ftable ∧
      (r = -1 ∨ r = 0) ∧
      ∃ m, m ≤ ps.length ∧ (r ≠ -1 → m = ps.length) ∧
        k1.proc.mvma = fun j => if j = t then vma_advance^[m] (k.proc.mvma t)
                                else k.proc.mvma j := by
  intro ps
  induction ps with
  | nil =>
    intro k k1 r h
    simp only [munmap_loop, Res.ok.injEq] at h
    rw [← h.1, ← h.2]
    refine ⟨rfl, rfl, rfl, Or.inr rfl, 0, Nat.le_refl _, fun _ => rfl, ?_⟩
    funext j
    by_cases hj : j = t
    · simp [hj]
    · simp [hj]
  | cons c rest ih =>
    intro k k1 r h
    rw [munmap_loop] at h
    cases hp : munmap_page cfg ext cpu t c k with
    | ok k0 r0 =>
      rw [hp] at h
      simp only at h
      obtain ⟨f1, f2, f3, f4⟩ := munmap_page_frame hp
      by_cases hr : r0 = -1
      · rw [if_pos hr] at h
        simp only [Res.ok.injEq] at h
        rw [← h.1, ← h.2]
        refine ⟨f1, f3, f4, Or.inl rfl, 0, Nat.zero_le _, fun hne => absurd rfl hne, ?_⟩
        rw [f2]
        funext j
        by_cases hj : j = t
        · simp [hj]
        · simp [hj]
      · rw [if_neg hr] at h
        obtain ⟨g1, g2, g3, g4, m, hm, hall, hmv⟩ := ih _ _ _ h
        refine ⟨g1.trans f1, g2.trans f3, g3.trans f4, g4, m + 1, ?_, ?_, ?_⟩
        · simp only [List.length_cons]; omega
        · intro hne; simp only [List.length_cons]; rw [hall hne]
        · rw [hmv]
          funext j
          by_cases hj : j = t
          · simp only [hj, if_true, setVma, Function.iterate_succ_apply, f2]
          · simp only [hj, if_false, setVma, f2]
    | panic => rw [hp] at h; cases h
    | outOfFuel => rw [hp] at h; cases h

/-! ### The region invariant -/

theorem vma_hit_scan_some {mvma : Nat → Vma} {addr t : Nat} {l : List Nat}
    (h : vma_hit_scan mvma addr l = some t) :
    t ∈ l ∧ (mvma t).addr ≠ 0 ∧ (mvma t).addr ≤ addr ∧
      addr < ((mvma t).addr + (mvma t).length) % 2 ^ 64 := by
  induction l with
  | nil => cases h
  | cons i rest ih =>
    rw [vma_hit_scan] at h
    split at h
    · next hc =>
      simp only [Option.some.injEq] at h
      subst h
      exact ⟨List.mem_cons_self _ _, hc⟩
    · obtain ⟨h1, h2⟩ := ih h
      exact ⟨List.mem_cons_of_mem _ h1, h2⟩

theorem vma_hit_some {p : Proc} {addr t : Nat} (h : vma_hit p addr = some t) :
    t < p.NVMA ∧ (p.mvma t).addr ≠ 0 ∧ (p.mvma t).addr ≤ addr ∧
      addr < ((p.mvma t).addr + (p.mvma t).length) % 2 ^ 64 := by
  obtain ⟨h1, h2⟩ := vma_hit_scan_some h
  exact ⟨List.mem_range.1 h1, h2⟩

/-- Advancing a region by `m` pages that it has, without leaving `uint64`. -/
theorem vma_advance_iterate (m : Nat) :
    ∀ v : Vma, v.addr + m * PGSIZE < 2 ^ 64 → m * PGSIZE ≤ v.length → v.length < 2 ^ 64 →
      (vma_advance^[m] v).addr = v.addr + m * PGSIZE ∧
      (vma_advance^[m] v).length = v.length - m * PGSIZE := by
  have hP : PGSIZE = 4096 := rfl
  induction m with
  | zero => intro v _ _ _; simp
  | succ m ih =>
    intro v h1 h2 h3
    rw [Function.iterate_succ_apply]
    rw [hP] at h1 h2
    have ha : (vma_advance v).addr = v.addr + 4096 := by
      simp only [vma_advance, hP]
      exact Nat.mod_eq_of_lt (by omega)
    have hl : (vma_advance v).length = v.length - 4096 := by
      simp only [vma_advance, hP]
      have : v.length + 2 ^ 64 - 4096 = (v.length - 4096) + 2 ^ 64 := by omega
      rw [this, Nat.add_mod_right]
      exact Nat.mod_eq_of_lt (by omega)
    obtain ⟨g1, g2⟩ := ih (vma_advance v) (by rw [ha, hP]; omega) (by rw [hl, hP]; omega)
      (by rw [hl]; omega)
    rw [g1, g2, ha, hl, hP]
    constructor <;> omega

/-- Replacing a free slot by a region that ends at or below every occupied
base keeps the invariant. -/
theorem RegionInv.place {cfg : Config} {p p1 : Proc} {free : Nat} {v : Vma}
    (hinv : RegionInv cfg p) (hN : p1.NVMA = p.NVMA)
    (hm : p1.mvma = fun j => if j = free then v else p.mvma j)
    (hv : v.addr ≠ 0 → v.addr % PGSIZE = 0 ∧ v.length % PGSIZE = 0 ∧
      v.addr + v.length ≤ cfg.TRAPFRAME ∧
      ∀ j, j < p.NVMA → (p.mvma j).addr ≠ 0 → v.addr + v.length ≤ (p.mvma j).addr) :
    RegionInv cfg p1 := by
  constructor
  · intro i hi hocc
    rw [hN] at hi
    rw [hm] at hocc ⊢
    simp only at hocc ⊢
    by_cases h : i = free
    · simp only [h, if_true] at hocc ⊢
      obtain ⟨h1, h2, h3, -⟩ := hv hocc
      exact ⟨h1, h2, h3⟩
    · simp only [h, if_false] at hocc ⊢
      exact hinv.shape i hi hocc
  · intro i j hi hj hij hoi hoj
    rw [hN] at hi hj
    rw [hm] at hoi hoj ⊢
    simp only at hoi hoj ⊢
    by_cases h1 : i = free
    · have h2 : ¬ j = free := fun h => hij (h1.trans h.symm)
      simp only [h1, if_true] at hoi ⊢
      simp only [h2, if_false] at hoj ⊢
      exact Or.inl ((hv hoi).2.2.2 j hj hoj)
    · simp only [h1, if_false] at hoi ⊢
      by_cases h2 : j = free
      · simp only [h2, if_true] at hoj ⊢
        exact Or.inr ((hv hoj).2.2.2 i hi hoi)
      · simp only [h2, if_false] at hoj ⊢
        exact hinv.disjoint i j hi hj hij hoi hoj

/-- Replacing an occupied slot by a part of its range keeps the invariant. -/
theorem RegionInv.shrink {cfg : Config} {p p1 : Proc} {t : Nat} {v : Vma}
    (hinv : RegionInv cfg p) (hN : p1.NVMA = p.NVMA) (ht : t < p.NVMA)
    (hocc : (p.mvma t).addr ≠ 0)
    (hm : p1.mvma = fun j => if j = t then v else p.mvma j)
    (hv : v.addr ≠ 0 → v.addr % PGSIZE = 0 ∧ v.length % PGSIZE = 0 ∧
      (p.mvma t).addr ≤ v.addr ∧ v.addr + v.length ≤ (p.mvma t).addr + (p.mvma t).length) :
    RegionInv cfg p1 := by
  have hs := hinv.shape t ht hocc
  constructor
  · intro i hi hoi
    rw [hN] at hi
    rw [hm] at hoi ⊢
    simp only at hoi ⊢
    by_cases h : i = t
    · simp only [h, if_true] at hoi ⊢
      obtain ⟨h1, h2, h3, h4⟩ := hv hoi
      exact ⟨h1, h2, by omega⟩
    · simp only [h, if_false] at hoi ⊢
      exact hinv.shape i hi hoi
  · intro i j hi hj hij hoi hoj
    rw [hN] at hi hj
    rw [hm] at hoi hoj ⊢
    simp only at hoi hoj ⊢
    by_cases h1 : i = t
    · have h2 : ¬ j = t := fun h => hij (h1.trans h.symm)
      simp only [h1, if_true] at hoi ⊢
      simp only [h2, if_false] at hoj ⊢
      obtain ⟨-, -, g3, g4⟩ := hv hoi
      rcases hinv.disjoint t j ht hj (fun h => h2 h.symm) hocc hoj with h | h
      · left; omega
      · right; omega
    · simp only [h1, if_false] at hoi ⊢
      by_cases h2 : j = t
      · simp only [h2, if_true] at hoj ⊢
        obtain ⟨-, -, g3, g4⟩ := hv hoj
        rcases hinv.disjoint i t hi ht h1 hoi hocc with h | h
        · left; omega
        · right; omega
      · simp only [h2, if_false] at hoj ⊢
        exact hinv.disjoint i j hi hj hij hoi hoj

theorem RegionInv.of_eq {cfg : Config} {p p1 : Proc} (hN : p1.NVMA = p.NVMA)
    (hm : p1.mvma = p.mvma) (h : RegionInv cfg p) : RegionInv cfg p1 := by
  constructor
  · intro i hi hocc
    rw [hN] at hi
    rw [hm] at hocc ⊢
    exact h.shape i hi hocc
  · intro i j hi hj hij hoi hoj
    rw [hN] at hi hj
    rw [hm] at hoi hoj ⊢
    exact h.disjoint i j hi hj hij hoi hoj

/-- An `mmap` whose rounded length fits below the lowest occupied base keeps
the region invariant, whether it succeeds or fails. -/
theorem mmap_regionInv {cfg : Config} {k : Kernel} (addr length prot flags fd offset : Nat)
    (hT : cfg.TRAPFRAME % PGSIZE = 0) (hT2 : cfg.TRAPFRAME < 2 ^ 64)
    (hinv : RegionInv cfg k.proc)
    (hfit : rounded_len addr length ≤ (vma_alloc_scan cfg k.proc).1) :
    RegionInv cfg (mmap cfg k addr length prot flags fd offset).1.proc := by
  have hP : PGSIZE = 4096 := rfl
  obtain ⟨hN, -, -, -, hcases⟩ := mmap_effect cfg k addr length prot flags fd offset
  have hs := vma_alloc_scan_spec cfg k.proc
  rcases hcases with ⟨-, hsame | ⟨free, -, hm⟩⟩ | ⟨free, -, -, hm⟩
  · exact RegionInv.of_eq hN hsame hinv
  · refine RegionInv.place hinv hN hm ?_
    intro h
    exact absurd rfl h
  · refine RegionInv.place hinv hN hm ?_
    intro _
    have hR := rounded_len_aligned addr length
    have htop : (vma_alloc_scan cfg k.proc).1 % PGSIZE = 0 := by
      rcases hs.attained with h | ⟨i, hi, hocc, h⟩
      · rw [h]; exact hT
      · rw [h]; exact (hinv.shape i hi hocc).1
    have hle := hs.le_top
    have haddr : ((vma_alloc_scan cfg k.proc).1 + 2 ^ 64 - rounded_len addr length) % 2 ^ 64
        = (vma_alloc_scan cfg k.proc).1 - rounded_len addr length := by
      have : (vma_alloc_scan cfg k.proc).1 + 2 ^ 64 - rounded_len addr length
          = ((vma_alloc_scan cfg k.proc).1 - rounded_len addr length) + 2 ^ 64 := by omega
      rw [this, Nat.add_mod_right]
      exact Nat.mod_eq_of_lt (by omega)
    simp only [mmap_fill, haddr]
    refine ⟨?_, hR, by omega, ?_⟩
    · rw [hP] at hR htop ⊢
      omega
    · intro j hj hocc
      have := hs.lower j hj hocc
      omega

theorem page_steps_length (min max : Nat) :
    (page_steps min max).length = (max - min + PGSIZE - 1) / PGSIZE := by
  simp [page_steps, pagesFrom]

/-- A `munmap` whose range ends inside the region holding its start address
keeps the region invariant, whether it succeeds or fails. -/
theorem munmap_regionInv {cfg : Config} {ext : Ext} {cpu : Nat} {k k1 : Kernel} {r : Int}
    (addr length : Nat) (hT : cfg.TRAPFRAME % PGSIZE = 0) (hT2 : cfg.TRAPFRAME < 2 ^ 64)
    (hinv : RegionInv cfg k.proc)
    (hrun : munmap cfg ext cpu k addr length = .ok k1 r)
    (hfit : ∀ t, vma_hit k.proc addr = some t →
      addr + length ≤ (k.proc.mvma t).addr + (k.proc.mvma t).length) :
    RegionInv cfg k1.proc := by
  have hP : PGSIZE = 4096 := rfl
  unfold munmap at hrun
  cases hhit : vma_hit k.proc addr with
  | none =>
    rw [hhit] at hrun
    simp only [Res.ok.injEq] at hrun
    rw [← hrun.1]
    exact hinv
  | some t =>
    rw [hhit] at hrun
    simp only at hrun
    obtain ⟨ht, hocc, hlo, -⟩ := vma_hit_some hhit
    have hfit' := hfit t hhit
    obtain ⟨ha, hl, hb⟩ := hinv.shape t ht hocc
    split at hrun
    · simp only [Res.ok.injEq] at hrun
      rw [← hrun.1]
      exact hinv
    · cases hloop : munmap_loop cfg ext cpu t
          (page_steps (k.proc.mvma t).addr (PGROUNDUP ((addr + length) % 2 ^ 64))) k with
      | ok k0 r0 =>
        rw [hloop] at hrun
        simp only at hrun
        obtain ⟨hN, -, -, -, m, hm, -, hmv⟩ := munmap_loop_table cfg ext cpu t _ _ _ _ hloop
        rw [page_steps_length] at hm
        -- the pages walked lie inside the region
        have hmax : PGROUNDUP ((addr + length) % 2 ^ 64) ≤
            (k.proc.mvma t).addr + (k.proc.mvma t).length := by
          unfold PGROUNDUP
          rw [hP] at ha hl hT ⊢
          rw [Nat.mod_eq_of_lt (a := addr + length) (by omega), Nat.mod_eq_of_lt (by omega)]
          omega
        have hmax2 := PGROUNDUP_aligned ((addr + length) % 2 ^ 64)
        generalize PGROUNDUP ((addr + length) % 2 ^ 64) = mx at hm hmax hmax2
        have hmP : m * PGSIZE ≤ (k.proc.mvma t).length := by
          rw [hP] at ha hl hm hmax2 ⊢
          omega
        obtain ⟨ga, gl⟩ := vma_advance_iterate m (k.proc.mvma t)
          (by rw [hP] at hT hmP ⊢; omega) hmP (by omega)
        have hshrunk : RegionInv cfg k0.proc := by
          refine RegionInv.shrink hinv hN ht hocc hmv ?_
          intro _
          rw [ga, gl]
          rw [hP] at ha hl hmP ⊢
          refine ⟨by omega, by omega, by omega, by omega⟩
        split at hrun
        · simp only [Res.ok.injEq] at hrun
          rw [← hrun.1]
          exact hshrunk
        · split at hrun
          · cases hof : (k0.proc.mvma t).ofile with
            | none => rw [hof] at hrun; cases hrun
            | some f =>
              rw [hof] at hrun
              simp only [Res.ok.injEq] at hrun
              rw [← hrun.1]
              have hz : (setVma (fileclose k0 f) t Vma.zero).proc.mvma =
                  fun j => if j = t then Vma.zero else k.proc.mvma j := by
                funext j
                by_cases hj : j = t
                · simp [setVma, hj]
                · simp [setVma, fileclose, hj, hmv]
              refine RegionInv.shrink hinv hN ht hocc hz ?_
              intro h
              exact absurd rfl h
          · simp only [Res.ok.injEq] at hrun
            rw [← hrun.1]
            exact hshrunk
      | panic => rw [hloop] at hrun; cases hrun
      | outOfFuel => rw [hloop] at hrun; cases hrun

/-- Every run in which every request fits keeps the region invariant. -/
theorem fitReachable_regionInv {cfg : Config} {ext : Ext} {cpu : Nat} {k : Kernel}
    (hT : cfg.TRAPFRAME % PGSIZE = 0) (hT2 : cfg.TRAPFRAME < 2 ^ 64)
    (h : FitReachable cfg ext cpu k) : RegionInv cfg k.proc := by
  induction h with
  | init k hempty =>
    constructor
    · intro i _ hocc; exact absurd (hempty i) hocc
    · intro i j _ _ _ hocc; exact absurd (hempty i) hocc
  | mmap addr length prot flags fd offset _ hfit ih =>
    exact mmap_regionInv addr length prot flags fd offset hT hT2 ih hfit
  | munmap addr length _ hrun hfit ih =>
    exact munmap_regionInv addr length hT hT2 ih hrun hfit

theorem Res.eq_ok_state {α : Type} {r : Res α} {a : α} (d : Kernel) (h : r.val? = some a) :
    r = .ok (r.state d) a := by
  cases r with
  | ok k b => simp only [Res.val?, Option.some.injEq] at h; rw [h]; rfl
  | panic => cases h
  | outOfFuel => cases h

/-- C6 (region invariant), for runs in which every request fits: starting
from an empty region table, after every sequence of `mmap` calls whose rounded
length does not exceed the lowest occupied base (`TRAPFRAME` when nothing is
mapped) and `munmap` calls whose range ends inside the region holding its
start address, successful or failing, the occupied regions are pairwise
disjoint, each has a base and a length that are multiples of 4096, and each
ends at or below `TRAPFRAME`. -/
theorem regions_disjoint_aligned_below_top (cfg : Config) (ext : Ext) (cpu : Nat) (k : Kernel)
    (hT : cfg.TRAPFRAME % PGSIZE = 0) (hT2 : cfg.TRAPFRAME < 2 ^ 64)
    (h : FitReachable cfg ext cpu k) :
    (∀ i, i < k.proc.NVMA → (k.proc.mvma i).addr ≠ 0 →
      (k.proc.mvma i).addr % 4096 = 0 ∧ (k.proc.mvma i).length % 4096 = 0 ∧
        (k.proc.mvma i).addr + (k.proc.mvma i).length ≤ cfg.TRAPFRAME) ∧
    (∀ i j, i < k.proc.NVMA → j < k.proc.NVMA → i ≠ j →
      (k.proc.mvma i).addr ≠ 0 → (k.proc.mvma j).addr ≠ 0 →
      (k.proc.mvma i).addr + (k.proc.mvma i).length ≤ (k.proc.mvma j).addr ∨
        (k.proc.mvma j).addr + (k.proc.mvma j).length ≤ (k.proc.mvma i).addr) := by
  have hinv := fitReachable_regionInv hT hT2 h
  exact ⟨hinv.shape, hinv.disjoint⟩

theorem threePages_fitReachable : FitReachable xv6 okExt 0 threePages := by
  have h0 : FitReachable xv6 okExt 0 (freshKernel rdonlyFile) :=
    FitReachable.init _ (fun _ => rfl)
  have h1 : FitReachable xv6 okExt 0 onePage :=
    FitReachable.mmap 0 4096 1 2 3 0 h0 (by decide)
  have h2 := FitReachable.mmap 0 8192 1 2 3 0 h1 (by decide)
  refine FitReachable.munmap 0x3fffffb000 4096 h2
    (Res.eq_ok_state (a := 0) onePage (by decide)) ?_
  intro t ht
  have h3 : vma_hit (mmap xv6 onePage 0 8192 1 2 3 0).1.proc 0x3fffffb000 = some 1 := by decide
  rw [h3] at ht
  simp only [Option.some.injEq] at ht
  subst ht
  decide

/-- Witness of C6: the run that maps one page, maps two pages below it and
unmaps the lower of the two. -/
theorem regions_disjoint_aligned_below_top_witness :
    FitReachable xv6 okExt 0 threePages ∧
    (threePages.proc.mvma 1).addr = 0x3fffffc000 ∧
    ((threePages.proc.mvma 0).addr + (threePages.proc.mvma 0).length
        ≤ (threePages.proc.mvma 1).addr ∨
      (threePages.proc.mvma 1).addr + (threePages.proc.mvma 1).length
        ≤ (threePages.proc.mvma 0).addr) :=
  ⟨threePages_fitReachable, by decide,
    (regions_disjoint_aligned_below_top xv6 okExt 0 threePages (by decide) (by decide)
      threePages_fitReachable).2 0 1 (by decide) (by decide) (by decide) (by decide)
      (by decide)⟩

/-- Counterexample to C6 as stated: from an empty region table the single call
`mmap(0, 2^64 - 4096, PROT_READ, MAP_PRIVATE, 3, 0)` succeeds and leaves an
occupied region with base `TRAPFRAME + 4096`, which does not end at or below
`TRAPFRAME`. -/
theorem region_above_top_reachable :
    Reachable xv6 okExt 0 hugeMap ∧ 0 < hugeMap.proc.NVMA ∧
    (hugeMap.proc.mvma 0).addr = 0x3ffffff000 ∧ (hugeMap.proc.mvma 0).addr ≠ 0 ∧
    ¬ ((hugeMap.proc.mvma 0).addr + (hugeMap.proc.mvma 0).length ≤ xv6.TRAPFRAME) :=
  ⟨Reachable.mmap 0 (2 ^ 64 - 4096) 1 2 3 0 (Reachable.init _ (fun _ => rfl)),
    by decide, by decide, by decide, by decide⟩

end Mmap

namespace Kalloc

end Kalloc

namespace Mmap

theorem vma_write_chunk_bounds {cfg : Config} {n i : Int} (hmax : 0 < vma_write_max cfg)
    (hi : i < n) : 0 < vma_write_chunk cfg n i ∧ vma_write_chunk cfg n i ≤ n - i := by
  unfold vma_write_chunk
  split
  · next h => exact ⟨hmax, Int.le_of_lt h⟩
  · exact ⟨by omega, Int.le_refl _⟩

/-- When the loop of `vma_write` ends with `i = n`, the writes it issued cover
the rest of the buffer. -/
theorem vma_write_loop_covers (cfg : Config) (ext : Ext) (ip addr : Nat)
    (hmax : 0 < vma_write_max cfg) (haddr : addr + PGSIZE ≤ 2 ^ 64) :
    ∀ (fuel : Nat) (k : Kernel) (off i : Nat) (k1 : Kernel), i ≤ PGSIZE → off < 2 ^ 64 →
      vma_write_loop cfg ext ip addr (PGSIZE : Nat) fuel k off (i : Nat) = .ok k1 (PGSIZE : Nat) →
      ∃ w, k1.trace = k.trace ++ w ∧ Covers ip w (addr + i) off (PGSIZE - i) := by
  have hP : PGSIZE = 4096 := rfl
  intro fuel
  induction fuel with
  | zero => intro k off i k1 _ _ h; simp [vma_write_loop] at h
  | succ fuel ih =>
    intro k off i k1 hi hoff h
    rw [vma_write_loop] at h
    by_cases hlt : (i : Int) < (PGSIZE : Nat)
    · rw [if_pos hlt] at h
      obtain ⟨hc0, hc1⟩ := @vma_write_chunk_bounds cfg _ _ hmax hlt
      generalize vma_write_chunk cfg (PGSIZE : Nat) (i : Nat) = c at h hc0 hc1
      have hsrc : ((addr : Int) + (i : Nat)).toNat % 2 ^ 64 = addr + i := by
        have : ((addr : Int) + (i : Nat)).toNat = addr + i := by omega
        rw [this]
        exact Nat.mod_eq_of_lt (by omega)
      rw [hsrc] at h
      by_cases hr : ext.writei k ip (addr + i) off c ≠ c
      · simp only [if_pos hr, Res.ok.injEq] at h
        omega
      · simp only [if_neg hr] at h
        rw [not_not] at hr
        rw [hr] at h
        rw [if_pos hc0] at h
        have hcn : c = ((c.toNat : Nat) : Int) := by omega
        have hi2 : (i : Int) + c = ((i + c.toNat : Nat) : Int) := by omega
        have hoff2 : ((off : Int) + c).toNat % 2 ^ 64 = (off + c.toNat) % 2 ^ 64 := by
          have : ((off : Int) + c).toNat = off + c.toNat := by omega
          rw [this]
        rw [hi2, hoff2] at h
        obtain ⟨w, hw, hcov⟩ := ih _ _ (i + c.toNat) k1 (by omega)
          (Nat.mod_lt _ (Nat.two_pow_pos 64)) h
        refine ⟨Event.writei ip (addr + i) off c c :: w, ?_, ?_⟩
        · rw [hw]; simp
        · simp only [Covers]
          refine ⟨trivial, trivial, trivial, hc0, trivial, by omega, ?_⟩
          have e1 : addr + i + c.toNat = addr + (i + c.toNat) := by omega
          have e2 : PGSIZE - i - c.toNat = PGSIZE - (i + c.toNat) := by omega
          rw [e1, e2]
          exact hcov
    · rw [if_neg hlt] at h
      simp only [Res.ok.injEq] at h
      refine ⟨[], by rw [← h.1]; simp, ?_⟩
      simp only [Covers]
      omega

/-- A `vma_write` of a page that does not fail issued writes that cover the
page. -/
theorem vma_write_covers {cfg : Config} {ext : Ext} {k k1 : Kernel} {ip addr off : Nat}
    {r : Int} (hmax : 0 < vma_write_max cfg) (haddr : addr + PGSIZE ≤ 2 ^ 64)
    (hoff : off < 2 ^ 64)
    (h : vma_write cfg ext k ip addr off (PGSIZE : Nat) = .ok k1 r) (hr : r ≠ -1) :
    ∃ w, k1.trace = k.trace ++ w ∧ Covers ip w addr off PGSIZE := by
  unfold vma_write at h
  cases hl : vma_write_loop cfg ext ip addr (PGSIZE : Nat) (((PGSIZE : Nat) : Int).toNat + 1)
      k off 0 with
  | ok k2 i =>
    rw [hl] at h
    simp only [Res.ok.injEq] at h
    obtain ⟨hk, hres⟩ := h
    by_cases hi : i = ((PGSIZE : Nat) : Int)
    · rw [hi] at hl
      have := vma_write_loop_covers cfg ext ip addr hmax haddr _ k off 0 k2 (Nat.zero_le _) hoff
        (by simpa using hl)
      rw [← hk]
      simpa using this
    · rw [if_neg hi] at hres
      exact absurd hres.symm hr
  | panic => rw [hl] at h; cases h
  | outOfFuel => rw [hl] at h; cases h

end Mmap

namespace Mmap

theorem munmap_page_events {cfg : Config} {ext : Ext} {cpu t cur f : Nat} {k k1 : Kernel}
    (hmax : 0 < vma_write_max cfg) (hcur : cur + PGSIZE ≤ 2 ^ 64)
    (hof : (k.proc.mvma t).ofile = some f)
    {r : Int} (h : munmap_page cfg ext cpu t cur k = .ok k1 r) (hne : r ≠ -1) :
    ∃ block, k1.trace = k.trace ++ block ∧
      if walkaddr k.proc.pagetable cur ≠ 0 then
        (∃ w, block = w ++ [Event.uvmunmap cur] ∧
          if (k.proc.mvma t).shared = true ∧ (k.proc.mvma t).writeable = true then
            Covers (k.ftable f).ip w cur
              ((cur + 2 ^ 64 - (k.proc.mvma t).addr + (k.proc.mvma t).offset) % 2 ^ 64) PGSIZE
          else w = []) ∧
        k1.proc.pagetable = fun a => if a = PGROUNDDOWN cur then none else k.proc.pagetable a
      else block = [] ∧ k1.proc.pagetable = k.proc.pagetable := by
  unfold munmap_page at h
  simp only at h
  by_cases hw : walkaddr k.proc.pagetable cur ≠ 0
  · rw [if_pos hw] at h
    simp only [if_pos hw]
    by_cases hs : (k.proc.mvma t).shared = true ∧ (k.proc.mvma t).writeable = true
    · rw [if_pos hs, hof] at h
      simp only at h
      cases hv : vma_write cfg ext k (k.ftable f).ip cur
          ((cur + 2 ^ 64 - (k.proc.mvma t).addr + (k.proc.mvma t).offset) % 2 ^ 64)
          (PGSIZE : Nat) with
      | ok k0 r0 =>
        rw [hv] at h
        simp only at h
        by_cases hr : r0 = -1
        · rw [if_pos hr] at h
          simp only [Res.ok.injEq] at h
          exact absurd h.2.symm hne
        · rw [if_neg hr] at h
          cases hu : uvmunmap cfg cpu k0 cur with
          | ok k2 u =>
            rw [hu] at h
            simp only [Res.ok.injEq] at h
            obtain ⟨h, -⟩ := h
            subst h
            obtain ⟨w, hw1, hcov⟩ := vma_write_covers hmax hcur
              (Nat.mod_lt _ (Nat.two_pow_pos 64)) hv hr
            obtain ⟨hp, -, -⟩ := vma_write_frame hv
            obtain ⟨-, -, -, -, htr, hpt⟩ := uvmunmap_frame hu
            refine ⟨w ++ [Event.uvmunmap cur], ?_, ⟨w, rfl, ?_⟩, ?_⟩
            · rw [htr, hw1, List.append_assoc]
            · rw [if_pos hs]; exact hcov
            · rw [hpt, hp]
          | panic => rw [hu] at h; cases h
          | outOfFuel => rw [hu] at h; cases h
      | panic => rw [hv] at h; cases h
      | outOfFuel => rw [hv] at h; cases h
    · rw [if_neg hs] at h
      simp only at h
      rw [if_neg (by decide)] at h
      cases hu : uvmunmap cfg cpu k cur with
      | ok k2 u =>
        rw [hu] at h
        simp only [Res.ok.injEq] at h
        obtain ⟨h, -⟩ := h
        subst h
        obtain ⟨-, -, -, -, htr, hpt⟩ := uvmunmap_frame hu
        refine ⟨[Event.uvmunmap cur], htr, ⟨[], rfl, ?_⟩, hpt⟩
        rw [if_neg hs]
      | panic => rw [hu] at h; cases h
      | outOfFuel => rw [hu] at h; cases h
  · rw [if_neg hw] at h
    simp only [if_neg hw]
    simp only [Res.ok.injEq] at h
    obtain ⟨h, -⟩ := h
    subst h
    exact ⟨[], by simp, rfl, rfl⟩

theorem vma_advance_shared (v : Vma) : (vma_advance v).shared = v.shared := by
  simp only [vma_advance]

theorem vma_advance_writeable (v : Vma) : (vma_advance v).writeable = v.writeable := by
  simp only [vma_advance]

theorem vma_advance_ofile (v : Vma) : (vma_advance v).ofile = v.ofile := by
  simp only [vma_advance]

theorem pagesFrom_succ (c n : Nat) : pagesFrom c (n + 1) = c :: pagesFrom (c + PGSIZE) n := by
  simp only [pagesFrom, List.range_succ_eq_map, List.map_cons, List.map_map, Nat.zero_mul,
    Nat.add_zero]
  congr 1
  apply List.map_congr_left
  intro j _
  simp only [Function.comp]
  rw [Nat.succ_mul]
  omega

theorem PGROUNDDOWN_later (c j : Nat) (hj : 0 < j) :
    PGROUNDDOWN (c + j * PGSIZE) ≠ PGROUNDDOWN c := by
  unfold PGROUNDDOWN
  rw [Nat.add_mul_div_right _ _ (by decide : 0 < PGSIZE)]
  have hP : PGSIZE = 4096 := rfl
  rw [hP, Nat.add_mul]
  have : 0 < j * 4096 := by omega
  omega

/-- The calls the page loop of `munmap` issues when it runs to its end, page
by page. -/
theorem munmap_loop_events (cfg : Config) (ext : Ext) (cpu t f : Nat)
    (hmax : 0 < vma_write_max cfg) (pt0 : Nat → Option (Nat × Nat)) (r0 : Vma) (ip : Nat) :
    ∀ (n c : Nat) (k k1 : Kernel) (r : Int),
      munmap_loop cfg ext cpu t (pagesFrom c n) k = .ok k1 r → r ≠ -1 →
      c + n * PGSIZE ≤ 2 ^ 64 → r0.addr ≤ c →
      (k.ftable f).ip = ip →
      (0 < n → (k.proc.mvma t).addr = c) →
      (k.proc.mvma t).offset % 2 ^ 64 = (r0.offset + (c - r0.addr)) % 2 ^ 64 →
      (k.proc.mvma t).shared = r0.shared → (k.proc.mvma t).writeable = r0.writeable →
      (k.proc.mvma t).ofile = some f →
      (∀ j, j < n → walkaddr k.proc.pagetable (c + j * PGSIZE) = walkaddr pt0 (c + j * PGSIZE)) →
      ∃ blocks, k1.trace = k.trace ++ blocks.flatten ∧
        List.Forall₂ (PageEvents pt0 r0 ip) (pagesFrom c n) blocks := by
  have hP : PGSIZE = 4096 := rfl
  intro n
  induction n with
  | zero =>
    intro c k k1 r h _ _ _ _ _ _ _ _ _ _
    simp only [pagesFrom, List.range_zero, List.map_nil, munmap_loop, Res.ok.injEq] at h
    refine ⟨[], by rw [← h.1]; simp, ?_⟩
    simp only [pagesFrom, List.range_zero, List.map_nil]
    exact List.Forall₂.nil
  | succ n ih =>
    intro c k k1 r h hne hfit hle hip haddr hoff hsh hwr hof hpt
    rw [pagesFrom_succ] at h ⊢
    rw [munmap_loop] at h
    cases hp : munmap_page cfg ext cpu t c k with
    | ok k0 rp =>
      rw [hp] at h
      simp only at h
      by_cases hrp : rp = -1
      · rw [if_pos hrp] at h
        simp only [Res.ok.injEq] at h
        exact absurd h.2.symm hne
      · rw [if_neg hrp] at h
        obtain ⟨-, f2, -, f4⟩ := munmap_page_frame hp
        obtain ⟨block, htr, hev⟩ := munmap_page_events hmax (by rw [hP] at hfit ⊢; omega) hof hp hrp
        have hc := haddr (Nat.succ_pos n)
        have hv : (setVma k0 t (vma_advance (k0.proc.mvma t))).proc.mvma t
            = vma_advance (k.proc.mvma t) := by
          simp [setVma, f2]
        have hpt0 := hpt 0 (Nat.succ_pos n)
        simp only [Nat.zero_mul, Nat.add_zero] at hpt0
        -- the page table after this round agrees with the one at entry on the later pages
        have hpt1 : ∀ j, j < n →
            walkaddr (setVma k0 t (vma_advance (k0.proc.mvma t))).proc.pagetable
              (c + PGSIZE + j * PGSIZE) = walkaddr pt0 (c + PGSIZE + j * PGSIZE) := by
          intro j hj
          have e : c + PGSIZE + j * PGSIZE = c + (j + 1) * PGSIZE := by
            rw [Nat.succ_mul]; omega
          rw [e, ← hpt (j + 1) (by omega)]
          have hk0 : (setVma k0 t (vma_advance (k0.proc.mvma t))).proc.pagetable
              = k0.proc.pagetable := rfl
          rw [hk0]
          by_cases hw : walkaddr k.proc.pagetable c ≠ 0
          · rw [if_pos hw] at hev
            rw [hev.2]
            unfold walkaddr
            simp only [PGROUNDDOWN_later c (j + 1) (Nat.succ_pos j), if_false]
          · rw [if_neg hw] at hev
            rw [hev.2]
        obtain ⟨blocks, htr2, hall⟩ := ih (c + PGSIZE) _ k1 r h hne
          (by rw [Nat.succ_mul] at hfit; omega) (by omega)
          (by show (k0.ftable f).ip = ip; rw [f4]; exact hip)
          (by
            intro hn
            rw [hv]
            simp only [vma_advance, hc]
            rw [hP] at hfit ⊢
            exact Nat.mod_eq_of_lt (by rw [Nat.succ_mul] at hfit; omega))
          (by
            rw [hv]
            simp only [vma_advance]
            rw [hP]
            omega)
          (by rw [hv, vma_advance_shared]; exact hsh)
          (by rw [hv, vma_advance_writeable]; exact hwr)
          (by rw [hv, vma_advance_ofile]; exact hof) hpt1
        refine ⟨block :: blocks, ?_, List.Forall₂.cons ?_ hall⟩
        · rw [htr2]
          show k0.trace ++ blocks.flatten = _
          rw [htr]
          simp
        · unfold PageEvents
          rw [← hpt0]
          by_cases hw : walkaddr k.proc.pagetable c ≠ 0
          · rw [if_pos hw] at hev ⊢
            obtain ⟨⟨w, hb, hcov⟩, -⟩ := hev
            refine ⟨w, hb, ?_⟩
            rw [hsh, hwr] at hcov
            by_cases hs : r0.shared = true ∧ r0.writeable = true
            · rw [if_pos hs] at hcov ⊢
              rw [← hip]
              have eoff : (c + 2 ^ 64 - (k.proc.mvma t).addr + (k.proc.mvma t).offset) % 2 ^ 64
                  = (r0.offset + (c - r0.addr)) % 2 ^ 64 := by
                rw [hc]
                omega
              rw [eoff] at hcov
              exact hcov
            · rw [if_neg hs] at hcov ⊢
              exact hcov
          · rw [if_neg hw] at hev ⊢
            exact hev.1
    | panic => rw [hp] at h; cases h
    | outOfFuel => rw [hp] at h; cases h

theorem pageEvents_private {pt : Nat → Option (Nat × Nat)} {r : Vma} {ip : Nat}
    (hs : ¬ (r.shared = true ∧ r.writeable = true)) {ps : List Nat} {blocks : List (List Event)}
    (h : List.Forall₂ (PageEvents pt r ip) ps blocks) :
    ∀ e, e ∈ blocks.flatten → ∃ va, e = Event.uvmunmap va := by
  induction h with
  | nil => intro e he; simp at he
  | @cons page block ps blocks hb _ ih =>
    intro e he
    rw [List.flatten_cons, List.mem_append] at he
    rcases he with he | he
    · unfold PageEvents at hb
      by_cases hw : walkaddr pt page ≠ 0
      · rw [if_pos hw] at hb
        obtain ⟨w, hbw, hw2⟩ := hb
        rw [if_neg hs] at hw2
        rw [hbw, hw2] at he
        simp only [List.nil_append, List.mem_singleton] at he
        exact ⟨page, he⟩
      · rw [if_neg hw] at hb
        rw [hb] at he
        cases he
    · exact ih e he

/-- C8 (unmap write-back): when `munmap` on region `r` runs to its end, the
calls it issued are, page by page of the unmapped range and in order: nothing
for a page that is not resident; for a resident page the removal of its
mapping, preceded, when `r` is shared and writeable, by writes that cover
exactly the 4096 bytes of the page at file offset (offset of `r` at entry) +
(page address - base of `r` at entry), consecutive and without a gap although
`vma_write` splits them into chunks, and preceded by no write when `r` is
private or not writeable, so that then no file write is issued at all. -/
theorem munmap_writeback_events (cfg : Config) (ext : Ext) (cpu : Nat) (k k1 : Kernel)
    (addr length t f : Nat) (hmax : 0 < vma_write_max cfg)
    (hhit : vma_hit k.proc addr = some t) (hof : (k.proc.mvma t).ofile = some f)
    (hrun : munmap cfg ext cpu k addr length = .ok k1 0) :
    ∃ blocks, k1.trace = k.trace ++ blocks.flatten ∧
      List.Forall₂ (PageEvents k.proc.pagetable (k.proc.mvma t) (k.ftable f).ip)
        (page_steps (k.proc.mvma t).addr (PGROUNDUP ((addr + length) % 2 ^ 64))) blocks ∧
      (¬ ((k.proc.mvma t).shared = true ∧ (k.proc.mvma t).writeable = true) →
        ∀ e, e ∈ blocks.flatten → ∃ va, e = Event.uvmunmap va) := by
  have hP : PGSIZE = 4096 := rfl
  unfold munmap at hrun
  rw [hhit] at hrun
  simp only at hrun
  obtain ⟨-, -, hlo, hhi⟩ := vma_hit_some hhit
  have hbase : (k.proc.mvma t).addr < 2 ^ 64 :=
    Nat.lt_of_le_of_lt hlo (Nat.lt_trans hhi (Nat.mod_lt _ (Nat.two_pow_pos 64)))
  split at hrun
  · simp only [Res.ok.injEq] at hrun
    omega
  · cases hloop : munmap_loop cfg ext cpu t
        (page_steps (k.proc.mvma t).addr (PGROUNDUP ((addr + length) % 2 ^ 64))) k with
    | ok k0 r0 =>
      rw [hloop] at hrun
      simp only at hrun
      by_cases hr0 : r0 = -1
      · rw [if_pos hr0] at hrun
        simp only [Res.ok.injEq] at hrun
        omega
      · rw [if_neg hr0] at hrun
        have htrace : k1.trace = k0.trace := by
          split at hrun
          · cases hof0 : (k0.proc.mvma t).ofile with
            | none => rw [hof0] at hrun; cases hrun
            | some g =>
              rw [hof0] at hrun
              simp only [Res.ok.injEq] at hrun
              rw [← hrun.1]
              rfl
          · simp only [Res.ok.injEq] at hrun
            rw [hrun.1]
        have hmx1 := PGROUNDUP_aligned ((addr + length) % 2 ^ 64)
        have hmx2 := PGROUNDUP_lt ((addr + length) % 2 ^ 64)
        unfold page_steps at hloop ⊢
        generalize PGROUNDUP ((addr + length) % 2 ^ 64) = mx at hloop hmx1 hmx2
        obtain ⟨blocks, htr, hall⟩ := munmap_loop_events cfg ext cpu t f hmax k.proc.pagetable
          (k.proc.mvma t) (k.ftable f).ip _ _ k k0 r0 hloop hr0
          (by rw [hP] at hmx1 ⊢; omega) (Nat.le_refl _) rfl (fun _ => rfl)
          (by simp) rfl rfl hof (fun _ _ => rfl)
        exact ⟨blocks, by rw [htrace, htr], hall, fun hs => pageEvents_private hs hall⟩
    | panic => rw [hloop] at hrun; cases hrun
    | outOfFuel => rw [hloop] at hrun; cases hrun

/-- Witness of C8: the shared writeable two-page region at `0x3fffffc000`
with file offset 4096, whose second page is resident, is unmapped whole: the
page goes to the file at offset 8192 in a chunk of 3072 and a chunk of 1024
bytes, and only then is its mapping removed. -/
theorem munmap_writeback_events_witness :
    (munmap xv6 okExt 0 sharedMapped 0x3fffffc000 8192).val? = some 0 ∧
    ((munmap xv6 okExt 0 sharedMapped 0x3fffffc000 8192).state sharedMapped).trace =
      [Event.writei 7 0x3fffffd000 8192 3072 3072,
       Event.writei 7 0x3fffffdc00 11264 1024 1024,
       Event.uvmunmap 0x3fffffd000] ∧
    ∃ blocks,
      ((munmap xv6 okExt 0 sharedMapped 0x3fffffc000 8192).state sharedMapped).trace =
        sharedMapped.trace ++ blocks.flatten ∧
      List.Forall₂
        (PageEvents sharedMapped.proc.pagetable (sharedMapped.proc.mvma 0)
          (sharedMapped.ftable 0).ip)
        (page_steps (sharedMapped.proc.mvma 0).addr
          (PGROUNDUP ((0x3fffffc000 + 8192) % 2 ^ 64))) blocks ∧
      (¬ ((sharedMapped.proc.mvma 0).shared = true ∧
          (sharedMapped.proc.mvma 0).writeable = true) →
        ∀ e, e ∈ blocks.flatten → ∃ va, e = Event.uvmunmap va) :=
  ⟨by decide, by decide,
    munmap_writeback_events xv6 okExt 0 sharedMapped _ 0x3fffffc000 8192 0 0 (by decide)
      (by decide) (by decide) (Res.eq_ok_state sharedMapped (by decide))⟩

end Mmap

namespace Mmap

theorem vma_advance_iterate_offset (m : Nat) :
    ∀ v : Vma, v.offset < 2 ^ 64 →
      (vma_advance^[m] v).offset = (v.offset + m * PGSIZE) % 2 ^ 64 := by
  induction m with
  | zero =>
    intro v h
    rw [Function.iterate_zero_apply, Nat.zero_mul, Nat.add_zero, Nat.mod_eq_of_lt h]
  | succ m ih =>
    intro v h
    rw [Function.iterate_succ_apply]
    rw [ih (vma_advance v) (by simp only [vma_advance]; exact Nat.mod_lt _ (Nat.two_pow_pos 64))]
    simp only [vma_advance]
    rw [Nat.mod_add_mod]
    congr 1
    rw [Nat.succ_mul]
    omega

theorem vma_advance_iterate_flags (m : Nat) :
    ∀ v : Vma, (vma_advance^[m] v).ofile = v.ofile ∧ (vma_advance^[m] v).shared = v.shared ∧
      (vma_advance^[m] v).writeable = v.writeable ∧ (vma_advance^[m] v).readable = v.readable := by
  induction m with
  | zero => intro v; simp
  | succ m ih =>
    intro v
    rw [Function.iterate_succ_apply]
    obtain ⟨h1, h2, h3, h4⟩ := ih (vma_advance v)
    rw [h1, h2, h3, h4]
    simp only [vma_advance, and_self]

/-- C12 fails as stated: on the one-page region at `0x3fffffd000` the call
`munmap(0x3fffffd000, 2^64 - 0x3fffffd000)`, whose `addr + length` wraps to 0
in `uint64`, passes the range check, walks no page and returns 0, and the
region still has its base, its file offset and its length of 4096. -/
theorem munmap_wrapped_range_no_advance :
    vma_hit onePage.proc 0x3fffffd000 = some 0 ∧
    (munmap xv6 okExt 0 onePage 0x3fffffd000 (2 ^ 64 - 0x3fffffd000)).val? = some 0 ∧
    (((munmap xv6 okExt 0 onePage 0x3fffffd000 (2 ^ 64 - 0x3fffffd000)).state
      (freshKernel rdonlyFile)).proc.mvma 0).addr = 0x3fffffd000 ∧
    (((munmap xv6 okExt 0 onePage 0x3fffffd000 (2 ^ 64 - 0x3fffffd000)).state
      (freshKernel rdonlyFile)).proc.mvma 0).offset = 0 ∧
    (((munmap xv6 okExt 0 onePage 0x3fffffd000 (2 ^ 64 - 0x3fffffd000)).state
      (freshKernel rdonlyFile)).proc.mvma 0).length = 4096 := by
  decide

/-- C12, for ranges inside the region: when `munmap(addr, length)` returns 0
and `[addr, addr + length)` lies inside the region `r` of slot `t` that holds
`addr` (page-aligned base, end at least a page below `2^64`, as for every
region below `TRAPFRAME`), then `addr` is the base of `r` and `length` a
multiple of 4096, and every other slot and the descriptor table are unchanged.
If `length` is all of `r`, the slot is cleared and the open file has lost
exactly one reference, no other file any.  Otherwise the slot stays occupied:
its base is `r.addr + length`, its file offset `r.offset + length` in `uint64`,
its length `r.length - length`, with the file and the flags of `r`, and no
file reference changes. -/
theorem munmap_prefix_effect (cfg : Config) (ext : Ext) (cpu : Nat) (k k1 : Kernel)
    (addr length t f : Nat)
    (hhit : vma_hit k.proc addr = some t)
    (hal : (k.proc.mvma t).addr % PGSIZE = 0)
    (hend : (k.proc.mvma t).addr + (k.proc.mvma t).length + PGSIZE ≤ 2 ^ 64)
    (hoff : (k.proc.mvma t).offset < 2 ^ 64)
    (hof : (k.proc.mvma t).ofile = some f)
    (hin : addr + length ≤ (k.proc.mvma t).addr + (k.proc.mvma t).length)
    (hrun : munmap cfg ext cpu k addr length = .ok k1 0) :
    addr = (k.proc.mvma t).addr ∧ length % PGSIZE = 0 ∧
    (∀ j, j ≠ t → k1.proc.mvma j = k.proc.mvma j) ∧ k1.proc.ofile = k.proc.ofile ∧
    (length = (k.proc.mvma t).length →
      k1.proc.mvma t = Vma.zero ∧ (k1.ftable f).ref = (k.ftable f).ref - 1 ∧
        ∀ g, g ≠ f → k1.ftable g = k.ftable g) ∧
    (length ≠ (k.proc.mvma t).length →
      (k1.proc.mvma t).addr = (k.proc.mvma t).addr + length ∧ (k1.proc.mvma t).addr ≠ 0 ∧
      (k1.proc.mvma t).offset = ((k.proc.mvma t).offset + length) % 2 ^ 64 ∧
      (k1.proc.mvma t).length = (k.proc.mvma t).length - length ∧
      length < (k.proc.mvma t).length ∧
      (k1.proc.mvma t).ofile = some f ∧ (k1.proc.mvma t).shared = (k.proc.mvma t).shared ∧
      (k1.proc.mvma t).writeable = (k.proc.mvma t).writeable ∧
      (k1.proc.mvma t).readable = (k.proc.mvma t).readable ∧ k1.ftable = k.ftable) := by
  have hP : PGSIZE = 4096 := rfl
  obtain ⟨-, hocc, hlo, hhi⟩ := vma_hit_some hhit
  rw [Nat.mod_eq_of_lt (by omega)] at hhi
  unfold munmap at hrun
  rw [hhit] at hrun
  simp only at hrun
  rw [Nat.mod_eq_of_lt (a := addr + length) (by omega),
    Nat.mod_eq_of_lt (a := (k.proc.mvma t).addr + length) (by omega)] at hrun
  obtain ⟨hge, hmal⟩ := @Kalloc.PGROUNDUP_ge (addr + length) (by omega)
  by_cases hchk : PGROUNDUP (addr + length) > (k.proc.mvma t).addr + length
  · rw [if_pos hchk] at hrun
    simp only [Res.ok.injEq] at hrun
    exact absurd hrun.2 (by decide)
  rw [if_neg hchk] at hrun
  have haddr : addr = (k.proc.mvma t).addr := by omega
  have hmx : PGROUNDUP (addr + length) = (k.proc.mvma t).addr + length := by omega
  rw [hmx] at hrun hmal
  have hlen : length % PGSIZE = 0 := by rw [hP] at hal hmal ⊢; omega
  cases hloop : munmap_loop cfg ext cpu t
      (page_steps (k.proc.mvma t).addr ((k.proc.mvma t).addr + length)) k with
  | panic => rw [hloop] at hrun; cases hrun
  | outOfFuel => rw [hloop] at hrun; cases hrun
  | ok k0 r0 =>
    rw [hloop] at hrun
    simp only at hrun
    obtain ⟨-, hofl, hft, -, m, -, hm, hmv⟩ := munmap_loop_table cfg ext cpu t _ _ _ _ hloop
    by_cases hr0 : r0 = -1
    · rw [if_pos hr0] at hrun
      simp only [Res.ok.injEq] at hrun
      exact absurd hrun.2 (by decide)
    rw [if_neg hr0] at hrun
    have hm1 := hm hr0
    rw [page_steps_length] at hm1
    have hmP : m * PGSIZE = length := by rw [hP] at hlen hm1 ⊢; omega
    have hle : length ≤ (k.proc.mvma t).length := by omega
    obtain ⟨ga, gl⟩ := vma_advance_iterate m (k.proc.mvma t) (by rw [hmP]; omega)
      (by rw [hmP]; exact hle) (by omega)
    have go := vma_advance_iterate_offset m (k.proc.mvma t) hoff
    obtain ⟨gf, gs, gw, gr⟩ := vma_advance_iterate_flags m (k.proc.mvma t)
    rw [hmP] at ga gl go
    have ht0 : k0.proc.mvma t = vma_advance^[m] (k.proc.mvma t) := by
      rw [hmv]; simp only [if_true]
    have hoth : ∀ j, j ≠ t → k0.proc.mvma j = k.proc.mvma j := by
      intro j hj
      rw [hmv]; simp only [if_neg hj]
    refine ⟨haddr, hlen, ?_⟩
    by_cases hz : (k0.proc.mvma t).length = 0
    · rw [if_pos hz, ht0, gf, hof] at hrun
      simp only [Res.ok.injEq] at hrun
      have hk := hrun.1
      rw [ht0, gl] at hz
      have hall : length = (k.proc.mvma t).length := by omega
      rw [← hk]
      refine ⟨?_, hofl, ?_, fun hne => absurd hall hne⟩
      · intro j hj
        simp only [setVma, fileclose, if_neg hj]
        exact hoth j hj
      · intro _
        refine ⟨by simp [setVma], ?_, ?_⟩
        · simp [setVma, fileclose, hft]
        · intro g hg
          simp [setVma, fileclose, hg, hft]
    · rw [if_neg hz] at hrun
      simp only [Res.ok.injEq] at hrun
      have hk := hrun.1
      rw [ht0, gl] at hz
      rw [← hk]
      refine ⟨hoth, hofl, fun hall => absurd (by omega) hz, ?_⟩
      intro _
      rw [ht0, ga, go, gl, gf, gs, gw, gr]
      exact ⟨rfl, by omega, rfl, rfl, by omega, hof, rfl, rfl, rfl, hft⟩

/-- Witness for C12: the first page of the two-page shared region at
`0x3fffffc000` is unmapped. -/
theorem munmap_prefix_effect_witness :
    0x3fffffc000 = (twoPagesShared.proc.mvma 0).addr ∧ 4096 % PGSIZE = 0 ∧
    (∀ j, j ≠ 0 → ((munmap xv6 okExt 0 twoPagesShared 0x3fffffc000 4096).state
        twoPagesShared).proc.mvma j = twoPagesShared.proc.mvma j) ∧
    (((munmap xv6 okExt 0 twoPagesShared 0x3fffffc000 4096).state twoPagesShared).proc.mvma
        0).addr = (twoPagesShared.proc.mvma 0).addr + 4096 :=
  have h := munmap_prefix_effect xv6 okExt 0 twoPagesShared
    ((munmap xv6 okExt 0 twoPagesShared 0x3fffffc000 4096).state twoPagesShared)
    0x3fffffc000 4096 0 0 (by decide) (by decide) (by decide) (by decide) (by decide) (by decide)
    (Res.eq_ok_state twoPagesShared (by decide))
  ⟨h.1, h.2.1, h.2.2.1, (h.2.2.2.2.2 (by decide)).1⟩

end Mmap

/-! ## The bucket chains of the block cache -/

namespace Bcache

theorem remove_recur_eq_erase (l : List Nat) (e : Nat) : remove_recur l e = l.erase e := by
  induction l with
  | nil => rfl
  | cons a t ih =>
    rw [remove_recur, List.erase_cons]
    by_cases h : a = e
    · simp [h]
    · simp [h, ih]

theorem Linked.of_same {s s1 : Cache} (h : Linked s) (hN : s1.NBUF = s.NBUF)
    (ht : s1.table = s.table) (hb : ∀ i, (s1.buf i).blockno = (s.buf i).blockno) :
    Linked s1 := by
  intro k
  rw [ht, hN]
  refine ⟨(h k).1, fun e he => ?_⟩
  rw [hb]
  exact (h k).2 e he

theorem linked_of_sameIdent {s s1 : Cache} (h : Linked s) (hs : SameIdent s s1) : Linked s1 :=
  h.of_same hs.size hs.table hs.blockno

theorem linked_not_mem {s : Cache} (h : Linked s) {e k : Nat}
    (hk : hash (s.buf e).blockno ≠ k) : e ∉ s.table k :=
  fun he => hk ((h k).2 e he).2

/-- Giving a victim a new identity and relinking it keeps the chains well
formed. -/
theorem evict_assign_linked {s : Cache} {ev dev blockno : Nat} (h : Linked s)
    (hev : ev < s.NBUF) : Linked (evict_assign s ev dev blockno) := by
  intro k
  rw [evict_assign_table, evict_assign_NBUF]
  by_cases hk : hash (s.buf ev).blockno ≠ hash blockno
  · rw [if_pos hk]
    simp only [insert, remove]
    by_cases h1 : k = hash blockno
    · have hne : ¬ hash blockno = hash (s.buf ev).blockno := fun h => hk h.symm
      rw [if_pos h1, h1, if_neg hne]
      have hnot : ev ∉ s.table (hash blockno) := linked_not_mem h hk
      refine ⟨List.nodup_cons.2 ⟨hnot, (h _).1⟩, fun e he => ?_⟩
      rw [evict_assign_buf]
      rcases List.mem_cons.1 he with h2 | h2
      · rw [h2, if_pos rfl]
        exact ⟨hev, rfl⟩
      · have hne2 : e ≠ ev := fun h3 => hnot (h3 ▸ h2)
        rw [if_neg hne2]
        exact (h _).2 e h2
    · rw [if_neg h1]
      by_cases h2 : k = hash (s.buf ev).blockno
      · rw [if_pos h2, remove_recur_eq_erase]
        refine ⟨(h k).1.erase ev, fun e he => ?_⟩
        obtain ⟨hne2, hmem⟩ := ((h k).1.mem_erase_iff).1 he
        rw [evict_assign_buf, if_neg hne2]
        exact (h k).2 e hmem
      · rw [if_neg h2]
        refine ⟨(h k).1, fun e he => ?_⟩
        have hne2 : e ≠ ev := by
          intro h3
          rw [h3] at he
          exact h2 ((h k).2 ev he).2.symm
        rw [evict_assign_buf, if_neg hne2]
        exact (h k).2 e he
  · rw [if_neg hk]
    rw [not_not] at hk
    refine ⟨(h k).1, fun e he => ?_⟩
    rw [evict_assign_buf]
    by_cases h3 : e = ev
    · rw [if_pos h3]
      rw [h3] at he ⊢
      exact ⟨hev, by rw [← hk]; exact ((h k).2 ev he).2⟩
    · rw [if_neg h3]
      exact (h k).2 e he

theorem evict_linked {fuel : Nat} {s s1 : Cache} {dev blockno v : Nat} (hl : Linked s)
    (h : evict fuel s dev blockno = .ok s1 v) : Linked s1 := by
  unfold evict at h
  rcases hlk : lookup s dev blockno with ⟨s0, o⟩
  rw [hlk] at h
  have hs := lookup_sameIdent s dev blockno
  rw [hlk] at hs
  cases o with
  | some res =>
    simp only [Res.ok.injEq] at h
    rw [← h.1]
    exact linked_of_sameIdent hl hs
  | none =>
    simp only at h
    cases he : evict_loop fuel s0 with
    | ok s2 ev =>
      rw [he] at h
      simp only [Res.ok.injEq] at h
      obtain ⟨hs2, hscan⟩ := evict_loop_ok he
      subst hs2
      rw [← h.1]
      exact evict_assign_linked (linked_of_sameIdent hl hs) ((lru_scan_spec s2).found ev hscan).1
    | panic m => rw [he] at h; simp at h
    | blocked s2 => rw [he] at h; simp at h
    | outOfFuel => rw [he] at h; simp at h

theorem bget_slot_linked {fuel : Nat} {s s1 : Cache} {dev blockno v : Nat} (hl : Linked s)
    (h : bget_slot fuel s dev blockno = .ok s1 v) : Linked s1 := by
  unfold bget_slot at h
  rcases hlk : lookup s dev blockno with ⟨s0, o⟩
  rw [hlk] at h
  have hs := lookup_sameIdent s dev blockno
  rw [hlk] at hs
  cases o with
  | some res =>
    simp only [Res.ok.injEq] at h
    rw [← h.1]
    exact linked_of_sameIdent hl hs
  | none => exact evict_linked (linked_of_sameIdent hl hs) h

theorem bget_linked {fuel pid : Nat} {s s1 : Cache} {dev blockno : Nat} (hl : Linked s)
    (h : (∃ v, bget fuel pid s dev blockno = .ok s1 v) ∨
      bget fuel pid s dev blockno = .blocked s1) : Linked s1 := by
  unfold bget at h
  cases hb : bget_slot fuel s dev blockno with
  | ok s0 res =>
    rw [hb] at h
    have h0 := bget_slot_linked hl hb
    simp only at h
    cases hk : (s0.buf res).lock with
    | none =>
      rw [hk] at h
      simp only [Res.ok.injEq, exists_and_left, reduceCtorEq, or_false] at h
      rw [← h.1]
      exact linked_of_sameIdent h0 (sameIdent_setBuf s0 res _ rfl rfl rfl)
    | some q =>
      rw [hk] at h
      simp only [reduceCtorEq, exists_false, Res.blocked.injEq, false_or] at h
      rw [← h]
      exact h0
  | panic m => rw [hb] at h; simp at h
  | blocked s0 => exact absurd hb (bget_slot_not_blocked fuel s s0 dev blockno)
  | outOfFuel => rw [hb] at h; simp at h

theorem bread_linked {fuel pid : Nat} {disk : Nat → Nat → List Nat} {s s1 : Cache}
    {dev blockno : Nat} (hl : Linked s)
    (h : (∃ r, bread disk fuel pid s dev blockno = .ok s1 r) ∨
      bread disk fuel pid s dev blockno = .blocked s1) : Linked s1 := by
  unfold bread at h
  cases hb : bget fuel pid s dev blockno with
  | ok s0 b =>
    rw [hb] at h
    have h0 : Linked s0 := bget_linked hl (Or.inl ⟨b, hb⟩)
    simp only at h
    by_cases hv : (s0.buf b).valid = 0
    · simp only [hv, if_true, Res.ok.injEq, exists_and_left, reduceCtorEq, or_false] at h
      rw [← h.1]
      exact linked_of_sameIdent h0 (sameIdent_setBuf s0 b _ rfl rfl rfl)
    · simp only [hv, if_false, Res.ok.injEq, exists_and_left, reduceCtorEq, or_false] at h
      rw [← h.1]
      exact h0
  | panic m => rw [hb] at h; simp at h
  | blocked s0 =>
    rw [hb] at h
    simp only [reduceCtorEq, exists_false, Res.blocked.injEq, false_or] at h
    rw [← h]
    exact bget_linked hl (Or.inr hb)
  | outOfFuel => rw [hb] at h; simp at h

theorem brelse_linked {pid ticks b : Nat} {s s1 : Cache} (hl : Linked s)
    (h : brelse pid ticks s b = .ok s1 ()) : Linked s1 := by
  obtain ⟨-, hs⟩ := brelse_ok_state h
  refine hl.of_same (by rw [hs]; rfl) (by rw [hs]; rfl) (fun i => ?_)
  rw [hs]
  by_cases hi : i = b
  · simp only [setBuf, hi, if_true]
  · simp only [setBuf, hi, if_false]

theorem binit_linked (NBUF : Nat) : Linked (binit NBUF) := by
  intro k
  rw [binit_table, binit_NBUF]
  refine ⟨List.nodup_reverse.2 ((List.nodup_range NBUF).filter _), fun e he => ?_⟩
  rw [List.mem_reverse, List.mem_filter, List.mem_range] at he
  rw [binit_buf, if_pos he.1]
  exact ⟨he.1, of_decide_eq_true he.2⟩

/-- Every reachable state has well-formed chains. -/
theorem reachable_linked {NBUF : Nat} {s : Cache} (h : Reachable NBUF s) : Linked s := by
  induction h with
  | init => exact binit_linked NBUF
  | bread disk fuel pid dev blockno _ hr ih => exact bread_linked ih (Or.inl ⟨_, hr⟩)
  | bread_blocked disk fuel pid dev blockno _ hr ih => exact bread_linked ih (Or.inr hr)
  | brelse pid ticks b _ _ hr ih => exact brelse_linked ih hr
  | bpin b _ _ ih => exact linked_of_sameIdent ih (sameIdent_setBuf _ b _ rfl rfl rfl)
  | bunpin b _ _ ih => exact linked_of_sameIdent ih (sameIdent_setBuf _ b _ rfl rfl rfl)

theorem linked_count {NBUF : Nat} {s : Cache} (hinv : Inv NBUF s) (hl : Linked s) {i : Nat}
    (hi : i < s.NBUF) (k : Nat) :
    (s.table k).count i = if k = hash (s.buf i).blockno then 1 else 0 := by
  by_cases hk : k = hash (s.buf i).blockno
  · rw [if_pos hk, hk]
    exact List.count_eq_one_of_mem (hl _).1 (hinv.chained i hi)
  · rw [if_neg hk]
    exact List.count_eq_zero_of_not_mem (linked_not_mem hl (fun h => hk h.symm))

theorem lookup_scan_some {buf : Nat → Buf} {dev blockno e : Nat} {l : List Nat}
    (h : lookup_scan buf dev blockno l = some e) :
    e ∈ l ∧ (buf e).dev = dev ∧ (buf e).blockno = blockno := by
  induction l with
  | nil => cases h
  | cons a t ih =>
    rw [lookup_scan] at h
    by_cases hc : (buf a).dev = dev ∧ (buf a).blockno = blockno
    · rw [if_pos hc] at h
      injection h with h1
      rw [← h1]
      exact ⟨List.mem_cons_self _ _, hc⟩
    · rw [if_neg hc] at h
      exact ⟨List.mem_cons_of_mem _ (ih h).1, (ih h).2⟩

theorem lookup_snd (s : Cache) (dev blockno : Nat) :
    (lookup s dev blockno).2 = lookup_scan s.buf dev blockno (s.table (hash blockno)) := by
  simp only [lookup]
  cases lookup_scan s.buf dev blockno (s.table (hash blockno)) <;> rfl

/-- In a state with the invariants a lookup returns the one slot that has the
identity, when there is one. -/
theorem lookup_finds {NBUF : Nat} {s : Cache} (hinv : Inv NBUF s) (hl : Linked s)
    {dev blockno i : Nat} (hi : i < s.NBUF) (hd : (s.buf i).dev = dev)
    (hb : (s.buf i).blockno = blockno) : (lookup s dev blockno).2 = some i := by
  rw [lookup_snd]
  cases hs : lookup_scan s.buf dev blockno (s.table (hash blockno)) with
  | none =>
    have hm := hinv.chained i hi
    rw [hb] at hm
    exact absurd ⟨hd, hb⟩ (lookup_scan_none hs i hm)
  | some e =>
    obtain ⟨he, hed, heb⟩ := lookup_scan_some hs
    have := hinv.unique e i ((hl _).2 e he).1 hi (hed.trans hd.symm) (heb.trans hb.symm)
    rw [this]

theorem sum_bucket_indicator (h0 : Nat) (hh : h0 < NBUCKET) :
    ((List.range NBUCKET).map (fun k => if k = h0 then 1 else 0)).sum = 1 := by
  unfold NBUCKET at *
  interval_cases h0 <;> decide

/-- C19: in every state reached from the one `binit` builds by `bread`,
`brelse`, `bpin` and `bunpin` calls, each slot `i < NBUF` occurs once in the
chain of bucket `hash blockno`, which is `blockno mod 13`, and not at all in
any other chain, so exactly once across the 13 chains; and `lookup(dev,
blockno)` returns a slot if and only if some slot holds the identity
`(dev, blockno)`. -/
theorem chains_partition_slots (NBUF : Nat) (s : Cache) (h : Reachable NBUF s) :
    (∀ i, i < NBUF → ∀ k,
      (s.table k).count i = if k = hash (s.buf i).blockno then 1 else 0) ∧
    (∀ i, i < NBUF → ((List.range NBUCKET).map (fun k => (s.table k).count i)).sum = 1) ∧
    (∀ dev blockno, (∃ e, (lookup s dev blockno).2 = some e) ↔
      ∃ i, i < NBUF ∧ (s.buf i).dev = dev ∧ (s.buf i).blockno = blockno) := by
  have hinv := reachable_inv h
  have hl := reachable_linked h
  have hcount : ∀ i, i < NBUF → ∀ k,
      (s.table k).count i = if k = hash (s.buf i).blockno then 1 else 0 := by
    intro i hi k
    rw [← hinv.size] at hi
    exact linked_count hinv hl hi k
  refine ⟨hcount, ?_, ?_⟩
  · intro i hi
    have : (List.range NBUCKET).map (fun k => (s.table k).count i) =
        (List.range NBUCKET).map (fun k => if k = hash (s.buf i).blockno then 1 else 0) := by
      apply List.map_congr_left
      intro k _
      exact hcount i hi k
    rw [this]
    exact sum_bucket_indicator _ (Nat.mod_lt _ (by decide))
  · intro dev blockno
    constructor
    · rintro ⟨e, he⟩
      rw [lookup_snd] at he
      obtain ⟨hm, hd, hb⟩ := lookup_scan_some he
      have hlt := ((hl _).2 e hm).1
      rw [hinv.size] at hlt
      exact ⟨e, hlt, hd, hb⟩
    · rintro ⟨i, hi, hd, hb⟩
      rw [← hinv.size] at hi
      exact ⟨i, lookup_finds hinv hl hi hd hb⟩

/-- Witness of C19 on the cache `demoCache`. -/
theorem chains_partition_slots_witness :
    Reachable 3 demoCache ∧
    (∀ i, i < 3 → ∀ k,
      (demoCache.table k).count i = if k = hash (demoCache.buf i).blockno then 1 else 0) :=
  ⟨demoCache_reachable, (chains_partition_slots 3 demoCache demoCache_reachable).1⟩

/-! ### Eviction -/

theorem lookup_miss_eq {s : Cache} {dev blockno : Nat} (h : (lookup s dev blockno).2 = none) :
    lookup s dev blockno = (s, none) := by
  rw [lookup_snd] at h
  simp only [lookup, h]

/-- On a miss with fuel left `evict` is the victim scan followed by the
reassignment. -/
theorem evict_miss_eq {s : Cache} {dev blockno : Nat} (fuel : Nat)
    (h : (lookup s dev blockno).2 = none) :
    evict (fuel + 1) s dev blockno =
      match (lru_scan s).1 with
      | none => .panic "bget: no buffers"
      | some lru => .ok (evict_assign s lru dev blockno) lru := by
  unfold evict
  rw [lookup_miss_eq h]
  simp only
  rw [evict_loop_succ]
  cases (lru_scan s).1 <;> rfl

theorem evict_miss_ok {fuel : Nat} {s s1 : Cache} {dev blockno v : Nat}
    (h : (lookup s dev blockno).2 = none) (hev : evict fuel s dev blockno = .ok s1 v) :
    (lru_scan s).1 = some v ∧ s1 = evict_assign s v dev blockno := by
  cases fuel with
  | zero =>
    unfold evict at hev
    rw [lookup_miss_eq h] at hev
    simp [evict_loop] at hev
  | succ n =>
    rw [evict_miss_eq n h] at hev
    cases hs : (lru_scan s).1 with
    | none => rw [hs] at hev; cases hev
    | some i =>
      rw [hs] at hev
      simp only [Res.ok.injEq] at hev
      rw [← hev.2, ← hev.1]
      exact ⟨rfl, rfl⟩

theorem evict_assign_count {s : Cache} {ev dev blockno j : Nat} (hj : j ≠ ev) (k : Nat) :
    ((evict_assign s ev dev blockno).table k).count j = (s.table k).count j := by
  rw [evict_assign_table]
  by_cases hk : hash (s.buf ev).blockno ≠ hash blockno
  · rw [if_pos hk]
    simp only [insert, remove]
    by_cases h1 : k = hash blockno
    · have hne : ¬ hash blockno = hash (s.buf ev).blockno := fun h => hk h.symm
      rw [if_pos h1, h1, if_neg hne]
      exact List.count_cons_of_ne hj _
    · rw [if_neg h1]
      by_cases h2 : k = hash (s.buf ev).blockno
      · rw [if_pos h2, remove_recur_eq_erase]
        exact List.count_erase_of_ne hj _
      · rw [if_neg h2]
  · rw [if_neg hk]

/-- C14: after a miss on `(dev, blockno)` in a reachable state, the slot `v`
that `evict` returns has device `dev`, block number `blockno`, valid flag 0
and reference count 1; it occurs once in the chain of bucket `hash blockno`
(`blockno mod 13`) and in no other chain; a lookup of `(dev, blockno)` right
afterwards returns `v`; and every other slot is unchanged in all its fields
and occurs in each chain as often as before. -/
theorem evict_reassigns_victim (NBUF fuel : Nat) (s s1 : Cache) (dev blockno v : Nat)
    (hr : Reachable NBUF s) (hmiss : (lookup s dev blockno).2 = none)
    (hev : evict fuel s dev blockno = .ok s1 v) :
    v < NBUF ∧ (s1.buf v).dev = dev ∧ (s1.buf v).blockno = blockno ∧
    (s1.buf v).valid = 0 ∧ (s1.buf v).refcnt = 1 ∧
    (∀ k, (s1.table k).count v = if k = hash blockno then 1 else 0) ∧
    (lookup s1 dev blockno).2 = some v ∧
    (∀ j, j ≠ v → s1.buf j = s.buf j ∧ ∀ k, (s1.table k).count j = (s.table k).count j) := by
  have hinv := reachable_inv hr
  have hl := reachable_linked hr
  obtain ⟨hscan, hs1⟩ := evict_miss_ok hmiss hev
  have hv : v < s.NBUF := ((lru_scan_spec s).found v hscan).1
  have habs := lookup_miss_absent hinv (lookup_miss_eq hmiss)
  have hinv1 : Inv NBUF s1 := by rw [hs1]; exact evict_assign_inv hinv hv habs
  have hl1 : Linked s1 := by rw [hs1]; exact evict_assign_linked hl hv
  have hbuf : s1.buf v =
      { s.buf v with dev := dev, blockno := blockno, valid := 0, refcnt := 1 } := by
    rw [hs1, evict_assign_buf, if_pos rfl]
  have hv1 : v < s1.NBUF := by rw [hs1, evict_assign_NBUF]; exact hv
  have hb : (s1.buf v).blockno = blockno := by rw [hbuf]
  have hd : (s1.buf v).dev = dev := by rw [hbuf]
  refine ⟨hinv.size ▸ hv, hd, hb, by rw [hbuf], by rw [hbuf], ?_, ?_, ?_⟩
  · intro k
    rw [linked_count hinv1 hl1 hv1 k, hb]
  · exact lookup_finds hinv1 hl1 hv1 hd hb
  · intro j hj
    refine ⟨?_, fun k => ?_⟩
    · rw [hs1, evict_assign_buf, if_neg hj]
    · rw [hs1]
      exact evict_assign_count hj k

/-- Witness of C14: block 18 of device 1 is missed in `demoReleased` and slot 1
is the victim. -/
theorem evict_reassigns_victim_witness :
    Reachable 3 demoReleased ∧ (lookup demoReleased 1 18).2 = none ∧
    (evict 1 demoReleased 1 18).val? = some 1 ∧
    (lookup ((evict 1 demoReleased 1 18).state demoReleased) 1 18).2 = some 1 :=
  ⟨demoReleased_reachable, by decide, by decide,
    (evict_reassigns_victim 3 1 demoReleased _ 1 18 1 demoReleased_reachable (by decide)
      (Res.eq_ok_of_val demoReleased (by decide))).2.2.2.2.2.2.1⟩

/-- C15: on a miss in a reachable state `evict` halts the kernel with
`panic("bget: no buffers")` if and only if no slot has reference count zero;
and whenever some slot has reference count zero it returns a slot. -/
theorem evict_panics_iff_no_free (NBUF fuel : Nat) (s : Cache) (dev blockno : Nat)
    (hr : Reachable NBUF s) (hmiss : (lookup s dev blockno).2 = none) :
    (evict (fuel + 1) s dev blockno = .panic "bget: no buffers" ↔
      ∀ i, i < NBUF → (s.buf i).refcnt ≠ 0) ∧
    ((∃ i, i < NBUF ∧ (s.buf i).refcnt = 0) →
      ∃ s1 v, evict (fuel + 1) s dev blockno = .ok s1 v ∧ v < NBUF) := by
  have hinv := reachable_inv hr
  have hspec := lru_scan_spec s
  rw [hinv.size] at hspec
  rw [evict_miss_eq fuel hmiss]
  have hnone : (lru_scan s).1 = none ↔ ∀ i, i < NBUF → (s.buf i).refcnt ≠ 0 := by
    constructor
    · intro hn i hi hz
      have h1 := hspec.lower i hi hz
      rw [hspec.none_init hn] at h1
      have h2 := hinv.stamp i
      have h3 : (2 : Nat) ^ 32 ≤ lru_tick_init := by decide
      omega
    · intro hall
      cases hs : (lru_scan s).1 with
      | none => rfl
      | some i =>
        obtain ⟨h1, h2, -⟩ := hspec.found i hs
        exact absurd h2 (hall i h1)
  constructor
  · constructor
    · intro h
      cases hs : (lru_scan s).1 with
      | none => exact hnone.1 hs
      | some i => rw [hs] at h; cases h
    · intro hall
      rw [hnone.2 hall]
  · rintro ⟨i, hi, hz⟩
    cases hs : (lru_scan s).1 with
    | none => exact absurd hz (hnone.1 hs i hi)
    | some v => exact ⟨_, v, rfl, (hspec.found v hs).1⟩

/-- Witness of C15 on the miss of block 18 of device 1 in `demoReleased`. -/
theorem evict_panics_iff_no_free_witness :
    Reachable 3 demoReleased ∧ (lookup demoReleased 1 18).2 = none ∧
    ((∃ i, i < 3 ∧ (demoReleased.buf i).refcnt = 0) →
      ∃ s1 v, evict (0 + 1) demoReleased 1 18 = .ok s1 v ∧ v < 3) :=
  ⟨demoReleased_reachable, by decide,
    (evict_panics_iff_no_free 3 0 demoReleased 1 18 demoReleased_reachable (by decide)).2⟩

/-! ### Reading and releasing a block -/

theorem lookup_hit_eq {s : Cache} {dev blockno e : Nat}
    (h : (lookup s dev blockno).2 = some e) :
    lookup s dev blockno =
      (setBuf s e { s.buf e with refcnt := ((s.buf e).refcnt + 1) % 2 ^ 32 }, some e) := by
  rw [lookup_snd] at h
  simp only [lookup, h]

theorem lookup_hit_props {s s1 : Cache} {dev blockno e : Nat} (hl : Linked s)
    (h : lookup s dev blockno = (s1, some e)) :
    e < s.NBUF ∧ (s1.buf e).dev = dev ∧ (s1.buf e).blockno = blockno := by
  have h2 : (lookup s dev blockno).2 = some e := by rw [h]
  have hs := lookup_sameIdent s dev blockno
  rw [h] at hs
  rw [lookup_snd] at h2
  obtain ⟨hm, hd, hb⟩ := lookup_scan_some h2
  exact ⟨((hl _).2 e hm).1, (hs.dev e).trans hd, (hs.blockno e).trans hb⟩

theorem evict_ok_props {fuel : Nat} {s s1 : Cache} {dev blockno v : Nat} (hl : Linked s)
    (h : evict fuel s dev blockno = .ok s1 v) :
    v < s.NBUF ∧ (s1.buf v).dev = dev ∧ (s1.buf v).blockno = blockno := by
  cases ho : (lookup s dev blockno).2 with
  | some e =>
    have hlk := lookup_hit_eq ho
    unfold evict at h
    rw [hlk] at h
    simp only [Res.ok.injEq] at h
    rw [← h.1, ← h.2]
    exact lookup_hit_props hl hlk
  | none =>
    obtain ⟨hscan, hs1⟩ := evict_miss_ok ho h
    rw [hs1, evict_assign_buf, if_pos rfl]
    exact ⟨((lru_scan_spec s).found v hscan).1, rfl, rfl⟩

theorem bget_slot_ok_props {fuel : Nat} {s s1 : Cache} {dev blockno v : Nat} (hl : Linked s)
    (h : bget_slot fuel s dev blockno = .ok s1 v) :
    v < s.NBUF ∧ (s1.buf v).dev = dev ∧ (s1.buf v).blockno = blockno := by
  cases ho : (lookup s dev blockno).2 with
  | some e =>
    have hlk := lookup_hit_eq ho
    unfold bget_slot at h
    rw [hlk] at h
    simp only [Res.ok.injEq] at h
    rw [← h.1, ← h.2]
    exact lookup_hit_props hl hlk
  | none =>
    unfold bget_slot at h
    rw [lookup_miss_eq ho] at h
    exact evict_ok_props hl h

/-- What `bget` returns: a slot of the cache with the identity asked for,
locked by the caller. -/
theorem bget_ok_props {fuel pid : Nat} {s s1 : Cache} {dev blockno v : Nat} (hl : Linked s)
    (h : bget fuel pid s dev blockno = .ok s1 v) :
    v < s.NBUF ∧ (s1.buf v).dev = dev ∧ (s1.buf v).blockno = blockno ∧
      (s1.buf v).lock = some pid := by
  unfold bget at h
  cases hb : bget_slot fuel s dev blockno with
  | ok s0 res =>
    rw [hb] at h
    simp only at h
    cases hk : (s0.buf res).lock with
    | none =>
      rw [hk] at h
      simp only [Res.ok.injEq] at h
      obtain ⟨h1, h2, h3⟩ := bget_slot_ok_props hl hb
      rw [← h.1, ← h.2]
      simp only [setBuf, if_true, and_true]
      exact ⟨h1, h2, h3⟩
    | some q => rw [hk] at h; cases h
  | panic m => rw [hb] at h; cases h
  | blocked s0 => rw [hb] at h; cases h
  | outOfFuel => rw [hb] at h; cases h

theorem evict_loop_fuel (fuel : Nat) (s : Cache) : evict_loop (fuel + 1) s ≠ .outOfFuel := by
  rw [evict_loop_succ]
  cases (lru_scan s).1 <;> simp

theorem bget_slot_fuel (fuel : Nat) (s : Cache) (dev blockno : Nat) :
    bget_slot (fuel + 1) s dev blockno ≠ .outOfFuel := by
  cases ho : (lookup s dev blockno).2 with
  | some e =>
    unfold bget_slot
    rw [lookup_hit_eq ho]
    simp
  | none =>
    unfold bget_slot
    rw [lookup_miss_eq ho]
    simp only
    rw [evict_miss_eq fuel ho]
    cases (lru_scan s).1 <;> simp

theorem bread_fuel (disk : Nat → Nat → List Nat) (fuel pid : Nat) (s : Cache)
    (dev blockno : Nat) : bread disk (fuel + 1) pid s dev blockno ≠ .outOfFuel := by
  unfold bread bget
  cases hb : bget_slot (fuel + 1) s dev blockno with
  | ok s0 res =>
    simp only
    cases (s0.buf res).lock with
    | none => simp only; split <;> simp
    | some q => simp
  | panic m => simp
  | blocked s0 => simp
  | outOfFuel => exact absurd hb (bget_slot_fuel fuel s dev blockno)

/-- What `bread` returns, in terms of what `bget` returned. -/
theorem bread_ok_cases {disk : Nat → Nat → List Nat} {fuel pid : Nat} {s s1 : Cache}
    {dev blockno b : Nat} {rd : Bool} (h : bread disk fuel pid s dev blockno = .ok s1 (b, rd)) :
    ∃ s0, bget fuel pid s dev blockno = .ok s0 b ∧
      (rd = true ↔ (s0.buf b).valid = 0) ∧
      (rd = true → s1 = setBuf s0 b { s0.buf b with
        data := disk (s0.buf b).dev (s0.buf b).blockno, valid := 1 }) ∧
      (rd = false → s1 = s0) := by
  unfold bread at h
  cases hb : bget fuel pid s dev blockno with
  | ok s0 b0 =>
    rw [hb] at h
    simp only at h
    by_cases hv : (s0.buf b0).valid = 0
    · rw [if_pos hv] at h
      simp only [Res.ok.injEq, Prod.mk.injEq] at h
      obtain ⟨h1, h2, h3⟩ := h
      subst h2
      refine ⟨s0, rfl, ?_, fun _ => h1.symm, fun hf => ?_⟩
      · rw [← h3]; simp [hv]
      · rw [← h3] at hf; cases hf
    · rw [if_neg hv] at h
      simp only [Res.ok.injEq, Prod.mk.injEq] at h
      obtain ⟨h1, h2, h3⟩ := h
      subst h2
      refine ⟨s0, rfl, ?_, fun ht => ?_, fun _ => h1.symm⟩
      · rw [← h3]; simp [hv]
      · rw [← h3] at ht; cases ht
  | panic m => rw [hb] at h; cases h
  | blocked s0 => rw [hb] at h; cases h
  | outOfFuel => rw [hb] at h; cases h

/-- A slot that holds the identity asked for, is valid and is not locked is
returned by `bread` without a disk read. -/
theorem bread_hit {NBUF : Nat} {s : Cache} (hinv : Inv NBUF s) (hl : Linked s)
    {dev blockno b : Nat} (hb : b < s.NBUF) (hd : (s.buf b).dev = dev)
    (hbn : (s.buf b).blockno = blockno) (hv : (s.buf b).valid ≠ 0)
    (hk : (s.buf b).lock = none) (disk : Nat → Nat → List Nat) (fuel pid : Nat) :
    ∃ s3, bread disk fuel pid s dev blockno = .ok s3 (b, false) := by
  have hlk := lookup_hit_eq (lookup_finds hinv hl hb hd hbn)
  unfold bread bget bget_slot
  rw [hlk]
  simp only [setBuf, if_true, hk, hv, if_false]
  exact ⟨_, rfl⟩

/-- C16: in a reachable state `bread` called with fuel left never runs out of
it (it returns, halts the kernel for want of a buffer, or sleeps on the lock);
whenever it returns, the slot `b` it returns is a slot of the cache with
identity `(dev, blockno)`, a valid flag that is set and the sleep-lock held by
the caller; the disk was read exactly when the slot `bget` handed over had
valid flag 0, and then the data are those of the disk; and after a `brelse`
of `b` by the caller, which returns, any further `bread(dev, blockno)` returns
the same slot `b` without a disk read. -/
theorem bread_contract (NBUF : Nat) (s : Cache) (dev blockno pid : Nat)
    (hr : Reachable NBUF s) :
    (∀ disk fuel, bread disk (fuel + 1) pid s dev blockno ≠ .outOfFuel) ∧
    ∀ disk fuel s1 b rd, bread disk fuel pid s dev blockno = .ok s1 (b, rd) →
      b < NBUF ∧ (s1.buf b).dev = dev ∧ (s1.buf b).blockno = blockno ∧
      (s1.buf b).valid ≠ 0 ∧ (s1.buf b).lock = some pid ∧
      (∃ s0, bget fuel pid s dev blockno = .ok s0 b ∧
        (rd = true ↔ (s0.buf b).valid = 0) ∧
        (rd = true → (s1.buf b).data = disk dev blockno ∧ (s1.buf b).valid = 1) ∧
        (rd = false → s1 = s0)) ∧
      ∀ ticks, ∃ s2, brelse pid ticks s1 b = .ok s2 () ∧
        ∀ disk2 fuel2 pid2, ∃ s3, bread disk2 fuel2 pid2 s2 dev blockno = .ok s3 (b, false) := by
  refine ⟨fun disk fuel => bread_fuel disk fuel pid s dev blockno, ?_⟩
  intro disk fuel s1 b rd hrun
  have hinv := reachable_inv hr
  have hl := reachable_linked hr
  obtain ⟨s0, hget, hrd, hread, hkeep⟩ := bread_ok_cases hrun
  obtain ⟨hb, hd, hbn, hlock⟩ := bget_ok_props hl hget
  rw [hinv.size] at hb
  have hfacts : (s1.buf b).dev = dev ∧ (s1.buf b).blockno = blockno ∧
      (s1.buf b).valid ≠ 0 ∧ (s1.buf b).lock = some pid ∧
      (rd = true → (s1.buf b).data = disk dev blockno ∧ (s1.buf b).valid = 1) := by
    cases rd with
    | true =>
      rw [hread rfl]
      refine ⟨by simp [setBuf, hd], by simp [setBuf, hbn], by simp [setBuf],
        by simp [setBuf, hlock], fun _ => ⟨by simp [setBuf, hd, hbn], by simp [setBuf]⟩⟩
    | false =>
      rw [hkeep rfl]
      have hv : (s0.buf b).valid ≠ 0 := fun h => by
        have := hrd.2 h
        cases this
      exact ⟨hd, hbn, hv, hlock, fun h => by cases h⟩
  obtain ⟨f1, f2, f3, f4, f5⟩ := hfacts
  refine ⟨hb, f1, f2, f3, f4, ⟨s0, hget, hrd, f5, hkeep⟩, ?_⟩
  intro ticks
  have hr1 : Reachable NBUF s1 := Reachable.bread disk fuel pid dev blockno hr hrun
  have hrel : brelse pid ticks s1 b = .ok
      (setBuf s1 b { s1.buf b with
        last_used := ticks % 2 ^ 32, lock := none,
        refcnt := ((s1.buf b).refcnt + 2 ^ 32 - 1) % 2 ^ 32 }) () := by
    unfold brelse
    rw [if_neg (by rw [f4]; simp)]
    simp only [setBuf, if_true]
    congr 2
    funext j
    by_cases hj : j = b
    · simp only [hj, if_true]
    · simp only [hj, if_false]
  refine ⟨_, hrel, ?_⟩
  intro disk2 fuel2 pid2
  have hr2 := Reachable.brelse pid ticks b hr1 hb hrel
  have hinv2 := reachable_inv hr2
  have hb2 : b < (setBuf s1 b { s1.buf b with
        last_used := ticks % 2 ^ 32, lock := none,
        refcnt := ((s1.buf b).refcnt + 2 ^ 32 - 1) % 2 ^ 32 }).NBUF := by
    rw [hinv2.size]; exact hb
  exact bread_hit hinv2 (reachable_linked hr2) hb2 (by simp [setBuf, f1])
    (by simp [setBuf, f2]) (by simp [setBuf, f3]) (by simp [setBuf]) disk2 fuel2 pid2

/-- The cache `binit 3` after process 7 read block 5 of device 1. -/
theorem bread_first : bread (fun _ _ => []) 1 7 (binit 3) 1 5 =
    .ok ((bread (fun _ _ => []) 1 7 (binit 3) 1 5).state (binit 3)) (0, true) :=
  Res.eq_ok_of_val (binit 3) (by decide)

/-- Witness of C16: the first `bread` of block 5 of device 1 after `binit`
reads the disk into slot 0. -/
theorem bread_contract_witness :
    Reachable 3 (binit 3) ∧
    (((bread (fun _ _ => []) 1 7 (binit 3) 1 5).state (binit 3)).buf 0).lock = some 7 :=
  ⟨Reachable.init,
    ((bread_contract 3 (binit 3) 1 5 7 Reachable.init).2 _ 1 _ 0 true bread_first).2.2.2.2.1⟩

/-- C17: `brelse(b)` called by a process that does not hold the sleep-lock
of `b` halts the kernel with `panic("brelse")`, which is its first statement,
before any store.  Called by the holder it returns, and then `b` has
`last_used` equal to `ticks` (a `uint`), a reference count one lower (in
`uint` arithmetic: exactly one lower when it was positive) and a free
sleep-lock, while the device, block number, valid flag and data of `b`, every
chain, the number of slots and every other slot are unchanged. -/
theorem brelse_effect (pid ticks : Nat) (s : Cache) (b : Nat) :
    ((s.buf b).lock ≠ some pid → brelse pid ticks s b = .panic "brelse") ∧
    ((s.buf b).lock = some pid → ∃ s1, brelse pid ticks s b = .ok s1 () ∧
      (s1.buf b).last_used = ticks % 2 ^ 32 ∧
      (ticks < 2 ^ 32 → (s1.buf b).last_used = ticks) ∧
      (s1.buf b).refcnt = ((s.buf b).refcnt + 2 ^ 32 - 1) % 2 ^ 32 ∧
      (0 < (s.buf b).refcnt → (s.buf b).refcnt < 2 ^ 32 →
        (s1.buf b).refcnt + 1 = (s.buf b).refcnt) ∧
      (s1.buf b).lock = none ∧
      (s1.buf b).dev = (s.buf b).dev ∧ (s1.buf b).blockno = (s.buf b).blockno ∧
      (s1.buf b).valid = (s.buf b).valid ∧ (s1.buf b).data = (s.buf b).data ∧
      s1.table = s.table ∧ s1.NBUF = s.NBUF ∧ ∀ j, j ≠ b → s1.buf j = s.buf j) := by
  constructor
  · intro h
    unfold brelse
    rw [if_pos h]
  · intro h
    have hrel : brelse pid ticks s b = .ok
        (setBuf s b { s.buf b with
          last_used := ticks % 2 ^ 32, lock := none,
          refcnt := ((s.buf b).refcnt + 2 ^ 32 - 1) % 2 ^ 32 }) () := by
      unfold brelse
      rw [if_neg (by rw [h]; simp)]
      simp only [setBuf, if_true]
      congr 2
      funext j
      by_cases hj : j = b
      · simp only [hj, if_true]
      · simp only [hj, if_false]
    refine ⟨_, hrel, by simp [setBuf], ?_, by simp [setBuf], ?_, by simp [setBuf],
      by simp [setBuf], by simp [setBuf], by simp [setBuf], by simp [setBuf], rfl, rfl, ?_⟩
    · intro ht
      simp only [setBuf, if_true]
      exact Nat.mod_eq_of_lt ht
    · intro h0 h1
      simp only [setBuf, if_true]
      have h2 : (s.buf b).refcnt + 2 ^ 32 - 1 = ((s.buf b).refcnt - 1) + 2 ^ 32 := by omega
      rw [h2, Nat.add_mod_right, Nat.mod_eq_of_lt (by omega)]
      omega
    · intro j hj
      simp only [setBuf, if_neg hj]

end Bcache

/-! ## Freeing a page and allocating it again -/

namespace Kalloc

theorem range_pos_eq {n : Nat} (h : 0 < n) :
    List.range n = 0 :: (List.range (n - 1)).map Nat.succ := by
  obtain ⟨m, rfl⟩ : ∃ m, n = m + 1 := ⟨n - 1, by omega⟩
  rw [List.range_succ_eq_map]
  rfl

/-- C18: for a page-aligned page `p` in `[end, PHYSTOP)` and a core
`c < NCPU`, `kfree(p)` on `c` returns and puts `p` at the head of the chain of
`c`, every other chain unchanged; a `kalloc` on `c` right afterwards returns
that `p`, with each of its 4096 bytes equal to the junk byte 5, and leaves
every chain as it was before the `kfree`. -/
theorem kfree_kalloc_round_trip (cfg : Config) (s : Kmem) (c p : Nat) (hc : c < cfg.NCPU)
    (hal : p % PGSIZE = 0) (hlo : cfg.kend ≤ p) (hhi : p < cfg.PHYSTOP) :
    ∃ s1, kfree cfg s c p = some s1 ∧ s1.freelist c = p :: s.freelist c ∧
      (∀ j, j ≠ c → s1.freelist j = s.freelist j) ∧
      ∃ s2, kalloc cfg s1 c = (s2, some p) ∧
        (∀ i, i < PGSIZE → s2.mem (p + i) = 5) ∧ ∀ j, s2.freelist j = s.freelist j := by
  have hk : kfree cfg s c p = some
      { freelist := fun i => if i = c then p :: s.freelist c else s.freelist i,
        mem := store64 (memset s.mem p 1 PGSIZE) p (headPtr (s.freelist c)) } := by
    unfold kfree
    rw [if_neg (by omega)]
  refine ⟨_, hk, by simp, fun j hj => by simp [hj], ?_⟩
  have hscan : kalloc_scan cfg
      { freelist := fun i => if i = c then p :: s.freelist c else s.freelist i,
        mem := store64 (memset s.mem p 1 PGSIZE) p (headPtr (s.freelist c)) } c
      (List.range cfg.NCPU) = some (c, p) := by
    rw [range_pos_eq (by omega)]
    exact kalloc_scan_take (t := s.freelist c) (Nat.mod_eq_of_lt (by omega)) (by simp)
  refine ⟨_, (by unfold kalloc; rw [hscan]), ?_, ?_⟩
  · intro i hi
    simp only [memset]
    rw [if_pos ⟨Nat.le_add_right _ _, by omega⟩]
  · intro j
    by_cases hj : j = c
    · simp [hj]
    · simp [hj]

/-- Witness of C18: core 3 frees the page `0x87fff000`, whose bytes were 0xAA,
and allocates it again. -/
theorem kfree_kalloc_round_trip_witness :
    ∃ s1, kfree xv6 noPages 3 0x87fff000 = some s1 ∧
      s1.freelist 3 = 0x87fff000 :: noPages.freelist 3 ∧
      (∀ j, j ≠ 3 → s1.freelist j = noPages.freelist j) ∧
      ∃ s2, kalloc xv6 s1 3 = (s2, some 0x87fff000) ∧
        (∀ i, i < PGSIZE → s2.mem (0x87fff000 + i) = 5) ∧
        ∀ j, s2.freelist j = noPages.freelist j :=
  kfree_kalloc_round_trip xv6 noPages 3 0x87fff000 (by decide) (by decide) (by decide)
    (by decide)

end Kalloc

/-! ## Locks held when a reference count changes -/

namespace Bcache

theorem lookup_refs_hold (held : List Lock) (s : Cache) (dev blockno : Nat) :
    ∀ w, w ∈ lookup_refs held s dev blockno → HoldsBucketLock s w := by
  intro w hw
  simp only [lookup_refs] at hw
  cases hs : lookup_scan s.buf dev blockno (s.table (hash blockno)) with
  | none => rw [hs] at hw; cases hw
  | some e =>
    rw [hs] at hw
    rw [List.mem_singleton] at hw
    rw [hw]
    exact ⟨hash blockno, (lookup_scan_some hs).1, List.mem_cons_self _ _⟩

/-- In a reachable state every store to a reference count that `bread` or
`brelse` makes is made with the lock of the slot's bucket held. -/
theorem bread_brelse_refs_hold {NBUF : Nat} {s : Cache} (hr : Reachable NBUF s)
    (fuel pid dev blockno b : Nat) (hb : b < NBUF) :
    (∀ w, w ∈ bget_refs fuel s dev blockno → HoldsBucketLock s w) ∧
    (∀ w, w ∈ brelse_refs pid s b → HoldsBucketLock s w) := by
  have hinv := reachable_inv hr
  constructor
  · intro w hw
    unfold bget_refs at hw
    cases ho : (lookup s dev blockno).2 with
    | some e =>
      rw [lookup_hit_eq ho] at hw
      exact lookup_refs_hold _ s dev blockno w hw
    | none =>
      rw [lookup_miss_eq ho] at hw
      simp only [evict_refs] at hw
      rw [lookup_miss_eq ho] at hw
      simp only at hw
      cases he : evict_loop fuel s with
      | ok s2 ev =>
        rw [he] at hw
        obtain ⟨hs2, hscan⟩ := evict_loop_ok he
        subst hs2
        rw [List.mem_singleton] at hw
        rw [hw]
        exact ⟨_, hinv.chained ev ((lru_scan_spec s2).found ev hscan).1,
          List.mem_cons_self _ _⟩
      | panic m => rw [he] at hw; cases hw
      | blocked s2 => rw [he] at hw; cases hw
      | outOfFuel => rw [he] at hw; cases hw
  · intro w hw
    unfold brelse_refs at hw
    split at hw
    · cases hw
    · rw [List.mem_singleton] at hw
      rw [hw]
      exact ⟨_, hinv.chained b (by rw [hinv.size]; exact hb), List.mem_cons_self _ _⟩

/-- C20 fails in `bpin` and `bunpin`: on the cache `binit 3`, slot 1 is in
the chain of bucket 1, `bpin` takes its reference count from 0 to 1 and
`bunpin` takes it back, and the one spin-lock held at either store is
`bcache.lock`: no bucket lock is among the locks held. -/
theorem bpin_holds_no_bucket_lock :
    1 ∈ (binit 3).table 1 ∧
    ((binit 3).buf 1).refcnt = 0 ∧ ((bpin (binit 3) 1).buf 1).refcnt = 1 ∧
    ((bunpin (bpin (binit 3) 1) 1).buf 1).refcnt = 0 ∧
    bpin_refs 1 = [{ slot := 1, held := [Lock.evict] }] ∧
    bunpin_refs 1 = [{ slot := 1, held := [Lock.evict] }] ∧
    (∀ w, w ∈ bpin_refs 1 → ¬ HoldsBucketLock (binit 3) w) ∧
    (∀ w, w ∈ bunpin_refs 1 → ¬ HoldsBucketLock (bpin (binit 3) 1) w) := by
  refine ⟨by decide, by decide, by decide, by decide, rfl, rfl, ?_, ?_⟩
  · intro w hw
    rw [bpin_refs, List.mem_singleton] at hw
    rintro ⟨k, -, hk⟩
    rw [hw] at hk
    simp at hk
  · intro w hw
    rw [bunpin_refs, List.mem_singleton] at hw
    rintro ⟨k, -, hk⟩
    rw [hw] at hk
    simp at hk

end Bcache

/-! ## Duplicating the regions of a process -/

namespace Mmap

theorem kalloc_some_mem {cfg : Config} {s s1 : Kalloc.Kmem} {id r : Nat}
    (h : Kalloc.kalloc cfg s id = (s1, some r)) : s1.mem = memset s.mem r 5 PGSIZE := by
  unfold Kalloc.kalloc at h
  cases hs : Kalloc.kalloc_scan cfg s id (List.range cfg.NCPU) with
  | none => rw [hs] at h; simp at h
  | some cr =>
    obtain ⟨c, r0⟩ := cr
    rw [hs] at h
    simp only [Prod.mk.injEq, Option.some.injEq] at h
    rw [← h.1, ← h.2]

theorem kalloc_some_sub {cfg : Config} {s s1 : Kalloc.Kmem} {id r : Nat}
    (h : Kalloc.kalloc cfg s id = (s1, some r)) :
    (∃ c, r ∈ s.freelist c) ∧ ∀ c x, x ∈ s1.freelist c → x ∈ s.freelist c := by
  have h1 := @Kalloc.kalloc_some_effect cfg s id r
  rw [h] at h1
  obtain ⟨j, -, -, hc, hother⟩ := h1 rfl
  simp only at hc hother
  refine ⟨⟨_, by rw [hc]; exact List.mem_cons_self _ _⟩, ?_⟩
  intro c x hx
  by_cases hcc : c = (id + j) % cfg.NCPU
  · rw [hcc, hc]
    rw [hcc] at hx
    exact List.mem_cons_of_mem _ hx
  · rw [← hother c hcc]
    exact hx

theorem pages_apart {x y b : Nat} (hx : x % PGSIZE = 0) (hy : y % PGSIZE = 0) (hne : x ≠ y)
    (hb : b < PGSIZE) : x + b < y ∨ y + PGSIZE ≤ x + b := by
  have hP : PGSIZE = 4096 := rfl
  rw [hP] at hx hy hb ⊢
  omega

theorem poolInv_of_freelist {s s1 : Kalloc.Kmem} {used : List Nat}
    (h : Kalloc.PoolInv s used) (hf : s1.freelist = s.freelist) : Kalloc.PoolInv s1 used :=
  ⟨fun i => by rw [hf]; exact h.nodup i,
    fun i j hij p hp => by rw [hf] at hp ⊢; exact h.disj i j hij p hp,
    h.used_nodup, fun p hp i => by rw [hf]; exact h.used_free p hp i⟩

/-- One round of the page loop keeps `CopyInv`; a resident page adds one entry
to the list of copied pages. -/
theorem mcopy_page_inv {cfg : Config} {ext : Ext} {cpu : Nat} {target : Vma} {va : Nat}
    {k k1 k2 : Kernel} {np np1 np2 : Proc} {used : List Nat} {D : List (Nat × Nat × Nat)}
    (hpool0 : Kalloc.PoolInv k.kmem used)
    (hfa : ∀ c x, x ∈ k.kmem.freelist c → x % PGSIZE = 0)
    (hres : ∀ a, walkaddr k.proc.pagetable a ≠ 0 →
      walkaddr k.proc.pagetable a ∈ used ∧ walkaddr k.proc.pagetable a % PGSIZE = 0)
    (hmap : ∀ s a pa perm, ext.mappages s a pa perm = true)
    (hinv : CopyInv k np used k1 np1 D) (hva : va % PGSIZE = 0)
    (hnew : ∀ d, d ∈ D → d.1 ≠ va)
    (hrun : mcopy_page cfg ext cpu target va k1 np1 = .ok k2 np2) :
    k2.ftable = k1.ftable ∧ np2.mvma = np1.mvma ∧
    ∃ D1, CopyInv k np used k2 np2 (D1 ++ D) ∧
      (walkaddr k.proc.pagetable va = 0 → D1 = []) ∧
      (walkaddr k.proc.pagetable va ≠ 0 → ∃ r, D1 = [(va, r, vma_perm cfg target)]) := by
  have hP : PGSIZE = 4096 := rfl
  unfold mcopy_page at hrun
  rw [hinv.proc] at hrun
  simp only at hrun
  by_cases hpa : walkaddr k.proc.pagetable va = 0
  · rw [if_pos hpa] at hrun
    simp only [Res.ok.injEq] at hrun
    rw [← hrun.1, ← hrun.2]
    exact ⟨rfl, rfl, [], hinv, fun _ => rfl, fun h => absurd hpa h⟩
  rw [if_neg hpa] at hrun
  rcases hk : Kalloc.kalloc cfg k1.kmem cpu with ⟨km, o⟩
  rw [hk] at hrun
  cases o with
  | none => cases hrun
  | some r =>
    simp only [hmap, if_true, Res.ok.injEq] at hrun
    obtain ⟨hk2, hnp2⟩ := hrun
    obtain ⟨hpau, hpaa⟩ := hres va hpa
    have hmem := kalloc_some_mem hk
    obtain ⟨⟨c0, hr1⟩, hsub⟩ := kalloc_some_sub hk
    have hr0 : r ∈ k.kmem.freelist c0 := hinv.sub c0 r hr1
    have hra : r % PGSIZE = 0 := hfa c0 r hr0
    have hrpa : r ≠ walkaddr k.proc.pagetable va := by
      intro h
      rw [h] at hr0
      exact hpool0.used_free _ hpau c0 hr0
    have hva2 : PGROUNDDOWN va = va := by
      unfold PGROUNDDOWN
      rw [hP] at hva ⊢
      omega
    have hm2 : k2.kmem.mem = memmove (memset k1.kmem.mem r 5 PGSIZE) r
        (walkaddr k.proc.pagetable va) PGSIZE := by
      rw [← hk2, hmem]
    have hout : ∀ a, (a < r ∨ r + PGSIZE ≤ a) → k2.kmem.mem a = k1.kmem.mem a := by
      intro a ha
      rw [hm2]
      simp only [memmove, memset]
      rw [if_neg (by omega), if_neg (by omega)]
    have hpt : np2.pagetable = fun a => if a = va then some (r, vma_perm cfg target)
        else np1.pagetable a := by
      rw [← hnp2, hva2]
    have hDne : ∀ d, d ∈ D → d.2.1 ≠ r := by
      intro d hd h
      have hu : d.2.1 ∈ D.map (fun d => d.2.1) ++ used :=
        List.mem_append_left _ (List.mem_map_of_mem _ hd)
      rw [h] at hu
      exact hinv.pool.used_free r hu c0 hr1
    have hDa : ∀ d, d ∈ D → d.2.1 % PGSIZE = 0 := by
      intro d hd
      obtain ⟨c, hc⟩ := hinv.fresh d hd
      exact hfa c _ hc
    have hDpa : ∀ d, d ∈ D → d.2.1 ≠ walkaddr k.proc.pagetable va := by
      intro d hd h
      obtain ⟨c, hc⟩ := hinv.fresh d hd
      rw [h] at hc
      exact hpool0.used_free _ hpau c hc
    refine ⟨by rw [← hk2], by rw [← hnp2], [(va, r, vma_perm cfg target)], ?_,
      fun h => absurd h hpa, fun _ => ⟨r, rfl⟩⟩
    constructor
    · rw [← hk2]
    · have h1 := Kalloc.kalloc_page_inv hinv.pool hk
      refine @poolInv_of_freelist km _ _ ?_ (by rw [← hk2])
      simpa using h1
    · intro c x hx
      have : k2.kmem.freelist = km.freelist := by rw [← hk2]
      rw [this] at hx
      exact hinv.sub c x (hsub c x hx)
    · intro a ha
      have h1 := ha (va, r, vma_perm cfg target) (by simp)
      rw [hout a h1]
      exact hinv.frame a (fun d hd => ha d (List.mem_append_right _ hd))
    · intro d hd
      rcases List.mem_append.1 hd with h1 | h1
      · rw [List.mem_singleton] at h1
        rw [h1]
        exact ⟨c0, hr0⟩
      · exact hinv.fresh d h1
    · intro d hd
      rcases List.mem_append.1 hd with h1 | h1
      · rw [List.mem_singleton] at h1
        rw [h1]
        refine ⟨hpa, by rw [hpt]; simp, ?_⟩
        intro b hb
        simp only
        rw [hm2]
        simp only [memmove]
        rw [if_pos ⟨Nat.le_add_right _ _, by omega⟩, Nat.add_sub_cancel_left]
        simp only [memset]
        rw [if_neg (by
          have := pages_apart hpaa hra (fun h => hrpa h.symm) hb
          omega)]
        apply hinv.frame
        intro d0 hd0
        exact pages_apart hpaa (hDa d0 hd0) (fun h => hDpa d0 hd0 h.symm) hb
      · obtain ⟨g1, g2, g3⟩ := hinv.pages d h1
        refine ⟨g1, ?_, ?_⟩
        · rw [hpt]
          simp only [if_neg (hnew d h1)]
          exact g2
        · intro b hb
          rw [hout _ (pages_apart (hDa d h1) hra (hDne d h1) hb)]
          exact g3 b hb
    · intro a ha
      have h1 : va ≠ a := ha (va, r, vma_perm cfg target) (by simp)
      have h2 : ¬ a = va := fun h => h1 h.symm
      rw [hpt]
      simp only [if_neg h2]
      exact hinv.other a (fun d hd => ha d (List.mem_append_right _ hd))

/-- The page loop of a region whose end is page-aligned keeps `CopyInv`; the
pages it adds are the resident pages from `va` to the end of the region, with
the permissions of the region. -/
theorem mcopy_pages_inv {cfg : Config} {ext : Ext} {cpu : Nat} {target : Vma}
    {k : Kernel} {np : Proc} {used : List Nat}
    (hpool0 : Kalloc.PoolInv k.kmem used)
    (hfa : ∀ c x, x ∈ k.kmem.freelist c → x % PGSIZE = 0)
    (hres : ∀ a, walkaddr k.proc.pagetable a ≠ 0 →
      walkaddr k.proc.pagetable a ∈ used ∧ walkaddr k.proc.pagetable a % PGSIZE = 0)
    (hmap : ∀ s a pa perm, ext.mappages s a pa perm = true)
    (hE : (target.addr + target.length) % 2 ^ 64 % PGSIZE = 0) :
    ∀ (fuel va : Nat) (k1 k2 : Kernel) (np1 np2 : Proc) (D : List (Nat × Nat × Nat)),
      va % PGSIZE = 0 → CopyInv k np used k1 np1 D →
      (∀ d, d ∈ D → d.1 < va ∨ (target.addr + target.length) % 2 ^ 64 ≤ d.1) →
      mcopy_pages cfg ext cpu target fuel va k1 np1 = .ok k2 np2 →
      k2.ftable = k1.ftable ∧ np2.mvma = np1.mvma ∧
      ∃ D1, CopyInv k np used k2 np2 (D1 ++ D) ∧
        (∀ d, d ∈ D1 → va ≤ d.1 ∧ d.1 < (target.addr + target.length) % 2 ^ 64 ∧
          d.2.2 = vma_perm cfg target) ∧
        (∀ a, va ≤ a → a < (target.addr + target.length) % 2 ^ 64 → a % PGSIZE = 0 →
          walkaddr k.proc.pagetable a ≠ 0 → ∃ d, d ∈ D1 ∧ d.1 = a) := by
  have hP : PGSIZE = 4096 := rfl
  have hlt : (target.addr + target.length) % 2 ^ 64 < 2 ^ 64 := Nat.mod_lt _ (Nat.two_pow_pos 64)
  obtain ⟨E, hEdef⟩ : ∃ E, E = (target.addr + target.length) % 2 ^ 64 := ⟨_, rfl⟩
  rw [← hEdef] at hE hlt ⊢
  intro fuel
  induction fuel with
  | zero =>
    intro va k1 k2 np1 np2 D _ _ _ hrun
    rw [mcopy_pages] at hrun
    cases hrun
  | succ fuel ih =>
    intro va k1 k2 np1 np2 D hva hinv hD hrun
    rw [mcopy_pages, ← hEdef] at hrun
    by_cases hc : va < E
    · rw [if_pos hc] at hrun
      cases hp : mcopy_page cfg ext cpu target va k1 np1 with
      | panic => rw [hp] at hrun; cases hrun
      | outOfFuel => rw [hp] at hrun; cases hrun
      | ok k3 np3 =>
        rw [hp] at hrun
        simp only at hrun
        have hnew : ∀ d, d ∈ D → d.1 ≠ va := by
          intro d hd
          have := hD d hd
          omega
        obtain ⟨f1, f2, D1, hinv1, hz, hnz⟩ :=
          mcopy_page_inv hpool0 hfa hres hmap hinv hva hnew hp
        have hnext : (va + PGSIZE) % 2 ^ 64 = va + PGSIZE := by
          apply Nat.mod_eq_of_lt
          rw [hP] at hva hE ⊢
          omega
        rw [hnext] at hrun
        have hD1 : ∀ d, d ∈ D1 → d.1 = va ∧ d.2.2 = vma_perm cfg target := by
          intro d hd
          by_cases hpa : walkaddr k.proc.pagetable va = 0
          · rw [hz hpa] at hd; cases hd
          · obtain ⟨r, hr⟩ := hnz hpa
            rw [hr, List.mem_singleton] at hd
            rw [hd]
            exact ⟨rfl, rfl⟩
        obtain ⟨g1, g2, D2, hinv2, hin, hcov⟩ := ih (va + PGSIZE) k3 k2 np3 np2 (D1 ++ D)
          (by rw [hP] at hva ⊢; omega) hinv1
          (by
            intro d hd
            rcases List.mem_append.1 hd with h1 | h1
            · left; rw [(hD1 d h1).1, hP]; omega
            · have := hD d h1
              rw [hP]; omega) hrun
        refine ⟨g1.trans f1, g2.trans f2, D2 ++ D1, by rw [List.append_assoc]; exact hinv2, ?_, ?_⟩
        · intro d hd
          rcases List.mem_append.1 hd with h1 | h1
          · obtain ⟨a1, a2, a3⟩ := hin d h1
            exact ⟨by rw [hP] at a1; omega, a2, a3⟩
          · obtain ⟨a1, a2⟩ := hD1 d h1
            exact ⟨by rw [a1], by rw [a1]; exact hc, a2⟩
        · intro a ha1 ha2 ha3 ha4
          by_cases hav : a = va
          · obtain ⟨r, hr⟩ := hnz (hav ▸ ha4)
            exact ⟨(va, r, vma_perm cfg target), by rw [hr]; simp, hav.symm⟩
          · obtain ⟨d, hd1, hd2⟩ := hcov a (by rw [hP] at hva ha3 ⊢; omega) ha2 ha3 ha4
            exact ⟨d, List.mem_append_left _ hd1, hd2⟩
    · rw [if_neg hc] at hrun
      simp only [Res.ok.injEq] at hrun
      rw [← hrun.1, ← hrun.2]
      refine ⟨rfl, rfl, [], hinv, fun d hd => (by cases hd), ?_⟩
      intro a ha1 ha2
      omega

theorem slotsOn_succ (p : Proc) (f n : Nat) :
    slotsOn p f (n + 1) = slotsOn p f n +
      if (p.mvma n).addr ≠ 0 ∧ (p.mvma n).ofile = some f then 1 else 0 := by
  unfold slotsOn
  rw [List.range_succ, List.filter_append, List.length_append]
  congr 1
  by_cases h : (p.mvma n).addr ≠ 0 ∧ (p.mvma n).ofile = some f
  · rw [if_pos h]
    simp [h]
  · rw [if_neg h]
    simp [h]

theorem forkInv_init {cfg : Config} {k : Kernel} {np : Proc} {used : List Nat}
    (hpool0 : Kalloc.PoolInv k.kmem used) : ForkInv cfg k np used 0 k np [] := by
  refine ⟨⟨rfl, by simpa using hpool0, fun _ _ h => h, fun _ _ => rfl, ?_, ?_, fun _ _ => rfl⟩,
    ?_, ?_, ?_, ?_⟩
  · intro d hd; cases hd
  · intro d hd; cases hd
  · intro d hd; cases hd
  · intro j hj; exact absurd hj (Nat.not_lt_zero j)
  · intro j; simp
  · intro f; simp [slotsOn]

/-- One round of the slot loop takes `ForkInv` from `n` to `n + 1`. -/
theorem mcopy_slot_inv {cfg : Config} {ext : Ext} {cpu fuel n : Nat}
    {k k1 k2 : Kernel} {np np1 np2 : Proc} {used : List Nat} {D : List (Nat × Nat × Nat)}
    (hT : cfg.TRAPFRAME < 2 ^ 64) (hreg : RegionInv cfg k.proc)
    (hpool0 : Kalloc.PoolInv k.kmem used)
    (hfa : ∀ c x, x ∈ k.kmem.freelist c → x % PGSIZE = 0)
    (hres : ∀ a, walkaddr k.proc.pagetable a ≠ 0 →
      walkaddr k.proc.pagetable a ∈ used ∧ walkaddr k.proc.pagetable a % PGSIZE = 0)
    (hmap : ∀ s a pa perm, ext.mappages s a pa perm = true)
    (hn : n < k.proc.NVMA) (hinv : ForkInv cfg k np used n k1 np1 D)
    (hrun : mcopy_slot cfg ext cpu fuel n k1 np1 = .ok k2 np2) :
    ∃ D1, ForkInv cfg k np used (n + 1) k2 np2 D1 := by
  have hP : PGSIZE = 4096 := rfl
  unfold mcopy_slot at hrun
  rw [hinv.copy.proc] at hrun
  by_cases hocc : (k.proc.mvma n).addr ≠ 0
  · rw [if_pos hocc] at hrun
    simp only [if_true] at hrun
    cases hof : (k.proc.mvma n).ofile with
    | none => rw [hof] at hrun; cases hrun
    | some f =>
      rw [hof] at hrun
      simp only at hrun
      obtain ⟨ha, hl, hb⟩ := hreg.shape n hn hocc
      have hEeq : ((k.proc.mvma n).addr + (k.proc.mvma n).length) % 2 ^ 64 =
          (k.proc.mvma n).addr + (k.proc.mvma n).length := Nat.mod_eq_of_lt (by omega)
      have hc0 : CopyInv k np used (filedup k1 f)
          { np1 with mvma := fun j => if j = n then k.proc.mvma n else np1.mvma j } D :=
        ⟨hinv.copy.proc, hinv.copy.pool, hinv.copy.sub, hinv.copy.frame, hinv.copy.fresh,
          hinv.copy.pages, hinv.copy.other⟩
      have hDpre : ∀ d, d ∈ D → d.1 < (k.proc.mvma n).addr ∨
          ((k.proc.mvma n).addr + (k.proc.mvma n).length) % 2 ^ 64 ≤ d.1 := by
        intro d hd
        rw [hEeq]
        obtain ⟨j, hj, hjo, h1, h2, -⟩ := hinv.regs d hd
        rcases hreg.disjoint j n (by omega) hn (by omega) hjo hocc with h3 | h3
        · left; omega
        · right; omega
      obtain ⟨f1, f2, D1, hinv1, hin, hcov⟩ := mcopy_pages_inv hpool0 hfa hres hmap
        (by rw [hEeq, hP] at *; omega) fuel _ _ _ _ _ D ha hc0 hDpre hrun
      rw [hEeq] at hin hcov
      refine ⟨D1 ++ D, hinv1, ?_, ?_, ?_, ?_⟩
      · intro d hd
        rcases List.mem_append.1 hd with h1 | h1
        · obtain ⟨a1, a2, a3⟩ := hin d h1
          exact ⟨n, Nat.lt_succ_self n, hocc, a1, a2, a3⟩
        · obtain ⟨j, hj, hrest⟩ := hinv.regs d h1
          exact ⟨j, Nat.lt_succ_of_lt hj, hrest⟩
      · intro j hj hjo a a1 a2 a3 a4
        rcases Nat.lt_succ_iff_lt_or_eq.1 hj with h1 | h1
        · obtain ⟨d, hd1, hd2⟩ := hinv.cover j h1 hjo a a1 a2 a3 a4
          exact ⟨d, List.mem_append_right _ hd1, hd2⟩
        · rw [h1] at a1 a2
          obtain ⟨d, hd1, hd2⟩ := hcov a a1 a2 a3 a4
          exact ⟨d, List.mem_append_left _ hd1, hd2⟩
      · intro j
        rw [f2]
        simp only
        by_cases hj : j = n
        · rw [if_pos hj, hj, if_pos ⟨Nat.lt_succ_self n, hocc⟩]
        · rw [if_neg hj, hinv.mvma j]
          have : j < n + 1 ↔ j < n := by omega
          simp only [this]
      · intro g
        rw [f1, slotsOn_succ]
        simp only [filedup]
        by_cases hg : g = f
        · rw [if_pos hg, if_pos ⟨hocc, by rw [hof, hg]⟩]
          simp only
          rw [hg, hinv.refs f]
          omega
        · have hno : ¬ ((k.proc.mvma n).addr ≠ 0 ∧ (k.proc.mvma n).ofile = some g) := by
            intro h
            have h2 := h.2
            rw [hof] at h2
            injection h2 with h3
            exact hg h3.symm
          rw [if_neg hg, if_neg hno, hinv.refs g]
          rfl
  · rw [if_neg hocc] at hrun
    simp only [Res.ok.injEq] at hrun
    rw [not_not] at hocc
    rw [← hrun.1, ← hrun.2]
    refine ⟨D, hinv.copy, ?_, ?_, ?_, ?_⟩
    · intro d hd
      obtain ⟨j, hj, hrest⟩ := hinv.regs d hd
      exact ⟨j, Nat.lt_succ_of_lt hj, hrest⟩
    · intro j hj hjo
      rcases Nat.lt_succ_iff_lt_or_eq.1 hj with h1 | h1
      · exact hinv.cover j h1 hjo
      · rw [h1] at hjo; exact absurd hocc hjo
    · intro j
      rw [hinv.mvma j]
      by_cases hj : j = n
      · rw [hj, if_neg (by omega), if_neg (fun h => h.2 hocc)]
      · have : j < n + 1 ↔ j < n := by omega
        simp only [this]
    · intro g
      rw [slotsOn_succ, if_neg (fun h => h.1 hocc), hinv.refs g]
      rfl

/-- The slot loop over slots `n .. n + c - 1` takes `ForkInv` from `n` to
`n + c`. -/
theorem mcopy_loop_inv {cfg : Config} {ext : Ext} {cpu fuel : Nat}
    {k : Kernel} {np : Proc} {used : List Nat}
    (hT : cfg.TRAPFRAME < 2 ^ 64) (hreg : RegionInv cfg k.proc)
    (hpool0 : Kalloc.PoolInv k.kmem used)
    (hfa : ∀ c x, x ∈ k.kmem.freelist c → x % PGSIZE = 0)
    (hres : ∀ a, walkaddr k.proc.pagetable a ≠ 0 →
      walkaddr k.proc.pagetable a ∈ used ∧ walkaddr k.proc.pagetable a % PGSIZE = 0)
    (hmap : ∀ s a pa perm, ext.mappages s a pa perm = true) :
    ∀ (c n : Nat) (k1 k2 : Kernel) (np1 np2 : Proc) (D : List (Nat × Nat × Nat)),
      n + c ≤ k.proc.NVMA → ForkInv cfg k np used n k1 np1 D →
      mcopy_loop cfg ext cpu fuel (List.range' n c) k1 np1 = .ok k2 np2 →
      ∃ D1, ForkInv cfg k np used (n + c) k2 np2 D1 := by
  intro c
  induction c with
  | zero =>
    intro n k1 k2 np1 np2 D _ hinv hrun
    simp only [List.range'_zero, mcopy_loop, Res.ok.injEq] at hrun
    rw [← hrun.1, ← hrun.2]
    exact ⟨D, hinv⟩
  | succ c ih =>
    intro n k1 k2 np1 np2 D hn hinv hrun
    rw [List.range'_succ, mcopy_loop] at hrun
    cases hs : mcopy_slot cfg ext cpu fuel n k1 np1 with
    | panic => rw [hs] at hrun; cases hrun
    | outOfFuel => rw [hs] at hrun; cases hrun
    | ok k3 np3 =>
      rw [hs] at hrun
      simp only at hrun
      obtain ⟨D1, hinv1⟩ := mcopy_slot_inv hT hreg hpool0 hfa hres hmap (by omega) hinv hs
      have := ih (n + 1) k3 k2 np3 np2 D1 (by omega) hinv1 hrun
      rw [show n + 1 + c = n + (c + 1) by omega] at this
      exact this

theorem mcopy_page_proc {cfg : Config} {ext : Ext} {cpu : Nat} {target : Vma} {va : Nat}
    {k1 k2 : Kernel} {np1 np2 : Proc}
    (h : mcopy_page cfg ext cpu target va k1 np1 = .ok k2 np2) : k2.proc = k1.proc := by
  unfold mcopy_page at h
  simp only at h
  split at h
  · simp only [Res.ok.injEq] at h; rw [← h.1]
  · split at h
    · cases h
    · split at h <;> · simp only [Res.ok.injEq] at h; rw [← h.1]

theorem mcopy_page_fuel (cfg : Config) (ext : Ext) (cpu : Nat) (target : Vma) (va : Nat)
    (k1 : Kernel) (np1 : Proc) : mcopy_page cfg ext cpu target va k1 np1 ≠ .outOfFuel := by
  unfold mcopy_page
  simp only
  split
  · simp
  · split
    · simp
    · split <;> simp

theorem mcopy_pages_proc {cfg : Config} {ext : Ext} {cpu : Nat} {target : Vma} :
    ∀ (fuel va : Nat) (k1 k2 : Kernel) (np1 np2 : Proc),
      mcopy_pages cfg ext cpu target fuel va k1 np1 = .ok k2 np2 → k2.proc = k1.proc := by
  intro fuel
  induction fuel with
  | zero => intro va k1 k2 np1 np2 h; rw [mcopy_pages] at h; cases h
  | succ fuel ih =>
    intro va k1 k2 np1 np2 h
    rw [mcopy_pages] at h
    split at h
    · cases hp : mcopy_page cfg ext cpu target va k1 np1 with
      | panic => rw [hp] at h; cases h
      | outOfFuel => rw [hp] at h; cases h
      | ok k3 np3 =>
        rw [hp] at h
        exact (ih _ _ _ _ _ h).trans (mcopy_page_proc hp)
    · simp only [Res.ok.injEq] at h; rw [← h.1]

/-- With more fuel than the region has pages left the page loop does not run
out of it. -/
theorem mcopy_pages_fuel {cfg : Config} {ext : Ext} {cpu : Nat} {target : Vma}
    (hE : (target.addr + target.length) % 2 ^ 64 % PGSIZE = 0) :
    ∀ (fuel va : Nat) (k1 : Kernel) (np1 : Proc), va % PGSIZE = 0 →
      ((target.addr + target.length) % 2 ^ 64 - va) / PGSIZE < fuel →
      mcopy_pages cfg ext cpu target fuel va k1 np1 ≠ .outOfFuel := by
  have hP : PGSIZE = 4096 := rfl
  have hlt : (target.addr + target.length) % 2 ^ 64 < 2 ^ 64 := Nat.mod_lt _ (Nat.two_pow_pos 64)
  obtain ⟨E, hEdef⟩ : ∃ E, E = (target.addr + target.length) % 2 ^ 64 := ⟨_, rfl⟩
  rw [← hEdef] at hE hlt ⊢
  intro fuel
  induction fuel with
  | zero => intro va k1 np1 _ h; exact absurd h (Nat.not_lt_zero _)
  | succ fuel ih =>
    intro va k1 np1 hva hf
    rw [mcopy_pages, ← hEdef]
    by_cases hc : va < E
    · rw [if_pos hc]
      cases hp : mcopy_page cfg ext cpu target va k1 np1 with
      | panic => simp
      | outOfFuel => exact absurd hp (mcopy_page_fuel cfg ext cpu target va k1 np1)
      | ok k3 np3 =>
        simp only
        have hnext : (va + PGSIZE) % 2 ^ 64 = va + PGSIZE := by
          apply Nat.mod_eq_of_lt
          rw [hP] at hva hE ⊢
          omega
        rw [hnext]
        apply ih
        · rw [hP] at hva ⊢; omega
        · rw [hP] at hva hE hf ⊢; omega
    · rw [if_neg hc]
      simp

theorem mcopy_slot_proc {cfg : Config} {ext : Ext} {cpu fuel i : Nat}
    {k1 k2 : Kernel} {np1 np2 : Proc}
    (h : mcopy_slot cfg ext cpu fuel i k1 np1 = .ok k2 np2) : k2.proc = k1.proc := by
  unfold mcopy_slot at h
  split at h
  · simp only at h
    split at h
    · cases h
    · exact mcopy_pages_proc _ _ (filedup k1 _) _ _ _ h
  · simp only [Res.ok.injEq] at h; rw [← h.1]

theorem mcopy_slot_fuel {cfg : Config} {ext : Ext} {cpu fuel i : Nat} {k1 : Kernel} {np1 : Proc}
    (hT : cfg.TRAPFRAME < 2 ^ 64) (hreg : RegionInv cfg k1.proc) (hi : i < k1.proc.NVMA)
    (hf : (k1.proc.mvma i).length / PGSIZE < fuel) :
    mcopy_slot cfg ext cpu fuel i k1 np1 ≠ .outOfFuel := by
  have hP : PGSIZE = 4096 := rfl
  unfold mcopy_slot
  by_cases hocc : (k1.proc.mvma i).addr ≠ 0
  · rw [if_pos hocc]
    simp only [if_true]
    obtain ⟨ha, hl, hb⟩ := hreg.shape i hi hocc
    have hEeq : ((k1.proc.mvma i).addr + (k1.proc.mvma i).length) % 2 ^ 64 =
        (k1.proc.mvma i).addr + (k1.proc.mvma i).length := Nat.mod_eq_of_lt (by omega)
    cases hof : (k1.proc.mvma i).ofile with
    | none => simp
    | some f =>
      simp only
      apply mcopy_pages_fuel (by rw [hEeq, hP] at *; omega) _ _ _ _ ha
      rw [hEeq, Nat.add_sub_cancel_left]
      exact hf
  · rw [if_neg hocc]
    simp

theorem mcopy_loop_fuel {cfg : Config} {ext : Ext} {cpu fuel : Nat}
    (hT : cfg.TRAPFRAME < 2 ^ 64) :
    ∀ (l : List Nat) (k1 : Kernel) (np1 : Proc), RegionInv cfg k1.proc →
      (∀ i, i ∈ l → i < k1.proc.NVMA) →
      (∀ i, i < k1.proc.NVMA → (k1.proc.mvma i).length / PGSIZE < fuel) →
      mcopy_loop cfg ext cpu fuel l k1 np1 ≠ .outOfFuel := by
  intro l
  induction l with
  | nil => intro k1 np1 _ _ _; simp [mcopy_loop]
  | cons i rest ih =>
    intro k1 np1 hreg hl hf
    rw [mcopy_loop]
    cases hs : mcopy_slot cfg ext cpu fuel i k1 np1 with
    | panic => simp
    | outOfFuel =>
      exact absurd hs (mcopy_slot_fuel hT hreg (hl i (List.mem_cons_self _ _))
        (hf i (hl i (List.mem_cons_self _ _))))
    | ok k3 np3 =>
      simp only
      have hp := mcopy_slot_proc hs
      apply ih
      · rw [hp]; exact hreg
      · intro j hj; rw [hp]; exact hl j (List.mem_cons_of_mem _ hj)
      · intro j hj; rw [hp] at hj ⊢; exact hf j hj

theorem Res.eq_ok_of_isSome {α : Type} {r : Res α} (d : Kernel) (a0 : α)
    (h : r.val?.isSome = true) : r = .ok (r.state d) (r.val?.getD a0) := by
  cases r with
  | ok k b => rfl
  | panic => cases h
  | outOfFuel => cases h

/-- C13: let `mcopy(p, np)` run on a parent `p` whose regions are page-aligned
and disjoint below `TRAPFRAME`, with an allocator whose free pages are
page-aligned, pairwise different and different from the pages in use, among
them the page-aligned resident pages of `p`, with a `mappages` that always
succeeds and a child that has nothing mapped in the regions of `p`.  With more
fuel than any region has pages the model does not run out of it.  Whenever
`mcopy` returns, which it does unless an allocation fails, the parent is
unchanged; every occupied slot `i` of `p` is copied to slot `i` of `np`; every
file has gained one reference for each occupied slot that maps it; and for
every page `va` of an occupied region `i`: when it is not resident in `p`
nothing is mapped at `va` in `np`; when it is, `np` maps `va` to a page
`new_pa` with the permissions `PTE_U`, `PTE_W` if the region is writeable and
`PTE_R` if it is readable, `new_pa` was free before the call and is free no
more, it holds the 4096 bytes of the page of `p`, and every resident page of
`p` keeps its bytes and shares no byte address with `new_pa`, so a store
through one of the two processes does not reach the page of the other. -/
theorem mcopy_copies_regions (cfg : Config) (ext : Ext) (cpu fuel : Nat) (k : Kernel)
    (np : Proc) (used : List Nat)
    (hT : cfg.TRAPFRAME < 2 ^ 64) (hreg : RegionInv cfg k.proc)
    (hpool : Kalloc.PoolInv k.kmem used)
    (hfa : ∀ c x, x ∈ k.kmem.freelist c → x % PGSIZE = 0)
    (hres : ∀ a, walkaddr k.proc.pagetable a ≠ 0 →
      walkaddr k.proc.pagetable a ∈ used ∧ walkaddr k.proc.pagetable a % PGSIZE = 0)
    (hmap : ∀ s a pa perm, ext.mappages s a pa perm = true)
    (hch : ∀ i, i < k.proc.NVMA → (k.proc.mvma i).addr ≠ 0 → ∀ a, (k.proc.mvma i).addr ≤ a →
      a < (k.proc.mvma i).addr + (k.proc.mvma i).length → np.pagetable a = none) :
    ((∀ i, i < k.proc.NVMA → (k.proc.mvma i).length / PGSIZE < fuel) →
      mcopy cfg ext cpu fuel k np ≠ .outOfFuel) ∧
    ∀ k1 np1, mcopy cfg ext cpu fuel k np = .ok k1 np1 →
      k1.proc = k.proc ∧
      (∀ i, i < k.proc.NVMA → (k.proc.mvma i).addr ≠ 0 → np1.mvma i = k.proc.mvma i) ∧
      (∀ f, (k1.ftable f).ref = (k.ftable f).ref + slotsOn k.proc f k.proc.NVMA) ∧
      ∀ i, i < k.proc.NVMA → (k.proc.mvma i).addr ≠ 0 → ∀ va, (k.proc.mvma i).addr ≤ va →
        va < (k.proc.mvma i).addr + (k.proc.mvma i).length → va % PGSIZE = 0 →
        (walkaddr k.proc.pagetable va = 0 → np1.pagetable va = none) ∧
        (walkaddr k.proc.pagetable va ≠ 0 → ∃ new_pa,
          np1.pagetable va = some (new_pa, vma_perm cfg (k.proc.mvma i)) ∧
          (∃ c, new_pa ∈ k.kmem.freelist c) ∧ (∀ c, new_pa ∉ k1.kmem.freelist c) ∧
          (∀ b, b < PGSIZE →
            k1.kmem.mem (new_pa + b) = k.kmem.mem (walkaddr k.proc.pagetable va + b)) ∧
          ∀ a, walkaddr k.proc.pagetable a ≠ 0 →
            (∀ b, b < PGSIZE → k1.kmem.mem (walkaddr k.proc.pagetable a + b) =
              k.kmem.mem (walkaddr k.proc.pagetable a + b)) ∧
            ∀ b c, b < PGSIZE → c < PGSIZE → new_pa + b ≠ walkaddr k.proc.pagetable a + c) := by
  have hP : PGSIZE = 4096 := rfl
  constructor
  · intro hf
    unfold mcopy
    exact mcopy_loop_fuel hT _ k np hreg (fun i hi => List.mem_range.1 hi) hf
  intro k1 np1 hrun
  unfold mcopy at hrun
  rw [List.range_eq_range'] at hrun
  obtain ⟨D, hinv⟩ := mcopy_loop_inv hT hreg hpool hfa hres hmap k.proc.NVMA 0 k k1 np np1 []
    (by omega) (forkInv_init hpool) hrun
  rw [Nat.zero_add] at hinv
  have hfreshD : ∀ d, d ∈ D → d.2.1 % PGSIZE = 0 ∧ ∀ a, walkaddr k.proc.pagetable a ≠ 0 →
      d.2.1 ≠ walkaddr k.proc.pagetable a := by
    intro d hd
    obtain ⟨c, hc⟩ := hinv.copy.fresh d hd
    refine ⟨hfa c _ hc, fun a ha h => ?_⟩
    rw [h] at hc
    exact hpool.used_free _ (hres a ha).1 c hc
  refine ⟨hinv.copy.proc, ?_, hinv.refs, ?_⟩
  · intro i hi hocc
    rw [hinv.mvma i, if_pos ⟨hi, hocc⟩]
  intro i hi hocc va h1 h2 h3
  constructor
  · intro hnr
    rw [hinv.copy.other va (fun d hd h => (hinv.copy.pages d hd).1 (by rw [h]; exact hnr))]
    exact hch i hi hocc va h1 h2
  · intro hr
    obtain ⟨d, hd, hdva⟩ := hinv.cover i hi hocc va h1 h2 h3 hr
    obtain ⟨-, hpt, hbytes⟩ := hinv.copy.pages d hd
    obtain ⟨j, hj, hjo, g1, g2, g3⟩ := hinv.regs d hd
    rw [hdva] at hpt hbytes g1 g2
    have hji : j = i := by
      by_contra hne
      rcases hreg.disjoint j i hj hi hne hjo hocc with h | h <;> omega
    rw [hji] at g3
    rw [g3] at hpt
    obtain ⟨hda, hdne⟩ := hfreshD d hd
    refine ⟨d.2.1, hpt, hinv.copy.fresh d hd, ?_, hbytes, ?_⟩
    · intro c
      exact hinv.copy.pool.used_free _
        (List.mem_append_left _ (List.mem_map_of_mem _ hd)) c
    · intro a ha
      obtain ⟨-, hpaa⟩ := hres a ha
      constructor
      · intro b hb
        apply hinv.copy.frame
        intro d0 hd0
        obtain ⟨h4, h5⟩ := hfreshD d0 hd0
        exact pages_apart hpaa h4 (fun h => h5 a ha h.symm) hb
      · intro b c hb hc h
        have := pages_apart hda hpaa (hdne a ha) hb
        rw [hP] at hc this
        omega

theorem forkParent_regionInv : RegionInv xv6 forkParent.proc := by
  have h0 : FitReachable xv6 okExt 0 (poolKernel rdwrFile) :=
    FitReachable.init _ (fun _ => rfl)
  have h1 : FitReachable xv6 okExt 0 twoPagesShared :=
    FitReachable.mmap 0 8192 3 1 3 4096 h0 (by decide)
  exact @RegionInv.of_eq xv6 twoPagesShared.proc forkParent.proc rfl rfl
    (fitReachable_regionInv (by decide) (by decide) h1)

theorem forkParent_poolInv : Kalloc.PoolInv forkParent.kmem [0x87fff000] := by
  refine ⟨?_, ?_, by simp, ?_⟩
  · intro i
    by_cases hi : i = 0 <;> simp [forkParent, hi]
  · intro i j hij p hp
    by_cases hi : i = 0
    · have hj : j ≠ 0 := fun h => hij (hi.trans h.symm)
      simp [forkParent, hj]
    · simp [forkParent, hi] at hp
  · intro p hp i
    rw [List.mem_singleton] at hp
    by_cases hi : i = 0 <;> simp [forkParent, hi, hp]

theorem forkParent_resident (a : Nat) (h : walkaddr forkParent.proc.pagetable a ≠ 0) :
    walkaddr forkParent.proc.pagetable a ∈ [0x87fff000] ∧
      walkaddr forkParent.proc.pagetable a % PGSIZE = 0 := by
  unfold walkaddr at h ⊢
  by_cases hc : PGROUNDDOWN a = 0x3fffffd000
  · simp [forkParent, hc, PGSIZE]
  · simp [forkParent, hc] at h

theorem forkParent_free_aligned (c x : Nat) (h : x ∈ forkParent.kmem.freelist c) :
    x % PGSIZE = 0 := by
  by_cases hc : c = 0
  · simp [forkParent, hc] at h
    rw [h]
    decide
  · simp [forkParent, hc] at h

/-- Witness of C13: the fork of `forkParent`.  The child maps the page at
`0x3fffffd000` to the page `0x87ffe000`, which holds the byte 0xAB at
offset 7 as the parent's page does. -/
theorem mcopy_copies_regions_witness :
    mcopy xv6 okExt 0 3 forkParent forkChild ≠ .outOfFuel ∧
    (((mcopy xv6 okExt 0 3 forkParent forkChild).val?.getD forkChild).pagetable 0x3fffffd000
      = some (0x87ffe000, 22)) ∧
    ((mcopy xv6 okExt 0 3 forkParent forkChild).state forkParent).kmem.mem (0x87ffe000 + 7)
      = 0xAB :=
  have h := mcopy_copies_regions xv6 okExt 0 3 forkParent forkChild [0x87fff000] (by decide)
    forkParent_regionInv forkParent_poolInv forkParent_free_aligned forkParent_resident
    (fun _ _ _ _ => rfl) (fun _ _ _ _ _ _ => rfl)
  ⟨h.1 (by decide), by decide, by decide⟩

end Mmap
